import Mathlib

/-!
Verification of the spade constrained-Delaunay-triangulation core.

This file gives a shallow embedding, in Lean 4, of the parts of the `spade`
repository that the checked claims are about:

* `src/delaunay_core/bulk_load.rs` — `pseudo_angle`, `bulk_load_stable`;
* `src/delaunay_core/triangulation_ext.rs` — vertex insertion, point
  location (including the degenerate all-collinear case), edge legalization
  and vertex removal;
* `src/cdt.rs` — the constrained triangulation layer: constraint bits,
  `num_constraints`, conflict-region resolution, `add_constraint`,
  `try_add_constraint` and `remove_constraint_edge`.

Numeric code that the source performs on `f64` is embedded over `ℚ`
(exact arithmetic).  DCEL handles are embedded exactly as in the source:
an undirected edge handle is a natural number `u`, its two directed
half-edges are `2*u` and `2*u + 1`, and `rev` toggles the lowest bit.

Code of the repository that lives outside the three source files above
(the `dcel_operations` module, the handle types, the line-intersection
iterator, `math.rs`) is modelled from the specification; each such
definition carries a doc comment starting with `Modelled from the spec:`.
Loops whose termination is geometric are embedded with an explicit fuel
parameter and return `Option`; `none` corresponds to a panic or to fuel
exhaustion.
-/

namespace SpadeProof

/-- A planar point, embedding `Point2<f64>` with exact rational coordinates. -/
abbrev Point : Type := ℚ × ℚ

/-- Modelled from the spec: the orientation primitive `side(a,b,c)`,
the sign of `(b.x−a.x)(c.y−a.y) − (b.y−a.y)(c.x−a.x)`.  We return the raw
determinant; callers compare it with `0`. -/
def side_query (a b c : Point) : ℚ :=
  (b.1 - a.1) * (c.2 - a.2) - (b.2 - a.2) * (c.1 - a.1)

/-- Modelled from the spec: `math::is_ordered_ccw(a, b, c)` holds when `c`
lies strictly to the left of the directed line from `a` to `b`, i.e. the
triple is in counterclockwise order. -/
def is_ordered_ccw (a b c : Point) : Bool :=
  0 < side_query a b c

/-- Modelled from the spec: the in-circle primitive
`contained_in_circumference(a,b,c,d)`, strictly true iff `d` lies inside the
circumcircle of `(a,b,c)` for a counterclockwise triple `(a,b,c)`; embedded
as the standard 3×3 in-circle determinant being positive. -/
def contained_in_circumference (a b c d : Point) : Bool :=
  let ax := a.1 - d.1
  let ay := a.2 - d.2
  let bx := b.1 - d.1
  let byy := b.2 - d.2
  let cx := c.1 - d.1
  let cy := c.2 - d.2
  0 < ax * (byy * (cx * cx + cy * cy) - cy * (bx * bx + byy * byy))
      - ay * (bx * (cx * cx + cy * cy) - cx * (bx * bx + byy * byy))
      + (ax * ax + ay * ay) * (bx * cy - byy * cx)

/-- Embeds `bulk_load.rs::pseudo_angle`: with `diff = a − center` and
`p = diff.x / (|diff.x| + |diff.y|)`, returns
`1 − (if diff.y > 0 then 3 − p else 1 + p) * 0.25`. -/
def pseudo_angle (a center : Point) : ℚ :=
  let dx : ℚ := a.1 - center.1
  let dy : ℚ := a.2 - center.2
  let p : ℚ := dx / (|dx| + |dy|)
  1 - (if 0 < dy then 3 - p else 1 + p) * (1/4)

/-- C5 — corrected: for `p ≠ c` the function computes exactly the value the
spec states (`1 − (3 − u)/4` when `d.y > 0`, else `1 − (1 + u)/4` with
`u = d.x / (|d.x| + |d.y|)`), and the result lies in the half-open interval
`(0, 1]` — not in `[0, 1)` as claimed: the value `1` is attained on the
negative x-axis (see the counterexample). -/
theorem pseudo_angle_formula_and_range (a center : Point) (h : a ≠ center) :
    (pseudo_angle a center =
      (let u : ℚ := (a.1 - center.1) / (|a.1 - center.1| + |a.2 - center.2|)
       if 0 < a.2 - center.2 then 1 - (3 - u) / 4 else 1 - (1 + u) / 4)) ∧
    0 < pseudo_angle a center ∧ pseudo_angle a center ≤ 1 := by
  have hne : a.1 - center.1 ≠ 0 ∨ a.2 - center.2 ≠ 0 := by
    by_contra hc
    push_neg at hc
    apply h
    have h1 : a.1 = center.1 := by linarith [hc.1]
    have h2 : a.2 = center.2 := by linarith [hc.2]
    exact Prod.ext h1 h2
  set dx : ℚ := a.1 - center.1 with hdx
  set dy : ℚ := a.2 - center.2 with hdy
  have hs : 0 < |dx| + |dy| := by
    rcases hne with h1 | h1
    · have : 0 < |dx| := abs_pos.mpr h1
      have : 0 ≤ |dy| := abs_nonneg dy
      linarith
    · have : 0 < |dy| := abs_pos.mpr h1
      have : 0 ≤ |dx| := abs_nonneg dx
      linarith
  set u : ℚ := dx / (|dx| + |dy|) with hu
  have hu_le : u ≤ 1 := by
    rw [hu, div_le_one hs]
    have := le_abs_self dx
    have := abs_nonneg dy
    linarith
  have hu_ge : -1 ≤ u := by
    rw [hu, le_div_iff hs]
    have := neg_abs_le dx
    have := abs_nonneg dy
    linarith
  constructor
  · simp only [pseudo_angle]
    split <;> ring
  · simp only [pseudo_angle]
    by_cases hcase : 0 < dy
    · -- here |dy| > 0, so u is strictly between -1 and 1
      have hdyp : 0 < |dy| := abs_pos.mpr (ne_of_gt hcase)
      have hu_lt : u < 1 := by
        rw [hu, div_lt_one hs]
        have := le_abs_self dx
        linarith
      have hu_gt : -1 < u := by
        rw [hu, lt_div_iff hs]
        have := neg_abs_le dx
        linarith
      rw [if_pos hcase]
      constructor <;> nlinarith
    · rw [if_neg hcase]
      constructor <;> nlinarith

/-- C5 — counterexample to the claimed range `[0, 1)`: at `p = (−1, 0)` and
`c = (0, 0)` (finite coordinates, `p ≠ c`) the pseudo-angle evaluates to
exactly `1`, which is not in `[0, 1)`. -/
theorem pseudo_angle_attains_one :
    pseudo_angle ((-1 : ℚ), (0 : ℚ)) ((0 : ℚ), (0 : ℚ)) = 1 ∧
    ¬ (pseudo_angle ((-1 : ℚ), (0 : ℚ)) ((0 : ℚ), (0 : ℚ)) < 1) ∧
    ((-1 : ℚ), (0 : ℚ)) ≠ ((0 : ℚ), (0 : ℚ)) := by
  refine ⟨?_, ?_, ?_⟩
  · norm_num [pseudo_angle]
  · norm_num [pseudo_angle]
  · simp [Prod.ext_iff]

/-- C5 — witness: the amended theorem applied at the concrete input
`p = (2, 3)`, `c = (0, 0)`. -/
theorem pseudo_angle_range_witness :
    ((2 : ℚ), (3 : ℚ)) ≠ ((0 : ℚ), (0 : ℚ)) ∧
      (0 < pseudo_angle ((2 : ℚ), (3 : ℚ)) ((0 : ℚ), (0 : ℚ)) ∧
        pseudo_angle ((2 : ℚ), (3 : ℚ)) ((0 : ℚ), (0 : ℚ)) ≤ 1) :=
  ⟨by simp [Prod.ext_iff],
   (pseudo_angle_formula_and_range ((2 : ℚ), (3 : ℚ)) ((0 : ℚ), (0 : ℚ))
      (by simp [Prod.ext_iff])).2⟩

/-! ## Stable bulk loading (`bulk_load.rs::bulk_load_stable`)

The stable bulk loader only reads and writes the vertex arena of the
triangulation returned by the wrapped constructor, so it is embedded over
that arena: a list of `PointWithIndex` records.  The constructor is a
parameter, exactly as in the source. -/

/-- Embeds `bulk_load.rs::PointWithIndex`: a user vertex wrapped together
with its original input index. -/
structure PointWithIndex (V : Type) where
  data : V
  index : ℕ
  deriving DecidableEq, Repr

/-- Modelled from the spec: `Dcel::swap_vertices` swaps the two vertex
records stored at the given handles (out-of-range handles panic). -/
def swap_vertices {V : Type} (l : List (PointWithIndex V)) (i j : ℕ) :
    Option (List (PointWithIndex V)) :=
  match l[i]?, l[j]? with
  | some a, some b => some ((l.set i b).set j a)
  | _, _ => none

/-- Embeds the duplicate-compaction step of `bulk_load_stable` (the branch
taken when the constructor dropped duplicate vertices): sort the vertex
handles by their stored original index — `slice::sort_unstable_by_key`,
embedded as a merge sort of `0..len` — and then assign each handle its
sequential position in that order as its new index. -/
def compact_indices {V : Type} (l : List (PointWithIndex V)) :
    List (PointWithIndex V) :=
  let noGap := (List.range l.length).mergeSort fun a b =>
    decide ((((l[a]?).map PointWithIndex.index).getD 0)
      ≤ (((l[b]?).map PointWithIndex.index).getD 0))
  (noGap.enum).foldl
    (fun acc p =>
      match acc[p.2]? with
      | some v => acc.set p.2 { v with index := p.1 }
      | none => acc)
    l

/-- Embeds the final swap loop of `bulk_load_stable`: starting at handle
`0`, advance when the vertex stored at `current` already carries index
`current`, and otherwise swap it to the arena slot named by its index.
The source's `loop` terminates by a decreasing measure; the embedding uses
explicit fuel and `bulk_load_stable` supplies enough of it
(`swapLoop_spec` proves the chosen amount is always sufficient). -/
def swapLoop {V : Type} (fuel : ℕ) (l : List (PointWithIndex V))
    (current : ℕ) : Option (List (PointWithIndex V)) :=
  match fuel with
  | 0 => none
  | fuel + 1 =>
    if l.length ≤ current then some l
    else
      match l[current]? with
      | none => none
      | some b =>
        if current = b.index then swapLoop fuel l (current + 1)
        else
          match swap_vertices l b.index current with
          | some l2 => swapLoop fuel l2 current
          | none => none

/-- Embeds `bulk_load.rs::bulk_load_stable`, restricted to the vertex arena
(the only component it touches): wrap every input vertex with its original
index, run the wrapped constructor, compact indices if duplicates were
dropped, swap vertices until every vertex's index equals its arena handle,
and strip the indices again. -/
def bulk_load_stable {V : Type}
    (constructor : List (PointWithIndex V) → Option (List (PointWithIndex V)))
    (elements : List V) : Option (List V) :=
  let elements2 := elements.enum.map fun p => PointWithIndex.mk p.2 p.1
  let numOriginal := elements2.length
  match constructor elements2 with
  | none => none
  | some vs =>
    let vs2 := if vs.length ≠ numOriginal then compact_indices vs else vs
    match swapLoop (3 * vs2.length + 1) vs2 0 with
    | none => none
    | some final => some (final.map PointWithIndex.data)

/-- Number of arena slots at offset `k` whose stored index does not match
their position; the decreasing measure of the swap loop. -/
def missCount {V : Type} : List (PointWithIndex V) → ℕ → ℕ
  | [], _ => 0
  | v :: t, k => (if v.index = k then 0 else 1) + missCount t (k + 1)

theorem missCount_le_length {V : Type} :
    ∀ (l : List (PointWithIndex V)) (k : ℕ), missCount l k ≤ l.length := by
  intro l
  induction l with
  | nil => intro k; simp [missCount]
  | cons v t ih =>
    intro k
    simp only [missCount, List.length_cons]
    have := ih (k + 1)
    split <;> omega

theorem missCount_set {V : Type} :
    ∀ (l : List (PointWithIndex V)) (n k : ℕ) (x v : PointWithIndex V),
      l[n]? = some v →
      missCount (l.set n x) k + (if v.index = k + n then 0 else 1)
        = missCount l k + (if x.index = k + n then 0 else 1) := by
  intro l
  induction l with
  | nil => intro n k x v h; simp at h
  | cons a t ih =>
    intro n k x v h
    match n with
    | 0 =>
      simp only [List.getElem?_cons_zero, Option.some.injEq] at h
      subst h
      simp only [List.set_cons_zero, missCount, Nat.add_zero]
      omega
    | n + 1 =>
      simp only [List.getElem?_cons_succ] at h
      simp only [List.set_cons_succ, missCount]
      have := ih n (k + 1) x v h
      have harith : k + 1 + n = k + (n + 1) := by omega
      rw [harith] at this
      omega

theorem missCount_set_zero {V : Type} (l : List (PointWithIndex V)) (n : ℕ)
    (x v : PointWithIndex V) (h : l[n]? = some v) :
    missCount (l.set n x) 0 + (if v.index = n then 0 else 1)
      = missCount l 0 + (if x.index = n then 0 else 1) := by
  have := missCount_set l n 0 x v h
  rwa [Nat.zero_add] at this

theorem cons_set_perm {α : Type _} :
    ∀ (t : List α) (k : ℕ) (y x : α), t[k]? = some y →
      (y :: t.set k x).Perm (x :: t) := by
  intro t
  induction t with
  | nil => intro k y x h; simp at h
  | cons a t ih =>
    intro k y x h
    match k with
    | 0 =>
      simp only [List.getElem?_cons_zero, Option.some.injEq] at h
      subst h
      simpa using List.Perm.swap x a t
    | k + 1 =>
      simp only [List.getElem?_cons_succ] at h
      simp only [List.set_cons_succ]
      exact (List.Perm.swap a y _).trans
        ((List.Perm.cons a (ih k y x h)).trans (List.Perm.swap x a t))

theorem set_set_perm_lt {α : Type _} :
    ∀ (l : List α) (i j : ℕ) (x y : α), l[i]? = some x → l[j]? = some y →
      i < j → ((l.set i y).set j x).Perm l := by
  intro l
  induction l with
  | nil => intro i j x y hx hy hij; simp at hx
  | cons a t ih =>
    intro i j x y hx hy hij
    match i, j with
    | 0, j + 1 =>
      simp only [List.getElem?_cons_zero, Option.some.injEq] at hx
      subst hx
      simp only [List.getElem?_cons_succ] at hy
      simp only [List.set_cons_zero, List.set_cons_succ]
      exact cons_set_perm t j y a hy
    | i + 1, j + 1 =>
      simp only [List.getElem?_cons_succ] at hx hy
      simp only [List.set_cons_succ]
      exact List.Perm.cons a (ih i j x y hx hy (by omega))

theorem set_set_perm {α : Type _} (l : List α) (i j : ℕ) (x y : α)
    (hx : l[i]? = some x) (hy : l[j]? = some y) (hij : i ≠ j) :
    ((l.set i y).set j x).Perm l := by
  rcases Nat.lt_or_ge i j with h | h
  · exact set_set_perm_lt l i j x y hx hy h
  · have hlt : j < i := by omega
    rw [List.set_comm _ _ _ hij]
    exact set_set_perm_lt l j i y x hy hx hlt

/-- Sufficiency of the fuel for the swap loop, together with the loop's
postcondition: the result exists, has the same length and elements, and
every vertex's index equals its arena slot. -/
theorem swapLoop_spec {V : Type} :
    ∀ (fuel : ℕ) (l : List (PointWithIndex V)) (current : ℕ),
      (l.map PointWithIndex.index).Perm (List.range l.length) →
      (∀ (i : ℕ) (v : PointWithIndex V), i < current → l[i]? = some v →
        v.index = i) →
      l.length - current + 2 * missCount l 0 < fuel →
      ∃ r, swapLoop fuel l current = some r ∧ r.length = l.length ∧
        (∀ x, x ∈ r → x ∈ l) ∧
        (∀ (i : ℕ) (v : PointWithIndex V), r[i]? = some v → v.index = i) := by
  intro fuel
  induction fuel with
  | zero => intro l current hperm hfix hfuel; omega
  | succ fuel ih =>
    intro l current hperm hfix hfuel
    by_cases hdone : l.length ≤ current
    · refine ⟨l, ?_, rfl, fun x hx => hx, ?_⟩
      · simp [swapLoop, hdone]
      · intro i v hv
        have hi : i < l.length := by
          by_contra hge
          rw [List.getElem?_eq_none (by omega)] at hv
          exact Option.noConfusion hv
        exact hfix i v (by omega) hv
    · push_neg at hdone
      obtain ⟨b, hb⟩ : ∃ b, l[current]? = some b :=
        ⟨_, List.getElem?_eq_getElem hdone⟩
      by_cases heq : current = b.index
      · -- advance
        have hfix2 : ∀ (i : ℕ) (v : PointWithIndex V), i < current + 1 →
            l[i]? = some v → v.index = i := by
          intro i v hi hv
          rcases Nat.lt_or_ge i current with h | h
          · exact hfix i v h hv
          · have : i = current := by omega
            subst this
            rw [hv] at hb
            cases hb
            omega
        obtain ⟨r, hr, hrl, hrm, hri⟩ := ih l (current + 1) hperm hfix2 (by omega)
        refine ⟨r, ?_, hrl, hrm, hri⟩
        simp only [swapLoop, hb]
        rw [if_neg (by omega : ¬ l.length ≤ current), if_pos heq]
        exact hr
      · -- swap
        have hnodup : (l.map PointWithIndex.index).Nodup :=
          hperm.nodup_iff.mpr (List.nodup_range _)
        have hmapc : (l.map PointWithIndex.index)[current]? = some b.index := by
          rw [List.getElem?_map, hb]; rfl
        have hold_lt : b.index < l.length := by
          have hmem : b.index ∈ l.map PointWithIndex.index :=
            List.get?_mem (by rw [List.get?_eq_getElem?]; exact hmapc)
          have := hperm.mem_iff.mp hmem
          simpa [List.mem_range] using this
        obtain ⟨a, ha⟩ : ∃ a, l[b.index]? = some a :=
          ⟨_, List.getElem?_eq_getElem hold_lt⟩
        have hmapo : (l.map PointWithIndex.index)[b.index]? = some a.index := by
          rw [List.getElem?_map, ha]; rfl
        -- the target slot cannot lie inside the already-fixed prefix
        have hgt : current < b.index := by
          rcases Nat.lt_or_ge b.index current with h | h
          · exfalso
            have hidx : a.index = b.index := hfix b.index a h ha
            have : b.index = current := by
              apply List.getElem?_inj (by simpa using hold_lt) hnodup
              rw [hmapo, hmapc, hidx]
            omega
          · omega
        set l2 := (l.set b.index b).set current a with hl2
        have hswap : swap_vertices l b.index current = some l2 := by
          simp [swap_vertices, ha, hb, hl2]
        have hl2len : l2.length = l.length := by
          simp [hl2]
        -- index multiset is preserved by a swap
        have hperm2 : (l2.map PointWithIndex.index).Perm
            (List.range l2.length) := by
          have hp : (l2.map PointWithIndex.index).Perm
              (l.map PointWithIndex.index) := by
            have := set_set_perm (l.map PointWithIndex.index) b.index current
              a.index b.index hmapo hmapc (by omega)
            simpa [hl2, List.map_set] using this
          rw [hl2len]
          exact hp.trans hperm
        -- prefix below `current` is untouched
        have hfix2 : ∀ (i : ℕ) (v : PointWithIndex V), i < current →
            l2[i]? = some v → v.index = i := by
          intro i v hi hv
          rw [hl2, List.getElem?_set_ne (by omega : current ≠ i),
            List.getElem?_set_ne (by omega : b.index ≠ i)] at hv
          exact hfix i v hi hv
        -- the measure strictly decreases
        have hne_ab : a.index ≠ b.index := by
          intro hcontra
          have : b.index = current := by
            apply List.getElem?_inj (by simpa using hold_lt) hnodup
            rw [hmapo, hmapc, hcontra]
          omega
        have hmiss : missCount l2 0 + 1 ≤ missCount l 0 := by
          have h1 := missCount_set_zero l b.index b a ha
          have h2 := missCount_set_zero (l.set b.index b) current a b
            (by rw [List.getElem?_set_ne (by omega : b.index ≠ current)]; exact hb)
          rw [if_neg hne_ab, if_pos rfl] at h1
          rw [if_neg (by omega : ¬ b.index = current)] at h2
          rw [hl2]
          by_cases hac : a.index = current
          · rw [if_pos hac] at h2
            omega
          · rw [if_neg hac] at h2
            omega
        obtain ⟨r, hr, hrl, hrm, hri⟩ := ih l2 current hperm2 hfix2 (by
          rw [hl2len]
          omega)
        refine ⟨r, ?_, by rw [hrl, hl2len], ?_, hri⟩
        · simp only [swapLoop, hb, hswap]
          rw [if_neg (by omega : ¬ l.length ≤ current), if_neg heq]
          exact hr
        · intro x hx
          have hx2 := hrm x hx
          rcases List.mem_or_eq_of_mem_set hx2 with h | h
          · rcases List.mem_or_eq_of_mem_set h with h2 | h2
            · exact h2
            · subst h2; exact List.get?_mem (by rw [List.get?_eq_getElem?]; exact hb)
          · subst h; exact List.get?_mem (by rw [List.get?_eq_getElem?]; exact ha)

/-- C8: for input vertices with pairwise distinct positions the wrapped
constructor keeps every vertex (its arena is a permutation of the wrapped
input — the spec's statement about duplicate removal); under that
hypothesis `bulk_load_stable` returns exactly the input list: the vertex
stored at arena handle `i` is `input[i]`, so in particular its position is
the position of `input[i]`. -/
theorem bulk_load_stable_preserves_order {V : Type}
    (constructor : List (PointWithIndex V) → Option (List (PointWithIndex V)))
    (elements : List V) (vs : List (PointWithIndex V))
    (hc : constructor (elements.enum.map fun p => PointWithIndex.mk p.2 p.1)
      = some vs)
    (hperm : vs.Perm (elements.enum.map fun p => PointWithIndex.mk p.2 p.1)) :
    bulk_load_stable constructor elements = some elements := by
  set elements2 := elements.enum.map fun p => PointWithIndex.mk p.2 p.1
    with helements2
  have hlen : vs.length = elements2.length := hperm.length_eq
  have hn : elements2.length = elements.length := by
    rw [helements2, List.length_map, List.enum_length]
  have hmapidx : elements2.map PointWithIndex.index
      = List.range elements.length := by
    rw [helements2, List.map_map]
    have : (PointWithIndex.index ∘ fun p : ℕ × V => PointWithIndex.mk p.2 p.1)
        = Prod.fst := by
      funext p; rfl
    rw [this, List.enum_map_fst]
  have hperm_idx : (vs.map PointWithIndex.index).Perm
      (List.range vs.length) := by
    rw [hlen, hn, ← hmapidx]
    exact hperm.map _
  obtain ⟨r, hr, hrl, hrm, hri⟩ := swapLoop_spec (3 * vs.length + 1) vs 0
    hperm_idx (by intro i v hi; omega)
    (by have := missCount_le_length vs 0; omega)
  -- identify the result with the wrapped input, slot by slot
  have hrlen : r.length = elements.length := by rw [hrl, hlen, hn]
  have hreq : r = elements2 := by
    apply List.ext_getElem?
    intro i
    rcases Nat.lt_or_ge i elements.length with hi | hi
    · obtain ⟨v, hv⟩ : ∃ v, r[i]? = some v :=
        ⟨_, List.getElem?_eq_getElem (by omega)⟩
      have hvidx : v.index = i := hri i v hv
      have hvmem : v ∈ elements2 := hperm.mem_iff.mp (hrm v (List.get?_mem
        (by rw [List.get?_eq_getElem?]; exact hv)))
      obtain ⟨p, hp, hpv⟩ := List.mem_map.mp (by rw [helements2] at hvmem; exact hvmem)
      have hp2 : (v.index, v.data) ∈ elements.enum := by
        have : p = (v.index, v.data) := by
          rw [← hpv]
        rw [← this]; exact hp
      have hget : elements.get? v.index = some v.data :=
        List.mk_mem_enum_iff_get?.mp hp2
      rw [hv, helements2, List.getElem?_map, ← List.get?_eq_getElem?,
        List.get?_enum, ← hvidx, hget]
      rfl
    · have h1 : r[i]? = none := List.getElem?_eq_none (by omega)
      have h2 : elements2[i]? = none := List.getElem?_eq_none (by omega)
      rw [h1, h2]
  -- assemble the run of `bulk_load_stable`
  have hvs2 : (if vs.length ≠ elements2.length then compact_indices vs else vs)
      = vs := by
    simp [hlen]
  simp only [bulk_load_stable]
  rw [← helements2, hc]
  simp only [hvs2, hr, hreq, helements2, List.map_map]
  congr 1
  have : (PointWithIndex.data ∘ fun p : ℕ × V => PointWithIndex.mk p.2 p.1)
      = Prod.snd := by
    funext p; rfl
  rw [this, List.enum_map_snd]

/-- C8 — witness: a constructor that reverses the arena (a permutation) on
the concrete input `[10, 20, 30]`; the stable loader restores input order. -/
theorem bulk_load_stable_witness :
    (fun l : List (PointWithIndex ℕ) => some l.reverse)
        ((([10, 20, 30] : List ℕ).enum.map fun p => PointWithIndex.mk p.2 p.1))
      = some ((([10, 20, 30] : List ℕ).enum.map
          fun p => PointWithIndex.mk p.2 p.1).reverse) ∧
    bulk_load_stable (fun l => some l.reverse) [10, 20, 30]
      = some [10, 20, 30] :=
  ⟨rfl, bulk_load_stable_preserves_order _ [10, 20, 30] _ rfl
    (List.reverse_perm _)⟩

/-! ## The embedded DCEL / CDT state

Handles follow the source layout: undirected edge `u` owns the directed
half-edges `2u` (its `as_directed`) and `2u + 1`; `rev` toggles the lowest
bit; `as_undirected` halves.  Vertices and faces are natural numbers; face
`0` is the sentinel outer face. -/

/-- The embedded state of a `ConstrainedDelaunayTriangulation`: the DCEL
arena (live undirected edge handles, an allocator bound, half-edge origin /
next / prev / face maps, vertex records), the per-edge constraint bit of
`CdtEdge`, and the `num_constraints` counter. -/
structure Cdt where
  nextEdge : ℕ
  edges : List ℕ
  bit : ℕ → Bool
  num_constraints : ℕ
  origin : ℕ → ℕ
  nxt : ℕ → ℕ
  prv : ℕ → ℕ
  face : ℕ → ℕ
  vdata : ℕ → Point × ℕ
  numVertices : ℕ
  numFaces : ℕ
  nextFace : ℕ

/-- Embeds `FixedDirectedEdgeHandle::rev`: the twin half-edge. -/
def rev (d : ℕ) : ℕ := if d % 2 = 0 then d + 1 else d - 1

/-- Embeds `FixedDirectedEdgeHandle::as_undirected`. -/
def asUndirected (d : ℕ) : ℕ := d / 2

/-- Position stored in a vertex record. -/
def Cdt.pos (s : Cdt) (v : ℕ) : Point := (s.vdata v).1

/-- Embeds `DirectedEdgeHandle::to`: the origin of the twin. -/
def Cdt.toVertex (s : Cdt) (d : ℕ) : ℕ := s.origin (rev d)

/-- Embeds `DirectedEdgeHandle::ccw` — rotate counterclockwise about the
origin vertex: the twin of the previous edge. -/
def Cdt.ccw (s : Cdt) (d : ℕ) : ℕ := rev (s.prv d)

/-- Embeds `DirectedEdgeHandle::cw` — rotate clockwise about the origin
vertex: the next edge of the twin. -/
def Cdt.cw (s : Cdt) (d : ℕ) : ℕ := s.nxt (rev d)

/-- Embeds `DirectedEdgeHandle::is_outer_edge`: the incident face is the
sentinel outer face. -/
def Cdt.isOuterEdge (s : Cdt) (d : ℕ) : Bool := s.face d = 0

/-- Embeds `DirectedEdgeHandle::side_query(p)`: orientation of `p` against
the directed edge. -/
def Cdt.edgeSide (s : Cdt) (d : ℕ) (p : Point) : ℚ :=
  side_query (s.pos (s.origin d)) (s.pos (s.toVertex d)) p

/-- Embeds `DirectedEdgeHandle::opposite_vertex`: the vertex of the incident
face opposite this edge; `none` when the incident face is the outer face. -/
def Cdt.opposite_vertex (s : Cdt) (d : ℕ) : Option ℕ :=
  if s.isOuterEdge d then none else some (s.toVertex (s.nxt d))

/-- Embeds `DirectedEdgeHandle::opposite_position`. -/
def Cdt.opposite_position (s : Cdt) (d : ℕ) : Option Point :=
  (s.opposite_vertex d).map s.pos

/-- Number of undirected edges whose constraint bit is set — the right-hand
side of the spec's constraint-count invariant. -/
def Cdt.countConstraintBits (s : Cdt) : ℕ := (s.edges.filter s.bit).length

/-- Write one constraint bit (raw, no counter change) — the source's direct
`undirected_edge_data_mut(edge).0 = false` unfreezing writes, and the
building block of the checked setters. -/
def Cdt.setBit (s : Cdt) (e : ℕ) (b : Bool) : Cdt :=
  { s with bit := fun u => if u = e then b else s.bit u }

/-- Embeds `ConstrainedDelaunayTriangulation::make_constraint_edge`
(cdt.rs): set the bit and bump the counter only when the bit was clear. -/
def Cdt.make_constraint_edge (s : Cdt) (e : ℕ) : Cdt :=
  if s.bit e then s
  else { s.setBit e true with num_constraints := s.num_constraints + 1 }

/-- Embeds the CDT's `is_defined_legal` hook (cdt.rs): true exactly on
constraint-bit edges. -/
def Cdt.is_defined_legal (s : Cdt) (e : ℕ) : Bool := s.bit e

/-- Modelled from the spec: `dcel_operations::flip_cw`, the canonical
four-vertex diagonal swap.  With quad `v0 = from e`, `v1 = to e`,
`v2 = left opposite`, `v3 = right opposite`, the flipped edge connects the
former opposite vertices (`v2 → v3` on handle `2u`), the two incident face
records are reused, and only the six half-edges of the quad are rewired.
The constraint bit, the edge arena and all other edges are untouched. -/
def flip_cw (s : Cdt) (u : ℕ) : Cdt :=
  let e := 2 * u
  let e2 := 2 * u + 1
  let n1 := s.nxt e
  let n2 := s.nxt n1
  let n3 := s.nxt e2
  let n4 := s.nxt n3
  let f1 := s.face e
  let f2 := s.face e2
  let v2 := s.toVertex n1
  let v3 := s.toVertex n3
  { s with
    origin := fun d => if d = e then v2 else if d = e2 then v3 else s.origin d
    nxt := fun d =>
      if d = e then n4 else if d = n4 then n1 else if d = n1 then e
      else if d = e2 then n2 else if d = n2 then n3 else if d = n3 then e2
      else s.nxt d
    prv := fun d =>
      if d = n4 then e else if d = n1 then n4 else if d = e then n1
      else if d = n2 then e2 else if d = n3 then n2 else if d = e2 then n3
      else s.prv d
    face := fun d =>
      if d = n4 then f1 else if d = n2 then f2 else s.face d }

/-! ## Edge legalization (`triangulation_ext.rs`) -/

/-- Embeds the worklist loop of `TriangulationExt::legalize_edge`
(triangulation_ext.rs): pop an edge, skip it when `is_defined_legal`,
otherwise run the in-circle test against the two opposite vertices and, on
a positive answer, push the new candidate edges (the far quadrilateral
sides, plus the near ones when `fully_legalize`) and flip.  Fuel-indexed;
`none` is fuel exhaustion. -/
def legalizeLoop (s : Cdt) (fuel : ℕ) (stack : List ℕ) (fully : Bool)
    (acc : Bool) : Option (Cdt × Bool) :=
  match fuel with
  | 0 => none
  | fuel + 1 =>
    match stack with
    | [] => some (s, acc)
    | e :: rest =>
      if s.is_defined_legal (asUndirected e) then
        legalizeLoop s fuel rest fully acc
      else
        match s.opposite_position (rev e), s.opposite_position e with
        | some v2, some v3 =>
          let v0 := s.pos (s.origin e)
          let v1 := s.pos (s.toVertex e)
          let shouldFlip := contained_in_circumference v2 v1 v0 v3
          if shouldFlip then
            let pushes := (if fully then [s.prv e, s.nxt e] else [])
              ++ [s.prv (rev e), s.nxt (rev e)]
            legalizeLoop (flip_cw s (asUndirected e)) fuel (pushes ++ rest)
              fully true
          else legalizeLoop s fuel rest fully acc
        | _, _ => legalizeLoop s fuel rest fully acc

/-- Embeds `TriangulationExt::legalize_edge`: seed the worklist with the
given edge. -/
def legalize_edge (fuel : ℕ) (s : Cdt) (e : ℕ) (fully : Bool) :
    Option (Cdt × Bool) :=
  legalizeLoop s fuel [e] fully false

/-- Embeds `TriangulationExt::legalize_edges_after_removal`
(triangulation_ext.rs): a worklist loop over undirected edges that skips
`is_defined_legal` edges and edges matched by the caller's
do-not-flip predicate, uses in-circle when both opposite vertices exist and
orientation when the edge borders the convex hull, panics when neither
exists, and pushes the four surrounding edges (deduplicated) before each
flip. -/
def legalize_edges_after_removal (fuel : ℕ) (s : Cdt) (stack : List ℕ)
    (pred : ℕ → Bool) : Option Cdt :=
  match fuel with
  | 0 => none
  | fuel + 1 =>
    match stack with
    | [] => some s
    | u :: rest =>
      if s.is_defined_legal u || pred u then
        legalize_edges_after_removal fuel s rest pred
      else
        let e := 2 * u
        let e2 := s.prv e
        let e4 := s.prv (rev e)
        let fromP := s.pos (s.origin e)
        let toP := s.pos (s.toVertex e)
        let decision : Option Bool :=
          match s.opposite_position e, s.opposite_position (rev e) with
          | some left, some right =>
            some (contained_in_circumference fromP toP left right)
          | none, some right => some (is_ordered_ccw right fromP toP)
          | some left, none => some (is_ordered_ccw left toP fromP)
          | none, none => none
        match decision with
        | none => none
        | some false => legalize_edges_after_removal fuel s rest pred
        | some true =>
          let e1 := s.nxt e
          let e3 := s.nxt (rev e)
          let newStack :=
            [asUndirected e1, asUndirected e2, asUndirected e3,
              asUndirected e4].foldl
              (fun st h => if st.contains h then st else h :: st) rest
          legalize_edges_after_removal fuel (flip_cw s u) newStack pred

/-- A flip never touches the constraint bits, the counter, or the arena. -/
theorem flip_cw_bit (s : Cdt) (u : ℕ) : (flip_cw s u).bit = s.bit := rfl

theorem flip_cw_edges (s : Cdt) (u : ℕ) : (flip_cw s u).edges = s.edges := rfl

theorem flip_cw_num_constraints (s : Cdt) (u : ℕ) :
    (flip_cw s u).num_constraints = s.num_constraints := rfl

/-- A flip changes the endpoints of the flipped edge only. -/
theorem flip_cw_origin_other (s : Cdt) (u w : ℕ) (h : w ≠ u) :
    (flip_cw s u).origin (2 * w) = s.origin (2 * w) ∧
      (flip_cw s u).origin (2 * w + 1) = s.origin (2 * w + 1) := by
  constructor <;>
    · show (if _ = _ then _ else if _ = _ then _ else _) = _
      rw [if_neg (by omega), if_neg (by omega)]

/-- Chaining step: preservation facts relative to a flipped state transfer
back to the unflipped state, provided the flipped edge had a clear bit. -/
theorem flip_chain (s : Cdt) (u : ℕ) (hbit : s.bit u = false) (s2 : Cdt)
    (h : s2.bit = (flip_cw s u).bit ∧ s2.edges = (flip_cw s u).edges ∧
      s2.num_constraints = (flip_cw s u).num_constraints ∧
      ∀ w, (flip_cw s u).bit w = true →
        s2.origin (2 * w) = (flip_cw s u).origin (2 * w) ∧
          s2.origin (2 * w + 1) = (flip_cw s u).origin (2 * w + 1)) :
    s2.bit = s.bit ∧ s2.edges = s.edges ∧
      s2.num_constraints = s.num_constraints ∧
      ∀ w, s.bit w = true →
        s2.origin (2 * w) = s.origin (2 * w) ∧
          s2.origin (2 * w + 1) = s.origin (2 * w + 1) := by
  refine ⟨h.1.trans (flip_cw_bit s u), h.2.1, h.2.2.1, ?_⟩
  intro w hw
  have hne : w ≠ u := by
    intro heq
    rw [heq, hbit] at hw
    exact Bool.noConfusion hw
  have hstep := flip_cw_origin_other s u w hne
  have hw2 : (flip_cw s u).bit w = true := by rw [flip_cw_bit]; exact hw
  have hrec := h.2.2.2 w hw2
  exact ⟨hrec.1.trans hstep.1, hrec.2.trans hstep.2⟩

/-- Invariant of the `legalize_edge` worklist loop: constraint bits, the
counter, the arena and the endpoints of every bit-set edge survive. -/
theorem legalizeLoop_preserves :
    ∀ (fuel : ℕ) (s : Cdt) (stack : List ℕ) (fully acc : Bool) (s2 : Cdt)
      (r : Bool),
      legalizeLoop s fuel stack fully acc = some (s2, r) →
      s2.bit = s.bit ∧ s2.edges = s.edges ∧
        s2.num_constraints = s.num_constraints ∧
        ∀ u, s.bit u = true →
          s2.origin (2 * u) = s.origin (2 * u) ∧
            s2.origin (2 * u + 1) = s.origin (2 * u + 1) := by
  intro fuel
  induction fuel with
  | zero => intro s stack fully acc s2 r h; exact absurd h (by simp [legalizeLoop])
  | succ fuel ih =>
    intro s stack fully acc s2 r h
    match stack with
    | [] =>
      simp only [legalizeLoop, Option.some.injEq, Prod.mk.injEq] at h
      rw [h.1]
      exact ⟨rfl, rfl, rfl, fun u _ => ⟨rfl, rfl⟩⟩
    | e :: rest =>
      rw [legalizeLoop] at h
      by_cases hleg : s.is_defined_legal (asUndirected e) = true
      · rw [if_pos hleg] at h
        exact ih s rest fully acc s2 r h
      · rw [if_neg hleg] at h
        have hbit : s.bit (asUndirected e) = false := by
          rw [Bool.not_eq_true] at hleg
          exact hleg
        rcases h2 : s.opposite_position (rev e) with _ | v2 <;>
          rcases h3 : s.opposite_position e with _ | v3 <;>
            simp only [h2, h3] at h
        · exact ih s rest fully acc s2 r h
        · exact ih s rest fully acc s2 r h
        · exact ih s rest fully acc s2 r h
        · by_cases hflip : contained_in_circumference v2
            (s.pos (s.toVertex e)) (s.pos (s.origin e)) v3 = true
          · rw [if_pos hflip] at h
            exact flip_chain s (asUndirected e) hbit s2
              (ih (flip_cw s (asUndirected e)) _ fully true s2 r h)
          · rw [if_neg hflip] at h
            exact ih s rest fully acc s2 r h

/-- Invariant of the `legalize_edges_after_removal` worklist loop, as for
`legalizeLoop_preserves`. -/
theorem legalize_edges_after_removal_preserves :
    ∀ (fuel : ℕ) (s : Cdt) (stack : List ℕ) (pred : ℕ → Bool) (s2 : Cdt),
      legalize_edges_after_removal fuel s stack pred = some s2 →
      s2.bit = s.bit ∧ s2.edges = s.edges ∧
        s2.num_constraints = s.num_constraints ∧
        ∀ u, s.bit u = true →
          s2.origin (2 * u) = s.origin (2 * u) ∧
            s2.origin (2 * u + 1) = s.origin (2 * u + 1) := by
  intro fuel
  induction fuel with
  | zero =>
    intro s stack pred s2 h
    exact absurd h (by simp [legalize_edges_after_removal])
  | succ fuel ih =>
    intro s stack pred s2 h
    match stack with
    | [] =>
      simp only [legalize_edges_after_removal, Option.some.injEq] at h
      rw [← h]
      exact ⟨rfl, rfl, rfl, fun u _ => ⟨rfl, rfl⟩⟩
    | u :: rest =>
      rw [legalize_edges_after_removal] at h
      by_cases hskip : (s.is_defined_legal u || pred u) = true
      · rw [if_pos hskip] at h
        exact ih s rest pred s2 h
      · rw [if_neg hskip] at h
        have hbit : s.bit u = false := by
          rcases Bool.or_eq_false_iff.mp (Bool.not_eq_true _ |>.mp hskip)
            with ⟨h1, _⟩
          exact h1
        rcases hop1 : s.opposite_position (2 * u) with _ | left <;>
          rcases hop2 : s.opposite_position (rev (2 * u)) with _ | right <;>
            simp only [hop1, hop2] at h
        · exact absurd h (by simp)
        · by_cases hflip : is_ordered_ccw right (s.pos (s.origin (2 * u)))
            (s.pos (s.toVertex (2 * u))) = true
          · rw [hflip] at h
            exact flip_chain s u hbit s2 (ih (flip_cw s u) _ pred s2 h)
          · rw [Bool.not_eq_true] at hflip
            rw [hflip] at h
            exact ih s rest pred s2 h
        · by_cases hflip : is_ordered_ccw left
            (s.pos (s.toVertex (2 * u))) (s.pos (s.origin (2 * u))) = true
          · rw [hflip] at h
            exact flip_chain s u hbit s2 (ih (flip_cw s u) _ pred s2 h)
          · rw [Bool.not_eq_true] at hflip
            rw [hflip] at h
            exact ih s rest pred s2 h
        · by_cases hflip : contained_in_circumference
            (s.pos (s.origin (2 * u))) (s.pos (s.toVertex (2 * u)))
            left right = true
          · rw [hflip] at h
            exact flip_chain s u hbit s2 (ih (flip_cw s u) _ pred s2 h)
          · rw [Bool.not_eq_true] at hflip
            rw [hflip] at h
            exact ih s rest pred s2 h

/-- C3: (a) the CDT's `is_defined_legal` hook returns true exactly for edges
whose constraint bit is set; (b) the worklist loops of `legalize_edge` and
`legalize_edges_after_removal` never pass a defined-legal edge to `flip_cw`
(flips change the endpoints of the flipped edge only, and both loops flip
only edges whose bit is clear, so the endpoints of every bit-set edge are
unchanged), the edge arena is untouched, and every edge that is a
constraint at the start is still present with the same endpoints and still
a constraint when legalization returns. -/
theorem legalization_never_flips_defined_legal :
    (∀ (s : Cdt) (u : ℕ), s.is_defined_legal u = s.bit u) ∧
    (∀ (fuel : ℕ) (s : Cdt) (e : ℕ) (fully : Bool) (s2 : Cdt) (r : Bool),
      legalize_edge fuel s e fully = some (s2, r) →
      s2.bit = s.bit ∧ s2.edges = s.edges ∧
        s2.num_constraints = s.num_constraints ∧
        ∀ u, s.bit u = true →
          s2.origin (2 * u) = s.origin (2 * u) ∧
            s2.origin (2 * u + 1) = s.origin (2 * u + 1)) ∧
    (∀ (fuel : ℕ) (s : Cdt) (stack : List ℕ) (pred : ℕ → Bool) (s2 : Cdt),
      legalize_edges_after_removal fuel s stack pred = some s2 →
      s2.bit = s.bit ∧ s2.edges = s.edges ∧
        s2.num_constraints = s.num_constraints ∧
        ∀ u, s.bit u = true →
          s2.origin (2 * u) = s.origin (2 * u) ∧
            s2.origin (2 * u + 1) = s.origin (2 * u + 1)) :=
  ⟨fun _ _ => rfl,
   fun fuel s e fully s2 r h => legalizeLoop_preserves fuel s [e] fully false s2 r h,
   fun fuel s stack pred s2 h =>
     legalize_edges_after_removal_preserves fuel s stack pred s2 h⟩

/-- A minimal concrete state used by witnesses: an empty arena. -/
def emptyCdt : Cdt where
  nextEdge := 0
  edges := []
  bit := fun _ => false
  num_constraints := 0
  origin := fun _ => 0
  nxt := fun _ => 0
  prv := fun _ => 0
  face := fun _ => 0
  vdata := fun _ => ((0, 0), 0)
  numVertices := 0
  numFaces := 1
  nextFace := 1

/-- C3 — witness: the legalization theorem applied to a concrete run of
`legalize_edge` (which computes to `some`), discharging its hypothesis by
evaluation. -/
theorem legalization_witness :
    legalize_edge 3 emptyCdt 0 false = some (emptyCdt, false) ∧
      (emptyCdt.bit = emptyCdt.bit ∧ emptyCdt.edges = emptyCdt.edges ∧
        emptyCdt.num_constraints = emptyCdt.num_constraints ∧
        ∀ u, emptyCdt.bit u = true →
          emptyCdt.origin (2 * u) = emptyCdt.origin (2 * u) ∧
            emptyCdt.origin (2 * u + 1) = emptyCdt.origin (2 * u + 1)) :=
  ⟨rfl, legalization_never_flips_defined_legal.2.1 3 emptyCdt 0 false
    emptyCdt false rfl⟩

/-! ## Line intersections and conflict regions (`cdt.rs`) -/

/-- Embeds `intersection_iterator::Intersection`; edge handles are
directed. -/
inductive Intersection where
  | vertexIntersection (v : ℕ)
  | edgeIntersection (d : ℕ)
  | edgeOverlap (d : ℕ)
  deriving DecidableEq, Repr

/-- Modelled from the spec: the geometric core of
`LineIntersectionIterator` lives outside the embedded sources, so it is an
oracle parameter: for distinct endpoints it yields the intersections that
follow the start vertex. -/
structure IterEnv where
  restIntersections : Cdt → ℕ → ℕ → List Intersection

/-- Modelled from the spec: `LineIntersectionIterator::new_from_handles`
yields the start vertex as its first `VertexIntersection` (the source
always skips it with one `next()` call) and, when the two handles
coincide, ends there. -/
def lineIntersections (env : IterEnv) (s : Cdt) (a b : ℕ) :
    List Intersection :=
  Intersection.vertexIntersection a ::
    (if a = b then [] else env.restIntersections s a b)

/-- Embeds `cdt.rs::ConflictRegionEnd`. -/
inductive ConflictRegionEnd where
  | existing (v : ℕ)
  | edgeOverlap (d : ℕ)
  deriving DecidableEq, Repr

/-- Embeds `cdt.rs::InitialConflictRegion`. -/
structure InitialConflictRegion where
  conflict_edges : List ℕ
  group_end : ConflictRegionEnd
  deriving DecidableEq, Repr

/-- Embeds the loop of `get_conflict_resolutions` (cdt.rs): group the
intersections into conflict regions, returning the empty list as soon as a
crossed edge is already a constraint; an overlap region suppresses the
vertex intersection that follows it. -/
def conflictLoop (s : Cdt) :
    List Intersection → List ℕ → Bool → List InitialConflictRegion →
      List InitialConflictRegion
  | [], _, _, groups => groups
  | i :: rest, currentGroup, ignoreNextVertex, groups =>
    match i with
    | .edgeIntersection d =>
      if s.bit (asUndirected d) then []
      else conflictLoop s rest (currentGroup ++ [d]) ignoreNextVertex groups
    | .vertexIntersection v =>
      if ignoreNextVertex then conflictLoop s rest currentGroup false groups
      else conflictLoop s rest [] false
        (groups ++ [⟨currentGroup, ConflictRegionEnd.existing v⟩])
    | .edgeOverlap d =>
      conflictLoop s rest currentGroup true
        (groups ++ [⟨[], ConflictRegionEnd.edgeOverlap d⟩])

/-- Embeds `get_conflict_resolutions` (cdt.rs). -/
def get_conflict_resolutions (env : IterEnv) (s : Cdt) (a b : ℕ) :
    List InitialConflictRegion :=
  conflictLoop s (lineIntersections env s a b) [] false []

/-- Embeds the `make_temporary_edge` closure of `resolve_conflict_region`:
freeze a border edge unless it is already a constraint, recording it for
the final unfreeze. -/
def makeTemporary (s : Cdt) (temps : List ℕ) (e : ℕ) : Cdt × List ℕ :=
  if s.bit e then (s, temps) else (s.setBit e true, temps ++ [e])

/-- Embeds the border-walk loop of `resolve_conflict_region` (cdt.rs):
rotate counterclockwise about the region origin from `first_border_edge`
until `last_border_edge.rev()`, freezing each visited border's `next` edge
and promoting the edge that reaches `target` to a real constraint. -/
def borderWalk (fuel : ℕ) (s : Cdt) (temps : List ℕ)
    (current stop target : ℕ) (result : Option ℕ) :
    Option (Cdt × List ℕ × Option ℕ) :=
  if current = stop then some (s, temps, result)
  else
    match fuel with
    | 0 => none
    | fuel + 1 =>
      let next := asUndirected (s.nxt current)
      let current2 := s.ccw current
      let sr :=
        if target = s.toVertex current then
          (s.make_constraint_edge (asUndirected current), some current)
        else (s, result)
      let st := makeTemporary sr.1 temps next
      borderWalk fuel st.1 st.2 current2 stop target sr.2

/-- Embeds `resolve_conflict_region` (cdt.rs): flip every conflict edge in
input order, freeze the region border, promote the implicitly created edge
that ends at `target_vertex`, legalize the rotated interior edges
(`legalize_edges_after_removal` pops from the back of its vector, hence
the reversal), and unfreeze the temporary constraints. -/
def resolve_conflict_region (fuel : ℕ) (s : Cdt) (conflict_edges : List ℕ)
    (target_vertex : ℕ) : Option (Cdt × Option ℕ) :=
  match conflict_edges with
  | [] => some (s, none)
  | first :: _ =>
    let first_border_edge := s.prv (rev first)
    let last_border_edge := s.nxt (rev first)
    let s1 := conflict_edges.foldl (fun acc e => flip_cw acc (asUndirected e)) s
    let st2 := makeTemporary s1 [] (asUndirected first_border_edge)
    let st3 := makeTemporary st2.1 st2.2 (asUndirected last_border_edge)
    match borderWalk fuel st3.1 st3.2 first_border_edge
        (rev last_border_edge) target_vertex none with
    | none => none
    | some (s4, temps4, result) =>
      match legalize_edges_after_removal fuel s4
          ((conflict_edges.map asUndirected).reverse) (fun _ => false) with
      | none => none
      | some s5 =>
        some (temps4.foldl (fun acc e => acc.setBit e false) s5, result)

/-- Embeds the loop of `resolve_conflict_groups` (cdt.rs). -/
def resolveGroupsLoop (fuel : ℕ) :
    Cdt → List InitialConflictRegion → List ℕ → Option (Cdt × List ℕ)
  | s, [], constraint_edges => some (s, constraint_edges)
  | s, g :: rest, constraint_edges =>
    match g.group_end with
    | ConflictRegionEnd.edgeOverlap d =>
      resolveGroupsLoop fuel s rest (constraint_edges ++ [d])
    | ConflictRegionEnd.existing v =>
      match resolve_conflict_region fuel s g.conflict_edges v with
      | none => none
      | some (s2, newEdge) =>
        resolveGroupsLoop fuel s2 rest (constraint_edges ++ newEdge.toList)

/-- Embeds `resolve_conflict_groups` (cdt.rs): resolve every region, then
mark every collected edge as a real constraint. -/
def resolve_conflict_groups (fuel : ℕ) (s : Cdt)
    (groups : List InitialConflictRegion) : Option (Cdt × List ℕ) :=
  match resolveGroupsLoop fuel s groups [] with
  | none => none
  | some (s2, ces) =>
    some (ces.foldl (fun acc e => acc.make_constraint_edge (asUndirected e)) s2,
      ces)

/-- Embeds `try_add_constraint` (cdt.rs): one pure pass collecting the
conflict regions (empty when any crossed edge is already a constraint),
then the mutation pass. -/
def try_add_constraint (env : IterEnv) (fuel : ℕ) (s : Cdt) (a b : ℕ) :
    Option (Cdt × List ℕ) :=
  resolve_conflict_groups fuel s (get_conflict_resolutions env s a b)

/-- Embeds `remove_constraint_edge` (cdt.rs): when the bit is set, clear
it, decrement the counter, and restore the Delaunay property around the
edge with a full legalization; returns whether the bit was cleared. -/
def remove_constraint_edge (fuel : ℕ) (s : Cdt) (e : ℕ) :
    Option (Cdt × Bool) :=
  if s.bit e then
    let s1 := { s.setBit e false with
      num_constraints := s.num_constraints - 1 }
    match legalize_edge fuel s1 (2 * e) true with
    | none => none
    | some (s2, _) => some (s2, true)
  else some (s, false)

/-! ## Point location (`triangulation_ext.rs`) -/

/-- Embeds `PositionInTriangulation`. -/
inductive PositionInTriangulation where
  | onVertex (v : ℕ)
  | onEdge (d : ℕ)
  | onFace (f : ℕ)
  | outsideOfConvexHull (d : ℕ)
  | noTriangulation
  deriving DecidableEq, Repr

/-- Modelled from the spec: `VertexHandle::out_edge` — some directed edge
leaving the vertex; the DCEL stores one per vertex, the model recovers the
first one in arena order. -/
def Cdt.outEdge (s : Cdt) (v : ℕ) : Option ℕ :=
  s.edges.foldr
    (fun u acc =>
      if s.origin (2 * u) = v then some (2 * u)
      else if s.origin (2 * u + 1) = v then some (2 * u + 1)
      else acc)
    none

/-- Rotation helper: list the out-edges reachable counterclockwise from
`start`, fuel-bounded. -/
def outEdgesAux (s : Cdt) (start : ℕ) : ℕ → ℕ → List ℕ
  | _, 0 => []
  | current, fuel + 1 =>
    current ::
      (let c2 := s.ccw current
       if c2 = start then [] else outEdgesAux s start c2 fuel)

/-- Modelled from the spec: the `out_edges` iterator of a vertex handle —
rotate counterclockwise from `out_edge` until the rotation closes. -/
def Cdt.outEdges (s : Cdt) (v : ℕ) : List ℕ :=
  match s.outEdge v with
  | none => []
  | some e0 => outEdgesAux s e0 e0 (2 * s.edges.length + 2)

/-- Squared euclidean distance, embedding `Point2::distance_2`. -/
def distance2 (p q : Point) : ℚ :=
  (p.1 - q.1) * (p.1 - q.1) + (p.2 - q.2) * (p.2 - q.2)

/-- Embeds the greedy loop of `walk_to_nearest_neighbor`: move to the first
neighbour (in rotation order) that is strictly closer to the target, while
one exists.  The source loop is bounded by the strictly decreasing
distance; the embedding carries fuel and stops early when it runs out,
which the source's contract allows (the walk is an inexact hint). -/
def walkToNearestAux (s : Cdt) (position : Point) : ℕ → ℕ → ℚ → ℕ
  | current, 0, _ => current
  | current, fuel + 1, curDist =>
    match (s.outEdges current).find?
        (fun d => decide (distance2 (s.pos (s.toVertex d)) position < curDist))
      with
    | none => current
    | some d =>
      walkToNearestAux s position (s.toVertex d) fuel
        (distance2 (s.pos (s.toVertex d)) position)

/-- Embeds `walk_to_nearest_neighbor` (triangulation_ext.rs). -/
def walk_to_nearest_neighbor (s : Cdt) (fuel start : ℕ) (position : Point) :
    ℕ :=
  if s.pos start = position then start
  else walkToNearestAux s position start fuel (distance2 position (s.pos start))

/-- Embeds `PositionWhenAllVerticesOnLine`. -/
inductive PositionWhenAllVerticesOnLine where
  | onEdge (d : ℕ)
  | onVertex (v : ℕ)
  | notOnLine (d : ℕ)
  | extendingLine (v : ℕ)
  deriving DecidableEq, Repr

/-- Modelled from the spec: `get_edge_from_neighbors` — search the arena
for the edge connecting two vertices, returned directed from the first to
the second. -/
def Cdt.get_edge_from_neighbors (s : Cdt) (a b : ℕ) : Option ℕ :=
  s.edges.foldr
    (fun u acc =>
      if s.origin (2 * u) = a ∧ s.origin (2 * u + 1) = b then some (2 * u)
      else if s.origin (2 * u) = b ∧ s.origin (2 * u + 1) = a then
        some (2 * u + 1)
      else acc)
    none

/-- Lexicographic x-then-y comparison of points: the derived `PartialOrd`
of `Point2`, used by the degenerate locate's sort and binary search. -/
def pointLe (p q : Point) : Bool :=
  decide (p.1 < q.1 ∨ (p.1 = q.1 ∧ p.2 ≤ q.2))

/-- Strict version of `pointLe`. -/
def pointLt (p q : Point) : Bool :=
  decide (p.1 < q.1 ∨ (p.1 = q.1 ∧ p.2 < q.2))

/-- Embeds `locate_when_all_vertices_on_line` (triangulation_ext.rs):
side-test the query point against the first arena edge; on the line, sort
all vertices by position and binary-search.  `slice::binary_search_by` is
embedded by its contract on the sorted list: a hit yields the matching
vertex, a miss yields the number of smaller elements as insertion point.
`none` embeds the source's panics (empty arena, missing neighbour edge). -/
def locate_when_all_vertices_on_line (s : Cdt) (p : Point) :
    Option PositionWhenAllVerticesOnLine :=
  match s.edges with
  | [] => none
  | u :: _ =>
    let edge := 2 * u
    let q := s.edgeSide edge p
    if 0 < q then some (PositionWhenAllVerticesOnLine.notOnLine edge)
    else if q < 0 then some (PositionWhenAllVerticesOnLine.notOnLine (rev edge))
    else
      let verts := (List.range s.numVertices).mergeSort
        (fun a b => pointLe (s.pos a) (s.pos b))
      match verts.find? (fun v => decide (s.pos v = p)) with
      | some v => some (PositionWhenAllVerticesOnLine.onVertex v)
      | none =>
        let idx := (verts.filter (fun v => pointLt (s.pos v) p)).length
        if idx = 0 then
          match verts.head? with
          | some v => some (PositionWhenAllVerticesOnLine.extendingLine v)
          | none => none
        else if idx = verts.length then
          match verts.getLast? with
          | some v => some (PositionWhenAllVerticesOnLine.extendingLine v)
          | none => none
        else
          match verts[idx]?, verts[idx - 1]? with
          | some v1, some v2 =>
            match s.get_edge_from_neighbors v1 v2 with
            | some d => some (PositionWhenAllVerticesOnLine.onEdge d)
            | none => none
          | _, _ => none

/-- Embeds `PositionWhenAllVerticesOnLine::to_regular_position_in_triangulation`. -/
def toRegularPosition (s : Cdt) (r : PositionWhenAllVerticesOnLine) :
    Option PositionInTriangulation :=
  match r with
  | PositionWhenAllVerticesOnLine.onEdge d =>
    some (PositionInTriangulation.onEdge d)
  | PositionWhenAllVerticesOnLine.onVertex v =>
    some (PositionInTriangulation.onVertex v)
  | PositionWhenAllVerticesOnLine.notOnLine d =>
    some (PositionInTriangulation.outsideOfConvexHull d)
  | PositionWhenAllVerticesOnLine.extendingLine v =>
    match s.outEdge v with
    | some d => some (PositionInTriangulation.outsideOfConvexHull d)
    | none => none

/-- Embeds `num_directed_edges`. -/
def num_directed_edges (s : Cdt) : ℕ := 2 * s.edges.length

/-- Modelled from the spec: `all_vertices_on_line` — the degenerate state
has exactly one (outer) face. -/
def all_vertices_on_line (s : Cdt) : Bool := s.numFaces = 1

/-- Embeds the precise rotation walk of `locate_with_hint_fixed_core`
(triangulation_ext.rs).  The fuel is exactly the source's `loop_counter`
(started at `num_directed_edges` by the wrapper); the source panics with
"Failed to locate position" when it reaches zero, embedded as `none`. -/
def locateLoop (s : Cdt) (target : Point) :
    ℕ → ℕ → ℚ → Bool → Option PositionInTriangulation
  | 0, _, _, _ => none
  | fuel + 1, e0, e0q, rotateCcw =>
    if s.pos (s.origin e0) = target then
      some (PositionInTriangulation.onVertex (s.origin e0))
    else if s.pos (s.toVertex e0) = target then
      some (PositionInTriangulation.onVertex (s.toVertex e0))
    else if e0q = 0 then
      -- collinear with the target: change the rotation vertex
      let e0a := if s.isOuterEdge e0 then rev e0 else e0
      let e0b := s.prv e0a
      let q := s.edgeSide e0b target
      locateLoop s target fuel e0b q (decide (0 ≤ q))
    else
      let e1 := if rotateCcw then e0 else rev e0
      if s.isOuterEdge e1 then
        some (PositionInTriangulation.outsideOfConvexHull e1)
      else
        let rotated := if rotateCcw then s.ccw e0 else s.cw e0
        let rotatedQuery := s.edgeSide rotated target
        if rotatedQuery = 0 ∨ (decide (0 < rotatedQuery) = rotateCcw) then
          -- segment does not contain the target: keep rotating
          locateLoop s target fuel rotated rotatedQuery rotateCcw
        else
          let e2 := if rotateCcw then s.nxt e1 else s.prv e1
          let e2q := s.edgeSide e2 target
          if e2q = 0 then some (PositionInTriangulation.onEdge e2)
          else if 0 < e2q then
            some (PositionInTriangulation.onFace (s.face e1))
          else
            let e0x := rev e2
            let pair :=
              if ¬ s.isOuterEdge e0x then
                (s.prv e0x, s.edgeSide (s.prv e0x) target)
              else (e0x, -e2q)
            locateLoop s target fuel pair.1 pair.2 (decide (0 ≤ pair.2))

/-- Embeds `locate_with_hint_fixed_core` (triangulation_ext.rs): the
small-triangulation and all-collinear dispatch, the greedy walk to a
nearby vertex, and the precise rotation walk bounded by
`num_directed_edges`. -/
def locate_with_hint_fixed_core (s : Cdt) (target : Point) (start : ℕ) :
    Option PositionInTriangulation :=
  if s.numVertices < 2 then
    if 1 ≤ s.numVertices ∧ s.pos 0 = target then
      some (PositionInTriangulation.onVertex 0)
    else some PositionInTriangulation.noTriangulation
  else if all_vertices_on_line s then
    match locate_when_all_vertices_on_line s target with
    | none => none
    | some r => toRegularPosition s r
  else
    let start2 := if start < s.numVertices then start else 0
    let closest := walk_to_nearest_neighbor s (s.numVertices + 1) start2 target
    match s.outEdge closest with
    | none => none
    | some e0 =>
      let q := s.edgeSide e0 target
      locateLoop s target (num_directed_edges s) e0 q (decide (0 ≤ q))

/-! ## Constraint splitting (`cdt.rs`) -/

/-- Embeds `get_edge_intersections` (cdt.rs) over exact rationals.  The
`determinant == 0` branch yields infinite coordinates in the source, which
no rational represents; the embedding returns `none` there. -/
def get_edge_intersections (p1 p2 p3 p4 : Point) : Option Point :=
  let a1 := p2.2 - p1.2
  let b1 := p1.1 - p2.1
  let c1 := a1 * p1.1 + b1 * p1.2
  let a2 := p4.2 - p3.2
  let b2 := p3.1 - p4.1
  let c2 := a2 * p3.1 + b2 * p3.2
  let det := a1 * b2 - a2 * b1
  if det = 0 then none
  else some ((b2 * c1 - b1 * c2) / det, (a1 * c2 - a2 * c1) / det)

/-- Modelled from the spec: `mitigate_underflow` snaps subnormal magnitudes
to zero; exact rationals never underflow, so it is the identity here. -/
def mitigate_underflow (p : Point) : Point := p

/-- Modelled from the spec: the split primitives `split_edge` and
`split_half_edge` behind `insert_on_edge`.  The split reuses the existing
undirected record for one collinear half, keeping its `CdtEdge` payload
(hence its constraint bit), and allocates a fresh default (non-constraint)
record for the other half plus `crossCount` fresh cross edges, one per
repaired incident face.  Returns the state, the new vertex, and the two
collinear halves. -/
def dcelSplitEdge (s : Cdt) (d : ℕ) (w : Point × ℕ) (crossCount : ℕ) :
    Cdt × ℕ × ℕ × ℕ :=
  let v := s.numVertices
  let u2 := s.nextEdge
  let newPlain := (List.range crossCount).map (fun i => s.nextEdge + 1 + i)
  let s2 := { s with
    numVertices := v + 1
    vdata := fun x => if x = v then w else s.vdata x
    nextEdge := s.nextEdge + 1 + crossCount
    edges := s.edges ++ u2 :: newPlain
    bit := fun u => if u = u2 ∨ u ∈ newPlain then false else s.bit u
    origin := fun x =>
      if x = rev d then v
      else if x = 2 * u2 then v
      else if x = 2 * u2 + 1 then s.origin (rev d)
      else s.origin x
    numFaces := s.numFaces + crossCount }
  (s2, v, d, 2 * u2)

/-- Embeds `TriangulationExt::insert_on_edge`: dispatch on which side of
the split edge is the outer face and split with the matching primitive;
returns the new vertex and the two collinear halves `[e0, e1]`. -/
def insert_on_edge (s : Cdt) (d : ℕ) (w : Point × ℕ) : Cdt × ℕ × (ℕ × ℕ) :=
  if s.isOuterEdge d then
    let r := dcelSplitEdge s (rev d) w 1
    (r.1, r.2.1, (rev r.2.2.2, rev r.2.2.1))
  else if s.isOuterEdge (rev d) then
    let r := dcelSplitEdge s d w 1
    (r.1, r.2.1, (r.2.2.1, r.2.2.2))
  else
    let r := dcelSplitEdge s d w 2
    (r.1, r.2.1, (r.2.2.1, r.2.2.2))

/-- Embeds the CDT's `handle_legal_edge_split` (cdt.rs): bump the counter
once, then set the bit on whichever of the two halves lacks it. -/
def handle_legal_edge_split (s : Cdt) (h0 h1 : ℕ) : Cdt :=
  let s1 := { s with num_constraints := s.num_constraints + 1 }
  let s2 := if s1.bit (asUndirected h0) then s1
    else s1.setBit (asUndirected h0) true
  if s2.bit (asUndirected h1) then s2 else s2.setBit (asUndirected h1) true

/-- Sequentially legalize a list of edges (the loop of `legalize_vertex`). -/
def legalizeMany (fuel : ℕ) : Cdt → List ℕ → Option Cdt
  | s, [] => some s
  | s, e :: rest =>
    match legalize_edge fuel s e false with
    | none => none
    | some (s2, _) => legalizeMany fuel s2 rest

/-- Embeds `legalize_vertex` (triangulation_ext.rs): push the far edge of
every inner face incident to the new vertex and legalize each. -/
def legalize_vertex (fuel : ℕ) (s : Cdt) (v : ℕ) : Option Cdt :=
  legalizeMany fuel s
    (((s.outEdges v).filter (fun d => ¬ s.isOuterEdge d)).map s.nxt)

/-- Embeds `validate_split_position` (cdt.rs): locate the snapped split
position; accept it when it falls on the split edge, on one of its two
incident faces, or outside the hull while the edge is a hull edge.
Otherwise return the nearest of the edge's endpoints and opposite vertices
together with the end-vertex flag.  The outer `Option` embeds locate
failure and the source's `unreachable!()`. -/
def validate_split_position (s : Cdt) (conflictEdge : ℕ) (splitPos : Point) :
    Option (Option (ℕ × Bool)) :=
  match locate_with_hint_fixed_core s splitPos (s.origin conflictEdge) with
  | none => none
  | some PositionInTriangulation.noTriangulation => none
  | some loc =>
    let isValid : Bool :=
      match loc with
      | PositionInTriangulation.onEdge realEdge =>
        decide (asUndirected realEdge = asUndirected conflictEdge)
      | PositionInTriangulation.onFace f =>
        decide (f = s.face conflictEdge ∨ f = s.face (rev conflictEdge))
      | PositionInTriangulation.outsideOfConvexHull _ =>
        s.isOuterEdge conflictEdge || s.isOuterEdge (rev conflictEdge)
      | _ => false
    if isValid then some none
    else
      let dFrom := distance2 (s.pos (s.origin conflictEdge)) splitPos
      let dTo := distance2 (s.pos (s.toVertex conflictEdge)) splitPos
      let m1 := (dFrom, s.origin conflictEdge, true)
      let m2 := if dTo < m1.1 then (dTo, s.toVertex conflictEdge, true) else m1
      let m3 :=
        match s.opposite_vertex conflictEdge with
        | some opp =>
          let dLeft := distance2 (s.pos opp) splitPos
          if dLeft < m2.1 then (dLeft, s.toVertex (s.nxt conflictEdge), false)
          else m2
        | none => m2
      let m4 :=
        match s.opposite_vertex (rev conflictEdge) with
        | some opp =>
          let dRight := distance2 (s.pos opp) splitPos
          if dRight < m3.1 then
            (dRight, s.toVertex (s.nxt (rev conflictEdge)), false)
          else m3
        | none => m3
      some (some m4.2)

/-- A vertex constructor, embedding the closure handed to
`add_constraint_and_split` (position plus payload tag). -/
abbrev VertexCtor : Type := Point → Point × ℕ

/-- Embeds the main loop of `resolve_splitting_constraint_request`
(cdt.rs).  Overlaps are recorded directly; non-constraint crossings are
collected for the fast path; a vertex intersection resolves the collected
region and restarts the iterator; a crossing of an existing constraint
either panics (`none`, when no vertex constructor was supplied — the
`add_constraint` case) or splits the constraint at the computed
intersection, possibly substituting a nearby vertex when the snapped
position fails validation, then reconnects with `try_add_constraint` and
restarts.  Fuel is consumed per processed intersection. -/
def rscLoop (env : IterEnv) :
    ℕ → Cdt → List Intersection → ℕ → ℕ → Option VertexCtor → List ℕ →
      List ℕ → Option (Cdt × List ℕ)
  | _, s, [], _, _, _, _, result =>
    some
      (result.foldl (fun acc e => acc.make_constraint_edge (asUndirected e)) s,
        result)
  | 0, _, _ :: _, _, _, _, _, _ => none
  | fuel + 1, s, intr :: rest, a, b, ctor, conflictEdges, result =>
    match intr with
    | Intersection.edgeOverlap d =>
      rscLoop env fuel s rest (s.toVertex d) b ctor conflictEdges
        (result ++ [d])
    | Intersection.vertexIntersection v =>
      match resolve_conflict_region fuel s conflictEdges v with
      | none => none
      | some (s2, newEdge) =>
        rscLoop env fuel s2 ((lineIntersections env s2 v b).tail) v b ctor []
          (result ++ newEdge.toList)
    | Intersection.edgeIntersection d =>
      if s.bit (asUndirected d) = false then
        rscLoop env fuel s rest a b ctor (conflictEdges ++ [d]) result
      else
        match ctor with
        | none => none
        | some ctor0 =>
          let p0 := s.pos (s.origin d)
          let p1 := s.pos (s.toVertex d)
          let fromPos := s.pos a
          let toPos := s.pos b
          match get_edge_intersections p0 p1 fromPos toPos with
          | none => none
          | some inter =>
            let newVertexRec := ctor0 (mitigate_underflow inter)
            let position := newVertexRec.1
            match validate_split_position s d position with
            | none => none
            | some (some (alt, isEnd)) =>
              if isEnd then
                match try_add_constraint env fuel s a alt with
                | none => none
                | some (s4, previousRegion) =>
                  if previousRegion = [] ∧ a ≠ alt then none
                  else
                    rscLoop env fuel s4
                      ((lineIntersections env s4 alt b).tail) alt b ctor []
                      (result ++ previousRegion)
              else
                let isOnSameSide := s.opposite_vertex d = some alt
                let d2 := if isOnSameSide then d else rev d
                let prevE := s.prv d2
                let nextE := s.nxt d2
                let s1 := { s.setBit (asUndirected d2) false with
                  num_constraints := s.num_constraints - 1 }
                let s2 := s1.make_constraint_edge (asUndirected prevE)
                let s3 := s2.make_constraint_edge (asUndirected nextE)
                match legalize_edges_after_removal fuel s3
                    [asUndirected d2] (fun _ => false) with
                | none => none
                | some s4 =>
                  match try_add_constraint env fuel s4 a alt with
                  | none => none
                  | some (s5, previousRegion) =>
                    if previousRegion = [] ∧ a ≠ alt then none
                    else
                      rscLoop env fuel s5
                        ((lineIntersections env s5 alt b).tail) alt b ctor []
                        (result ++ previousRegion)
            | some none =>
              let r1 := insert_on_edge s d newVertexRec
              let s2 := handle_legal_edge_split r1.1 r1.2.2.1 r1.2.2.2
              match legalize_vertex fuel s2 r1.2.1 with
              | none => none
              | some s3 =>
                match try_add_constraint env fuel s3 a r1.2.1 with
                | none => none
                | some (s5, previousRegion) =>
                  if previousRegion = [] ∧ a ≠ r1.2.1 then none
                  else
                    rscLoop env fuel s5
                      ((lineIntersections env s5 r1.2.1 b).tail) r1.2.1 b ctor
                      [] (result ++ previousRegion)

/-- Embeds `resolve_splitting_constraint_request` (cdt.rs): create the
iterator, skip the leading vertex intersection, and run the loop. -/
def resolve_splitting_constraint_request (env : IterEnv) (fuel : ℕ)
    (s : Cdt) (a b : ℕ) (ctor : Option VertexCtor) : Option (Cdt × List ℕ) :=
  rscLoop env fuel s ((lineIntersections env s a b).tail) a b ctor [] []

/-- Embeds `add_constraint` (cdt.rs): run the splitting resolution with no
vertex constructor and report whether the constraint count changed. -/
def add_constraint (env : IterEnv) (fuel : ℕ) (s : Cdt) (a b : ℕ) :
    Option (Bool × Cdt) :=
  match resolve_splitting_constraint_request env fuel s a b none with
  | none => none
  | some (s2, _) =>
    some (decide (s2.num_constraints ≠ s.num_constraints), s2)

/-- Embeds `add_constraint_and_split` (cdt.rs): the splitting resolution
with the caller's vertex constructor. -/
def add_constraint_and_split (env : IterEnv) (fuel : ℕ) (s : Cdt) (a b : ℕ)
    (ctor : VertexCtor) : Option (Cdt × List ℕ) :=
  resolve_splitting_constraint_request env fuel s a b (some ctor)

/-- The collecting pass returns no conflict region at all as soon as the
segment crosses an edge whose constraint bit is set. -/
theorem conflictLoop_constraint_empty (s : Cdt) :
    ∀ (l : List Intersection) (g : List ℕ) (ign : Bool)
      (groups : List InitialConflictRegion) (d : ℕ),
      Intersection.edgeIntersection d ∈ l → s.bit (asUndirected d) = true →
      conflictLoop s l g ign groups = [] := by
  intro l
  induction l with
  | nil => intro g ign groups d hmem hbit; simp at hmem
  | cons i rest ih =>
    intro g ign groups d hmem hbit
    rcases List.mem_cons.mp hmem with heq | hmem2
    · rw [← heq]
      simp [conflictLoop, hbit]
    · match i with
      | Intersection.edgeIntersection d2 =>
        by_cases hb2 : s.bit (asUndirected d2) = true
        · simp [conflictLoop, hb2]
        · rw [Bool.not_eq_true] at hb2
          simp only [conflictLoop, hb2, Bool.false_eq_true, if_false]
          exact ih _ _ _ d hmem2 hbit
      | Intersection.vertexIntersection v =>
        match ign with
        | true =>
          simp only [conflictLoop, if_true]
          exact ih _ _ _ d hmem2 hbit
        | false =>
          simp only [conflictLoop, Bool.false_eq_true, if_false]
          exact ih _ _ _ d hmem2 hbit
      | Intersection.edgeOverlap d2 =>
        simp only [conflictLoop]
        exact ih _ _ _ d hmem2 hbit

/-- C1: whenever the segment between the two vertex handles strictly
crosses an existing constraint edge (an `EdgeIntersection` with the
constraint bit set appears in the line-intersection sequence),
`try_add_constraint` returns the empty list and the state — DCEL topology,
constraint bits and `num_constraints` — completely unchanged: the
collecting pass is pure and the mutation pass receives no region. -/
theorem try_add_constraint_atomic (env : IterEnv) (fuel : ℕ) (s : Cdt)
    (a b d : ℕ)
    (hmem : Intersection.edgeIntersection d ∈ lineIntersections env s a b)
    (hbit : s.bit (asUndirected d) = true) :
    try_add_constraint env fuel s a b = some (s, []) := by
  have h0 : get_conflict_resolutions env s a b = [] :=
    conflictLoop_constraint_empty s _ [] false [] d hmem hbit
  rw [try_add_constraint, h0]
  rfl

/-- A concrete one-constraint state for witnesses. -/
def c1Cdt : Cdt :=
  { emptyCdt with edges := [1], bit := fun u => u == 1, num_constraints := 1 }

/-- A concrete intersection oracle whose segment crosses directed edge `2`
(undirected `1`). -/
def c1Env : IterEnv := ⟨fun _ _ _ => [Intersection.edgeIntersection 2]⟩

/-- C1 — witness: on the concrete state whose only edge is a constraint
crossed by the requested segment, `try_add_constraint` returns the empty
list and the unchanged state. -/
theorem try_add_constraint_atomic_witness :
    (Intersection.edgeIntersection 2 ∈ lineIntersections c1Env c1Cdt 0 1) ∧
    c1Cdt.bit (asUndirected 2) = true ∧
    try_add_constraint c1Env 5 c1Cdt 0 1 = some (c1Cdt, []) :=
  ⟨by simp [lineIntersections, c1Env], rfl,
   try_add_constraint_atomic c1Env 5 c1Cdt 0 1 2
     (by simp [lineIntersections, c1Env]) rfl⟩

/-- C10: adding a constraint from a vertex to itself does nothing — for
every oracle, fuel and state, `add_constraint v v` returns `false` with
the state unchanged and `try_add_constraint v v` returns the empty list
with the state unchanged (the intersection traversal from `v` to `v` ends
at the start vertex, so no conflict edge is collected and no edge is
marked). -/
theorem constraint_self_loop_noop (env : IterEnv) (fuel : ℕ) (s : Cdt)
    (v : ℕ) :
    add_constraint env fuel s v v = some (false, s) ∧
    try_add_constraint env fuel s v v = some (s, []) := by
  constructor
  · have h1 : resolve_splitting_constraint_request env fuel s v v none
        = some (s, []) := by
      rw [resolve_splitting_constraint_request]
      have ht : (lineIntersections env s v v).tail = [] := by
        simp [lineIntersections]
      rw [ht]
      simp [rscLoop]
    rw [add_constraint, h1]
    simp
  · have h0 : get_conflict_resolutions env s v v
        = [⟨[], ConflictRegionEnd.existing v⟩] := by
      simp [get_conflict_resolutions, lineIntersections, conflictLoop]
    rw [try_add_constraint, h0]
    simp [resolve_conflict_groups, resolveGroupsLoop, resolve_conflict_region]

/-- Writing one constraint bit leaves every other bit unchanged. -/
theorem setBit_bit_other (s : Cdt) (e : ℕ) (bv : Bool) (u : ℕ)
    (h : u ≠ e) : (s.setBit e bv).bit u = s.bit u := by
  simp [Cdt.setBit, h]

/-- The checked constraint setter never rewires the DCEL: `prv` survives. -/
theorem make_constraint_edge_prv (s : Cdt) (e : ℕ) :
    (s.make_constraint_edge e).prv = s.prv := by
  rw [Cdt.make_constraint_edge]
  split <;> rfl

/-- The checked constraint setter never rewires the DCEL: `nxt` survives. -/
theorem make_constraint_edge_nxt (s : Cdt) (e : ℕ) :
    (s.make_constraint_edge e).nxt = s.nxt := by
  rw [Cdt.make_constraint_edge]
  split <;> rfl

/-- The checked constraint setter never rewires the DCEL: `origin`
survives. -/
theorem make_constraint_edge_origin (s : Cdt) (e : ℕ) :
    (s.make_constraint_edge e).origin = s.origin := by
  rw [Cdt.make_constraint_edge]
  split <;> rfl

/-- The checked constraint setter never rewires the DCEL: `toVertex`
survives. -/
theorem make_constraint_edge_toVertex (s : Cdt) (e : ℕ) :
    (s.make_constraint_edge e).toVertex = s.toVertex := by
  funext d
  show (s.make_constraint_edge e).origin (rev d) = s.origin (rev d)
  rw [make_constraint_edge_origin]

/-- Marking an edge whose bit is clear increments the counter by one. -/
theorem make_constraint_edge_nc_clear (s : Cdt) (e : ℕ)
    (h : s.bit e = false) :
    (s.make_constraint_edge e).num_constraints = s.num_constraints + 1 := by
  rw [Cdt.make_constraint_edge, if_neg (by simp [h])]

/-- After marking, the marked edge's bit is set. -/
theorem make_constraint_edge_bit_self (s : Cdt) (e : ℕ) :
    (s.make_constraint_edge e).bit e = true := by
  rw [Cdt.make_constraint_edge]
  split <;> simp_all [Cdt.setBit]

/-- Marking one edge leaves every other bit unchanged. -/
theorem make_constraint_edge_bit_other (s : Cdt) (e u : ℕ) (h : u ≠ e) :
    (s.make_constraint_edge e).bit u = s.bit u := by
  rw [Cdt.make_constraint_edge]
  split
  · rfl
  · exact setBit_bit_other s e true u h

/-- Freezing a temporary edge never rewires the DCEL: `prv` survives. -/
theorem makeTemporary_prv (s : Cdt) (t : List ℕ) (e : ℕ) :
    (makeTemporary s t e).1.prv = s.prv := by
  rw [makeTemporary]
  split <;> rfl

/-- Freezing a temporary edge never rewires the DCEL: `nxt` survives. -/
theorem makeTemporary_nxt (s : Cdt) (t : List ℕ) (e : ℕ) :
    (makeTemporary s t e).1.nxt = s.nxt := by
  rw [makeTemporary]
  split <;> rfl

/-- Freezing a temporary edge never rewires the DCEL: `origin` survives. -/
theorem makeTemporary_origin (s : Cdt) (t : List ℕ) (e : ℕ) :
    (makeTemporary s t e).1.origin = s.origin := by
  rw [makeTemporary]
  split <;> rfl

/-- Freezing a temporary edge never rewires the DCEL: `toVertex`
survives. -/
theorem makeTemporary_toVertex (s : Cdt) (t : List ℕ) (e : ℕ) :
    (makeTemporary s t e).1.toVertex = s.toVertex := by
  funext d
  show (makeTemporary s t e).1.origin (rev d) = s.origin (rev d)
  rw [makeTemporary_origin]

/-- Freezing never touches the constraint counter. -/
theorem makeTemporary_num_constraints (s : Cdt) (t : List ℕ) (e : ℕ) :
    (makeTemporary s t e).1.num_constraints = s.num_constraints := by
  rw [makeTemporary]
  split <;> rfl

/-- Freezing one edge leaves every other bit unchanged. -/
theorem makeTemporary_bit_other (s : Cdt) (t : List ℕ) (e u : ℕ)
    (h : u ≠ e) : (makeTemporary s t e).1.bit u = s.bit u := by
  rw [makeTemporary]
  split
  · rfl
  · exact setBit_bit_other s e true u h

/-- Every member of the temporaries list after a freeze was already there
or is the frozen edge itself. -/
theorem makeTemporary_mem (s : Cdt) (t : List ℕ) (e u : ℕ)
    (h : u ∈ (makeTemporary s t e).2) : u ∈ t ∨ u = e := by
  by_cases hb : s.bit e = true
  · rw [makeTemporary, if_pos hb] at h
    exact Or.inl h
  · rw [makeTemporary, if_neg hb] at h
    rcases List.mem_append.mp h with h2 | h2
    · exact Or.inl h2
    · simp at h2
      exact Or.inr h2

/-- The flip pass of `resolve_conflict_region`: flip every conflict edge
in input order. -/
def flipAll (s : Cdt) (ds : List ℕ) : Cdt :=
  ds.foldl (fun acc e => flip_cw acc (asUndirected e)) s

/-- Flipping a run of edges never touches the constraint bits. -/
theorem flipAll_bit : ∀ (ds : List ℕ) (s : Cdt),
    (flipAll s ds).bit = s.bit := by
  intro ds
  induction ds with
  | nil => intro s; rfl
  | cons d ds ih =>
    intro s
    have h : flipAll s (d :: ds) = flipAll (flip_cw s (asUndirected d)) ds :=
      rfl
    rw [h, ih (flip_cw s (asUndirected d)), flip_cw_bit]

/-- Flipping a run of edges never touches the counter. -/
theorem flipAll_num_constraints : ∀ (ds : List ℕ) (s : Cdt),
    (flipAll s ds).num_constraints = s.num_constraints := by
  intro ds
  induction ds with
  | nil => intro s; rfl
  | cons d ds ih =>
    intro s
    have h : flipAll s (d :: ds) = flipAll (flip_cw s (asUndirected d)) ds :=
      rfl
    rw [h, ih (flip_cw s (asUndirected d)), flip_cw_num_constraints]

/-- The two initial freezes of `resolve_conflict_region`: first and last
border edges, starting from an empty temporaries list. -/
def freezeBorder (s : Cdt) (fbe lbe : ℕ) : Cdt × List ℕ :=
  makeTemporary (makeTemporary s [] (asUndirected fbe)).1
    (makeTemporary s [] (asUndirected fbe)).2 (asUndirected lbe)

/-- The initial freezes never rewire the DCEL: `prv` survives. -/
theorem freezeBorder_prv (s : Cdt) (fbe lbe : ℕ) :
    (freezeBorder s fbe lbe).1.prv = s.prv := by
  rw [freezeBorder, makeTemporary_prv, makeTemporary_prv]

/-- The initial freezes never rewire the DCEL: `nxt` survives. -/
theorem freezeBorder_nxt (s : Cdt) (fbe lbe : ℕ) :
    (freezeBorder s fbe lbe).1.nxt = s.nxt := by
  rw [freezeBorder, makeTemporary_nxt, makeTemporary_nxt]

/-- The initial freezes never rewire the DCEL: `origin` survives. -/
theorem freezeBorder_origin (s : Cdt) (fbe lbe : ℕ) :
    (freezeBorder s fbe lbe).1.origin = s.origin := by
  rw [freezeBorder, makeTemporary_origin, makeTemporary_origin]

/-- The initial freezes never touch the counter. -/
theorem freezeBorder_num_constraints (s : Cdt) (fbe lbe : ℕ) :
    (freezeBorder s fbe lbe).1.num_constraints = s.num_constraints := by
  rw [freezeBorder, makeTemporary_num_constraints,
    makeTemporary_num_constraints]

/-- The initial freezes leave the bit of any third edge unchanged. -/
theorem freezeBorder_bit_other (s : Cdt) (fbe lbe u : ℕ)
    (h1 : u ≠ asUndirected fbe) (h2 : u ≠ asUndirected lbe) :
    (freezeBorder s fbe lbe).1.bit u = s.bit u := by
  rw [freezeBorder, makeTemporary_bit_other _ _ _ _ h2,
    makeTemporary_bit_other _ _ _ _ h1]

/-- The temporaries list after the initial freezes holds only the two
border edges. -/
theorem freezeBorder_mem (s : Cdt) (fbe lbe u : ℕ)
    (h : u ∈ (freezeBorder s fbe lbe).2) :
    u = asUndirected fbe ∨ u = asUndirected lbe := by
  rw [freezeBorder] at h
  rcases makeTemporary_mem _ _ _ _ h with h2 | h2
  · rcases makeTemporary_mem _ _ _ _ h2 with h3 | h3
    · simp at h3
    · exact Or.inl h3
  · exact Or.inr h2

/-- The final unfreeze pass of `resolve_conflict_region` never touches the
counter. -/
theorem unfreeze_num_constraints : ∀ (ts : List ℕ) (s : Cdt),
    (ts.foldl (fun acc e => acc.setBit e false) s).num_constraints
      = s.num_constraints := by
  intro ts
  induction ts with
  | nil => intro s; rfl
  | cons t ts ih =>
    intro s
    rw [List.foldl_cons, ih (s.setBit t false)]
    rfl

/-- The final unfreeze pass leaves the bit of every edge outside the
temporaries list unchanged. -/
theorem unfreeze_bit_notmem : ∀ (ts : List ℕ) (s : Cdt) (u : ℕ),
    u ∉ ts →
    (ts.foldl (fun acc e => acc.setBit e false) s).bit u = s.bit u := by
  intro ts
  induction ts with
  | nil => intro s u h; rfl
  | cons t ts ih =>
    intro s u h
    rw [List.foldl_cons,
      ih (s.setBit t false) u (fun hh => h (List.mem_cons_of_mem t hh))]
    exact setBit_bit_other s t false u
      (fun hh => h (hh ▸ List.mem_cons_self t ts))

/-- The counterclockwise rotation trajectory of the border walk of
`resolve_conflict_region`: the spokes visited from `current` until `stop`,
`none` on fuel exhaustion.  The walk's own bit writes never change `prv`,
so the trajectory is a function of the walk's entry state alone. -/
def ccwChain (s : Cdt) (fuel current stop : ℕ) : Option (List ℕ) :=
  if current = stop then some []
  else
    match fuel with
    | 0 => none
    | fuel + 1 =>
      match ccwChain s fuel (s.ccw current) stop with
      | none => none
      | some cs => some (current :: cs)

/-- The trajectory at the stop edge is empty. -/
theorem ccwChain_stop (s : Cdt) (fuel current stop : ℕ)
    (h : current = stop) : ccwChain s fuel current stop = some [] := by
  rw [ccwChain.eq_def, if_pos h]

/-- The trajectory away from the stop edge with no fuel is `none`. -/
theorem ccwChain_zero (s : Cdt) (current stop : ℕ) (h : current ≠ stop) :
    ccwChain s 0 current stop = none := by
  rw [ccwChain.eq_def, if_neg h]

/-- One unfolding of the trajectory away from the stop edge. -/
theorem ccwChain_succ (s : Cdt) (k current stop : ℕ) (h : current ≠ stop) :
    ccwChain s (k + 1) current stop
      = match ccwChain s k (s.ccw current) stop with
        | none => none
        | some cs => some (current :: cs) := by
  rw [ccwChain.eq_def, if_neg h]

/-- The trajectory depends on the state only through `prv`. -/
theorem ccwChain_congr (s s2 : Cdt) (h : s.prv = s2.prv) :
    ∀ (fuel current stop : ℕ),
      ccwChain s fuel current stop = ccwChain s2 fuel current stop := by
  intro fuel
  induction fuel with
  | zero =>
    intro current stop
    by_cases hcs : current = stop
    · rw [ccwChain_stop s 0 current stop hcs,
        ccwChain_stop s2 0 current stop hcs]
    · rw [ccwChain_zero s current stop hcs,
        ccwChain_zero s2 current stop hcs]
  | succ k ih =>
    intro current stop
    by_cases hcs : current = stop
    · rw [ccwChain_stop s (k + 1) current stop hcs,
        ccwChain_stop s2 (k + 1) current stop hcs]
    · rw [ccwChain_succ s k current stop hcs,
        ccwChain_succ s2 k current stop hcs]
      have hccw : s.ccw current = s2.ccw current := by
        show rev (s.prv current) = rev (s2.prv current)
        rw [h]
      rw [hccw, ih (s2.ccw current) stop]

/-- The border walk at the stop edge returns immediately. -/
theorem borderWalk_stop (fuel : ℕ) (s : Cdt) (temps : List ℕ)
    (current stop target : ℕ) (result : Option ℕ) (h : current = stop) :
    borderWalk fuel s temps current stop target result
      = some (s, temps, result) := by
  rw [borderWalk.eq_def, if_pos h]

/-- One unfolding of the border walk away from the stop edge. -/
theorem borderWalk_step (fuel : ℕ) (s : Cdt) (temps : List ℕ)
    (current stop target : ℕ) (result : Option ℕ) (hcs : current ≠ stop) :
    borderWalk (fuel + 1) s temps current stop target result
      = borderWalk fuel
          (makeTemporary
            (if target = s.toVertex current then
              (s.make_constraint_edge (asUndirected current), some current)
            else (s, result)).1
            temps (asUndirected (s.nxt current))).1
          (makeTemporary
            (if target = s.toVertex current then
              (s.make_constraint_edge (asUndirected current), some current)
            else (s, result)).1
            temps (asUndirected (s.nxt current))).2
          (s.ccw current) stop target
          (if target = s.toVertex current then
            (s.make_constraint_edge (asUndirected current), some current)
          else (s, result)).2 := by
  rw [borderWalk.eq_def, if_neg hcs]

/-- A border walk whose trajectory meets the target vertex on no spoke:
the walk terminates (given its trajectory does), keeps its incoming
`result`, never touches the counter, preserves the bit of any edge that is
the `nxt` of no visited spoke, and adds only frozen `nxt` edges to the
temporaries. -/
theorem borderWalk_no_mark :
    ∀ (fuel : ℕ) (s : Cdt) (temps : List ℕ) (current stop target : ℕ)
      (result : Option ℕ) (cs : List ℕ) (m : ℕ),
      ccwChain s fuel current stop = some cs →
      (∀ c ∈ cs, s.toVertex c ≠ target) →
      (∀ c ∈ cs, asUndirected (s.nxt c) ≠ m) →
      ∃ s4 temps4,
        borderWalk fuel s temps current stop target result
            = some (s4, temps4, result) ∧
          s4.num_constraints = s.num_constraints ∧
          s4.bit m = s.bit m ∧
          (m ∈ temps4 → m ∈ temps) := by
  intro fuel
  induction fuel with
  | zero =>
    intro s temps current stop target result cs m hch htv hnx
    by_cases hcs : current = stop
    · exact ⟨s, temps,
        borderWalk_stop 0 s temps current stop target result hcs,
        rfl, rfl, fun h => h⟩
    · rw [ccwChain_zero s current stop hcs] at hch
      exact absurd hch (by simp)
  | succ k ih =>
    intro s temps current stop target result cs m hch htv hnx
    by_cases hcs : current = stop
    · exact ⟨s, temps,
        borderWalk_stop (k + 1) s temps current stop target result hcs,
        rfl, rfl, fun h => h⟩
    · rw [ccwChain_succ s k current stop hcs] at hch
      rcases hch2 : ccwChain s k (s.ccw current) stop with _ | cs2
      · rw [hch2] at hch
        exact absurd hch (by simp)
      · rw [hch2] at hch
        have hch3 : some (current :: cs2) = some cs := hch
        have hch4 := Option.some.inj hch3
        subst hch4
        have hcur : s.toVertex current ≠ target :=
          htv current (List.mem_cons_self current cs2)
        have hnxcur : asUndirected (s.nxt current) ≠ m :=
          hnx current (List.mem_cons_self current cs2)
        have hsr : (if target = s.toVertex current then
              (s.make_constraint_edge (asUndirected current), some current)
            else (s, result)) = (s, result) :=
          if_neg (fun hh => hcur hh.symm)
        have h1 : borderWalk (k + 1) s temps current stop target result
            = borderWalk k
                (makeTemporary s temps (asUndirected (s.nxt current))).1
                (makeTemporary s temps (asUndirected (s.nxt current))).2
                (s.ccw current) stop target result := by
          rw [borderWalk_step k s temps current stop target result hcs, hsr]
        have hprv : (makeTemporary s temps
            (asUndirected (s.nxt current))).1.prv = s.prv :=
          makeTemporary_prv s temps (asUndirected (s.nxt current))
        have hch5 : ccwChain
            (makeTemporary s temps (asUndirected (s.nxt current))).1 k
            (s.ccw current) stop = some cs2 := by
          rw [ccwChain_congr _ s hprv]
          exact hch2
        have htv2 : ∀ c ∈ cs2,
            (makeTemporary s temps
              (asUndirected (s.nxt current))).1.toVertex c ≠ target := by
          intro c hc
          rw [makeTemporary_toVertex]
          exact htv c (List.mem_cons_of_mem current hc)
        have hnx2 : ∀ c ∈ cs2,
            asUndirected ((makeTemporary s temps
              (asUndirected (s.nxt current))).1.nxt c) ≠ m := by
          intro c hc
          rw [makeTemporary_nxt]
          exact hnx c (List.mem_cons_of_mem current hc)
        obtain ⟨s4, temps4, hw, hnc, hbm, htm⟩ :=
          ih (makeTemporary s temps (asUndirected (s.nxt current))).1
            (makeTemporary s temps (asUndirected (s.nxt current))).2
            (s.ccw current) stop target result cs2 m hch5 htv2 hnx2
        refine ⟨s4, temps4, ?_, ?_, ?_, ?_⟩
        · rw [h1]
          exact hw
        · rw [hnc, makeTemporary_num_constraints]
        · rw [hbm, makeTemporary_bit_other s temps _ m (Ne.symm hnxcur)]
        · intro hm
          rcases makeTemporary_mem s temps _ m (htm hm) with h | h
          · exact h
          · exact absurd h (Ne.symm hnxcur)

/-- A border walk whose trajectory meets the target vertex on exactly one
spoke, that spoke's undirected edge being unfrozen and unmarked and the
`nxt` of no visited spoke: the walk returns that spoke as its result,
increments the counter exactly once, leaves the marked bit set, and never
freezes the marked edge. -/
theorem borderWalk_unique_mark :
    ∀ (fuel : ℕ) (s : Cdt) (temps : List ℕ) (current stop target : ℕ)
      (cs : List ℕ) (cstar : ℕ),
      ccwChain s fuel current stop = some cs →
      cs.filter (fun c => decide (s.toVertex c = target)) = [cstar] →
      s.bit (asUndirected cstar) = false →
      asUndirected cstar ∉ temps →
      (∀ c ∈ cs, asUndirected (s.nxt c) ≠ asUndirected cstar) →
      ∃ s4 temps4,
        borderWalk fuel s temps current stop target none
            = some (s4, temps4, some cstar) ∧
          s4.num_constraints = s.num_constraints + 1 ∧
          s4.bit (asUndirected cstar) = true ∧
          asUndirected cstar ∉ temps4 := by
  intro fuel
  induction fuel with
  | zero =>
    intro s temps current stop target cs cstar hch hflt hcf htm hnx
    by_cases hcs : current = stop
    · rw [ccwChain_stop s 0 current stop hcs] at hch
      have hch2 := Option.some.inj hch
      rw [← hch2] at hflt
      simp at hflt
    · rw [ccwChain_zero s current stop hcs] at hch
      exact absurd hch (by simp)
  | succ k ih =>
    intro s temps current stop target cs cstar hch hflt hcf htm hnx
    by_cases hcs : current = stop
    · rw [ccwChain_stop s (k + 1) current stop hcs] at hch
      have hch2 := Option.some.inj hch
      rw [← hch2] at hflt
      simp at hflt
    · rw [ccwChain_succ s k current stop hcs] at hch
      rcases hch2 : ccwChain s k (s.ccw current) stop with _ | cs2
      · rw [hch2] at hch
        exact absurd hch (by simp)
      · rw [hch2] at hch
        have hch3 : some (current :: cs2) = some cs := hch
        have hch4 := Option.some.inj hch3
        subst hch4
        simp only [List.filter_cons, decide_eq_true_eq] at hflt
        by_cases hmark : s.toVertex current = target
        · rw [if_pos hmark] at hflt
          simp only [List.cons.injEq] at hflt
          obtain ⟨hceq, hflt2⟩ := hflt
          subst hceq
          have htv2 : ∀ c ∈ cs2, s.toVertex c ≠ target := by
            intro c hc hcontra
            have hmem : c ∈ cs2.filter
                (fun c => decide (s.toVertex c = target)) :=
              List.mem_filter.mpr ⟨hc, decide_eq_true hcontra⟩
            rw [hflt2] at hmem
            simp at hmem
          have hnxcur : asUndirected (s.nxt current)
              ≠ asUndirected current :=
            hnx current (List.mem_cons_self current cs2)
          have hsr : (if target = s.toVertex current then
                (s.make_constraint_edge (asUndirected current),
                  some current)
              else (s, (none : Option ℕ)))
              = (s.make_constraint_edge (asUndirected current),
                  some current) :=
            if_pos hmark.symm
          have h1 : borderWalk (k + 1) s temps current stop target none
              = borderWalk k
                  (makeTemporary
                    (s.make_constraint_edge (asUndirected current)) temps
                    (asUndirected (s.nxt current))).1
                  (makeTemporary
                    (s.make_constraint_edge (asUndirected current)) temps
                    (asUndirected (s.nxt current))).2
                  (s.ccw current) stop target (some current) := by
            rw [borderWalk_step k s temps current stop target none hcs,
              hsr]
          have hprv : (makeTemporary
              (s.make_constraint_edge (asUndirected current)) temps
              (asUndirected (s.nxt current))).1.prv = s.prv := by
            rw [makeTemporary_prv, make_constraint_edge_prv]
          have hch5 : ccwChain (makeTemporary
              (s.make_constraint_edge (asUndirected current)) temps
              (asUndirected (s.nxt current))).1 k (s.ccw current) stop
              = some cs2 := by
            rw [ccwChain_congr _ s hprv]
            exact hch2
          have htv3 : ∀ c ∈ cs2, (makeTemporary
              (s.make_constraint_edge (asUndirected current)) temps
              (asUndirected (s.nxt current))).1.toVertex c ≠ target := by
            intro c hc
            rw [makeTemporary_toVertex, make_constraint_edge_toVertex]
            exact htv2 c hc
          have hnx3 : ∀ c ∈ cs2, asUndirected ((makeTemporary
              (s.make_constraint_edge (asUndirected current)) temps
              (asUndirected (s.nxt current))).1.nxt c)
              ≠ asUndirected current := by
            intro c hc
            rw [makeTemporary_nxt, make_constraint_edge_nxt]
            exact hnx c (List.mem_cons_of_mem current hc)
          obtain ⟨s4, temps4, hw, hnc, hbm, htm4⟩ :=
            borderWalk_no_mark k
              (makeTemporary
                (s.make_constraint_edge (asUndirected current)) temps
                (asUndirected (s.nxt current))).1
              (makeTemporary
                (s.make_constraint_edge (asUndirected current)) temps
                (asUndirected (s.nxt current))).2
              (s.ccw current) stop target (some current) cs2
              (asUndirected current) hch5 htv3 hnx3
          refine ⟨s4, temps4, ?_, ?_, ?_, ?_⟩
          · rw [h1]
            exact hw
          · rw [hnc, makeTemporary_num_constraints,
              make_constraint_edge_nc_clear s _ hcf]
          · rw [hbm, makeTemporary_bit_other _ temps _ _ (Ne.symm hnxcur)]
            exact make_constraint_edge_bit_self s (asUndirected current)
          · intro hm
            rcases makeTemporary_mem _ temps _ _ (htm4 hm) with h | h
            · exact htm h
            · exact (Ne.symm hnxcur) h
        · rw [if_neg hmark] at hflt
          have hnxcur : asUndirected (s.nxt current)
              ≠ asUndirected cstar :=
            hnx current (List.mem_cons_self current cs2)
          have hsr : (if target = s.toVertex current then
                (s.make_constraint_edge (asUndirected current),
                  some current)
              else (s, (none : Option ℕ))) = (s, (none : Option ℕ)) :=
            if_neg (fun hh => hmark hh.symm)
          have h1 : borderWalk (k + 1) s temps current stop target none
              = borderWalk k
                  (makeTemporary s temps (asUndirected (s.nxt current))).1
                  (makeTemporary s temps (asUndirected (s.nxt current))).2
                  (s.ccw current) stop target none := by
            rw [borderWalk_step k s temps current stop target none hcs,
              hsr]
          have hprv : (makeTemporary s temps
              (asUndirected (s.nxt current))).1.prv = s.prv :=
            makeTemporary_prv s temps (asUndirected (s.nxt current))
          have hch5 : ccwChain (makeTemporary s temps
              (asUndirected (s.nxt current))).1 k (s.ccw current) stop
              = some cs2 := by
            rw [ccwChain_congr _ s hprv]
            exact hch2
          have hflt3 : cs2.filter (fun c => decide ((makeTemporary s temps
              (asUndirected (s.nxt current))).1.toVertex c = target))
              = [cstar] := by
            rw [makeTemporary_toVertex]
            exact hflt
          have hcf2 : (makeTemporary s temps
              (asUndirected (s.nxt current))).1.bit (asUndirected cstar)
              = false := by
            rw [makeTemporary_bit_other s temps _ _ (Ne.symm hnxcur)]
            exact hcf
          have htm2 : asUndirected cstar ∉ (makeTemporary s temps
              (asUndirected (s.nxt current))).2 := by
            intro hm
            rcases makeTemporary_mem s temps _ _ hm with h | h
            · exact htm h
            · exact (Ne.symm hnxcur) h
          have hnx2 : ∀ c ∈ cs2, asUndirected ((makeTemporary s temps
              (asUndirected (s.nxt current))).1.nxt c)
              ≠ asUndirected cstar := by
            intro c hc
            rw [makeTemporary_nxt]
            exact hnx c (List.mem_cons_of_mem current hc)
          obtain ⟨s4, temps4, hw, hnc, hbm, htm4⟩ :=
            ih (makeTemporary s temps (asUndirected (s.nxt current))).1
              (makeTemporary s temps (asUndirected (s.nxt current))).2
              (s.ccw current) stop target cs2 cstar hch5 hflt3 hcf2 htm2
              hnx2
          refine ⟨s4, temps4, ?_, ?_, ?_, ?_⟩
          · rw [h1]
            exact hw
          · rw [hnc, makeTemporary_num_constraints]
          · exact hbm
          · exact htm4

/-- A successful `resolve_conflict_region` run over a nonempty conflict
region whose border-walk trajectory marks exactly one spoke — the one
reaching the target vertex, its edge a flipped former conflict edge, hence
unfrozen, distinct from both border edges and from every frozen `nxt` —
returns that spoke, increments `num_constraints` by exactly one, and
leaves the new constraint bit set: the flips, the freezes, the
legalization and the final unfreeze are all counter-neutral, and the
unfreeze never clears the marked bit. -/
theorem resolve_conflict_region_plus_one
    (fuel : ℕ) (s : Cdt) (d0 : ℕ) (tl : List ℕ) (b : ℕ) (cs : List ℕ)
    (cstar : ℕ) (s2 : Cdt) (res : Option ℕ)
    (hrcr : resolve_conflict_region fuel s (d0 :: tl) b = some (s2, res))
    (hchain : ccwChain (flipAll s (d0 :: tl)) fuel (s.prv (rev d0))
      (rev (s.nxt (rev d0))) = some cs)
    (huniq : cs.filter
      (fun c => decide ((flipAll s (d0 :: tl)).toVertex c = b)) = [cstar])
    (hcf : s.bit (asUndirected cstar) = false)
    (hnb1 : asUndirected cstar ≠ asUndirected (s.prv (rev d0)))
    (hnb2 : asUndirected cstar ≠ asUndirected (s.nxt (rev d0)))
    (hnnxt : ∀ c ∈ cs, asUndirected ((flipAll s (d0 :: tl)).nxt c)
      ≠ asUndirected cstar) :
    res = some cstar ∧ s2.num_constraints = s.num_constraints + 1 ∧
      s2.bit (asUndirected cstar) = true := by
  have hfz_prv : (freezeBorder (flipAll s (d0 :: tl)) (s.prv (rev d0))
      (s.nxt (rev d0))).1.prv = (flipAll s (d0 :: tl)).prv :=
    freezeBorder_prv _ _ _
  have hch2 : ccwChain (freezeBorder (flipAll s (d0 :: tl))
      (s.prv (rev d0)) (s.nxt (rev d0))).1 fuel (s.prv (rev d0))
      (rev (s.nxt (rev d0))) = some cs := by
    rw [ccwChain_congr _ (flipAll s (d0 :: tl)) hfz_prv]
    exact hchain
  have htv : (freezeBorder (flipAll s (d0 :: tl)) (s.prv (rev d0))
      (s.nxt (rev d0))).1.toVertex = (flipAll s (d0 :: tl)).toVertex := by
    funext d
    show (freezeBorder (flipAll s (d0 :: tl)) (s.prv (rev d0))
      (s.nxt (rev d0))).1.origin (rev d)
      = (flipAll s (d0 :: tl)).origin (rev d)
    rw [freezeBorder_origin]
  have huniq2 : cs.filter (fun c => decide ((freezeBorder
      (flipAll s (d0 :: tl)) (s.prv (rev d0))
      (s.nxt (rev d0))).1.toVertex c = b)) = [cstar] := by
    rw [htv]
    exact huniq
  have hcf2 : (freezeBorder (flipAll s (d0 :: tl)) (s.prv (rev d0))
      (s.nxt (rev d0))).1.bit (asUndirected cstar) = false := by
    rw [freezeBorder_bit_other _ _ _ _ hnb1 hnb2, flipAll_bit]
    exact hcf
  have htm : asUndirected cstar ∉ (freezeBorder (flipAll s (d0 :: tl))
      (s.prv (rev d0)) (s.nxt (rev d0))).2 := by
    intro hm
    rcases freezeBorder_mem _ _ _ _ hm with h | h
    · exact hnb1 h
    · exact hnb2 h
  have hnx2 : ∀ c ∈ cs, asUndirected ((freezeBorder (flipAll s (d0 :: tl))
      (s.prv (rev d0)) (s.nxt (rev d0))).1.nxt c)
      ≠ asUndirected cstar := by
    intro c hc
    rw [freezeBorder_nxt]
    exact hnnxt c hc
  obtain ⟨s4, temps4, hw, hwnc, hwbit, hwtm⟩ :=
    borderWalk_unique_mark fuel
      (freezeBorder (flipAll s (d0 :: tl)) (s.prv (rev d0))
        (s.nxt (rev d0))).1
      (freezeBorder (flipAll s (d0 :: tl)) (s.prv (rev d0))
        (s.nxt (rev d0))).2
      (s.prv (rev d0)) (rev (s.nxt (rev d0))) b cs cstar hch2 huniq2 hcf2
      htm hnx2
  have hrcr3 : (match borderWalk fuel
        (freezeBorder (flipAll s (d0 :: tl)) (s.prv (rev d0))
          (s.nxt (rev d0))).1
        (freezeBorder (flipAll s (d0 :: tl)) (s.prv (rev d0))
          (s.nxt (rev d0))).2
        (s.prv (rev d0)) (rev (s.nxt (rev d0))) b none with
      | none => none
      | some (s4, temps4, result) =>
        match legalize_edges_after_removal fuel s4
            (((d0 :: tl).map asUndirected).reverse) (fun _ => false) with
        | none => none
        | some s5 =>
          some (temps4.foldl (fun acc e => acc.setBit e false) s5,
            result)) = some (s2, res) := hrcr
  rw [hw] at hrcr3
  have hrcr4 : (match legalize_edges_after_removal fuel s4
      (((d0 :: tl).map asUndirected).reverse) (fun _ => false) with
    | none => none
    | some s5 =>
      some (temps4.foldl (fun acc e => acc.setBit e false) s5,
        some cstar)) = some (s2, res) := hrcr3
  rcases hleg : legalize_edges_after_removal fuel s4
      (((d0 :: tl).map asUndirected).reverse) (fun _ => false) with _ | s5
  · rw [hleg] at hrcr4
    simp at hrcr4
  · rw [hleg] at hrcr4
    have hrcr5 : some (temps4.foldl (fun acc e => acc.setBit e false) s5,
        some cstar) = some (s2, res) := hrcr4
    have hp := Option.some.inj hrcr5
    have hs2 : temps4.foldl (fun acc e => acc.setBit e false) s5 = s2 :=
      congrArg Prod.fst hp
    have hres : some cstar = res := congrArg Prod.snd hp
    have hpres := legalize_edges_after_removal_preserves fuel s4
      (((d0 :: tl).map asUndirected).reverse) (fun _ => false) s5 hleg
    refine ⟨hres.symm, ?_, ?_⟩
    · rw [← hs2, unfreeze_num_constraints, hpres.2.2.1, hwnc,
        freezeBorder_num_constraints, flipAll_num_constraints]
    · rw [← hs2, unfreeze_bit_notmem temps4 s5 (asUndirected cstar) hwtm,
        hpres.1]
      exact hwbit

/-- The collection phase of `rscLoop`: a run of crossed non-constraint
edges is appended, in order, to the conflict-edge accumulator, with one
fuel unit spent per edge and the state untouched. -/
theorem rscLoop_collects (env : IterEnv) :
    ∀ (ds : List ℕ) (fuel : ℕ) (s : Cdt) (rest : List Intersection)
      (a b : ℕ) (ce result : List ℕ),
      (∀ d ∈ ds, s.bit (asUndirected d) = false) →
      rscLoop env (fuel + ds.length) s
        (ds.map Intersection.edgeIntersection ++ rest) a b none ce result
        = rscLoop env fuel s rest a b none (ce ++ ds) result := by
  intro ds
  induction ds with
  | nil =>
    intro fuel s rest a b ce result h
    simp
  | cons d ds ih =>
    intro fuel s rest a b ce result h
    have hd : s.bit (asUndirected d) = false :=
      h d (List.mem_cons_self d ds)
    have hstep : rscLoop env (fuel + (d :: ds).length) s
        ((d :: ds).map Intersection.edgeIntersection ++ rest) a b none ce
          result
        = if s.bit (asUndirected d) = false then
            rscLoop env (fuel + ds.length) s
              (ds.map Intersection.edgeIntersection ++ rest) a b none
              (ce ++ [d]) result
          else none := rfl
    rw [hstep, if_pos hd,
      ih fuel s rest a b (ce ++ [d]) result
        (fun d2 hd2 => h d2 (List.mem_cons_of_mem d hd2)),
      List.append_assoc]
    rfl

/-- C6: for a constraint edge `e` (bit set, counter positive), removing it
with `remove_constraint_edge` — which clears the bit, decrements the
counter, re-legalizes and returns `true` — and then calling
`add_constraint` on its two endpoints restores `num_constraints` to
exactly its pre-removal value.  The reconnection hypothesis `hshape`
covers both shapes the post-removal intersection sequence can take:
either the removed edge survived the full legalization and the segment
runs along it (`EdgeOverlap`, left disjunct), or the legalization flipped
the removed edge away and the segment now strictly crosses a nonempty run
of non-constraint edges before reaching the far endpoint
(`EdgeIntersection`, right disjunct): the crossed edges form one conflict
region that `resolve_conflict_region` resolves, its border walk marking
exactly the one implicitly created edge that reaches the target vertex —
a flipped former conflict edge, unfrozen and distinct from the frozen
border — so the whole re-add again increments the counter by exactly
one. -/
theorem remove_then_add_restores_count (env : IterEnv) (fuel : ℕ) (s : Cdt)
    (e : ℕ) (s1 : Cdt) (r : Bool) (a b : ℕ)
    (ha : a = s.origin (2 * e)) (hb : b = s.origin (2 * e + 1))
    (hbit : s.bit e = true)
    (hpos : 0 < s.num_constraints)
    (hfuel : 2 ≤ fuel)
    (hrm : remove_constraint_edge fuel s e = some (s1, r))
    (hne : a ≠ b)
    (hshape :
      (∃ d, env.restIntersections s1 a b
          = [Intersection.edgeOverlap d,
             Intersection.vertexIntersection b] ∧
        s1.bit (asUndirected d) = false) ∨
      (∃ d0 tl cs cstar,
        env.restIntersections s1 a b
            = ((d0 :: tl).map Intersection.edgeIntersection)
              ++ [Intersection.vertexIntersection b] ∧
          (∀ d2 ∈ d0 :: tl, s1.bit (asUndirected d2) = false) ∧
          tl.length + 2 ≤ fuel ∧
          (resolve_conflict_region (fuel - tl.length - 2) s1 (d0 :: tl)
            b).isSome = true ∧
          ccwChain (flipAll s1 (d0 :: tl)) (fuel - tl.length - 2)
            (s1.prv (rev d0)) (rev (s1.nxt (rev d0))) = some cs ∧
          cs.filter (fun c =>
            decide ((flipAll s1 (d0 :: tl)).toVertex c = b)) = [cstar] ∧
          s1.bit (asUndirected cstar) = false ∧
          asUndirected cstar ≠ asUndirected (s1.prv (rev d0)) ∧
          asUndirected cstar ≠ asUndirected (s1.nxt (rev d0)) ∧
          ∀ c ∈ cs, asUndirected ((flipAll s1 (d0 :: tl)).nxt c)
            ≠ asUndirected cstar)) :
    r = true ∧
    ∃ s2, add_constraint env fuel s1 a b = some (true, s2) ∧
      s2.num_constraints = s.num_constraints := by
  subst ha
  subst hb
  -- unpack the removal
  simp only [remove_constraint_edge, hbit, if_true] at hrm
  rcases hleg : legalize_edge fuel
      { s.setBit e false with num_constraints := s.num_constraints - 1 }
      (2 * e) true with _ | p
  · rw [hleg] at hrm
    simp at hrm
  · rw [hleg] at hrm
    simp only [Option.some.injEq, Prod.mk.injEq] at hrm
    obtain ⟨hs1, hr⟩ := hrm
    have hpres := legalizeLoop_preserves fuel
      { s.setBit e false with num_constraints := s.num_constraints - 1 }
      [2 * e] true false p.1 p.2 (by rw [← legalize_edge, hleg])
    have hnc1 : s1.num_constraints = s.num_constraints - 1 := by
      rw [← hs1]
      exact hpres.2.2.1
    refine ⟨hr.symm, ?_⟩
    rcases hshape with ⟨d, hsh, hd⟩ |
      ⟨d0, tl, cs, cstar, hsh, hbits, hfb, hrs, hchain, huniq, hcf, hnb1,
        hnb2, hnnxt⟩
    · -- the segment runs along the surviving edge: one EdgeOverlap
      obtain ⟨k, rfl⟩ : ∃ k, fuel = k + 2 := ⟨fuel - 2, by omega⟩
      have htail : (lineIntersections env s1 (s.origin (2 * e))
          (s.origin (2 * e + 1))).tail
          = [Intersection.edgeOverlap d,
             Intersection.vertexIntersection (s.origin (2 * e + 1))] := by
        simp [lineIntersections, hne, hsh]
      have hrun : rscLoop env (k + 2) s1
          [Intersection.edgeOverlap d,
           Intersection.vertexIntersection (s.origin (2 * e + 1))]
          (s.origin (2 * e)) (s.origin (2 * e + 1)) none [] []
          = some (s1.make_constraint_edge (asUndirected d), [d]) := by
        have hstep1 : rscLoop env (k + 2) s1
            [Intersection.edgeOverlap d,
             Intersection.vertexIntersection (s.origin (2 * e + 1))]
            (s.origin (2 * e)) (s.origin (2 * e + 1)) none [] []
            = rscLoop env (k + 1) s1
              [Intersection.vertexIntersection (s.origin (2 * e + 1))]
              (s1.toVertex d) (s.origin (2 * e + 1)) none [] [d] := rfl
        have hstep2 : rscLoop env (k + 1) s1
            [Intersection.vertexIntersection (s.origin (2 * e + 1))]
            (s1.toVertex d) (s.origin (2 * e + 1)) none [] [d]
            = rscLoop env k s1 [] (s.origin (2 * e + 1))
              (s.origin (2 * e + 1)) none [] [d] := by
          simp [rscLoop, resolve_conflict_region, lineIntersections]
        have hstep3 : rscLoop env k s1 [] (s.origin (2 * e + 1))
            (s.origin (2 * e + 1)) none [] [d]
            = some (s1.make_constraint_edge (asUndirected d), [d]) := by
          simp [rscLoop]
        rw [hstep1, hstep2, hstep3]
      have hmake : s1.make_constraint_edge (asUndirected d)
          = { s1.setBit (asUndirected d) true with
              num_constraints := s1.num_constraints + 1 } := by
        rw [Cdt.make_constraint_edge, hd]
        simp
      refine ⟨{ s1.setBit (asUndirected d) true with
        num_constraints := s1.num_constraints + 1 }, ?_, by
          simp only [Cdt.setBit]
          omega⟩
      rw [add_constraint, resolve_splitting_constraint_request, htail, hrun,
        hmake]
      simp only [Option.some.injEq, Prod.mk.injEq]
      constructor
      · simp [Cdt.setBit]
      · trivial
    · -- the removed edge was flipped away: one conflict region
      obtain ⟨⟨s2mid, res⟩, hrcr⟩ := Option.isSome_iff_exists.mp hrs
      obtain ⟨hres, hmidnc, hmidbit⟩ :=
        resolve_conflict_region_plus_one (fuel - tl.length - 2) s1 d0 tl
          (s.origin (2 * e + 1)) cs cstar s2mid res hrcr hchain huniq hcf
          hnb1 hnb2 hnnxt
      subst hres
      obtain ⟨g, hgf⟩ : ∃ g, fuel = g + 1 + (tl.length + 1) :=
        ⟨fuel - tl.length - 2, by omega⟩
      have hgeq : fuel - tl.length - 2 = g := by omega
      rw [hgeq] at hrcr
      have htail : (lineIntersections env s1 (s.origin (2 * e))
          (s.origin (2 * e + 1))).tail
          = ((d0 :: tl).map Intersection.edgeIntersection)
            ++ [Intersection.vertexIntersection
              (s.origin (2 * e + 1))] := by
        simp [lineIntersections, hne, hsh]
      have hcoll : rscLoop env (g + 1 + (tl.length + 1)) s1
          (((d0 :: tl).map Intersection.edgeIntersection)
            ++ [Intersection.vertexIntersection (s.origin (2 * e + 1))])
          (s.origin (2 * e)) (s.origin (2 * e + 1)) none [] []
          = rscLoop env (g + 1) s1
            [Intersection.vertexIntersection (s.origin (2 * e + 1))]
            (s.origin (2 * e)) (s.origin (2 * e + 1)) none (d0 :: tl)
            [] := by
        have h0 := rscLoop_collects env (d0 :: tl) (g + 1) s1
          [Intersection.vertexIntersection (s.origin (2 * e + 1))]
          (s.origin (2 * e)) (s.origin (2 * e + 1)) [] [] hbits
        simpa using h0
      have hvi : rscLoop env (g + 1) s1
          [Intersection.vertexIntersection (s.origin (2 * e + 1))]
          (s.origin (2 * e)) (s.origin (2 * e + 1)) none (d0 :: tl) []
          = some (s2mid.make_constraint_edge (asUndirected cstar),
            [cstar]) := by
        have h0 : rscLoop env (g + 1) s1
            [Intersection.vertexIntersection (s.origin (2 * e + 1))]
            (s.origin (2 * e)) (s.origin (2 * e + 1)) none (d0 :: tl) []
            = match resolve_conflict_region g s1 (d0 :: tl)
                (s.origin (2 * e + 1)) with
              | none => none
              | some (s2, newEdge) =>
                rscLoop env g s2
                  ((lineIntersections env s2 (s.origin (2 * e + 1))
                    (s.origin (2 * e + 1))).tail)
                  (s.origin (2 * e + 1)) (s.origin (2 * e + 1)) none []
                  ([] ++ newEdge.toList) := rfl
        rw [h0, hrcr]
        have htl2 : (lineIntersections env s2mid (s.origin (2 * e + 1))
            (s.origin (2 * e + 1))).tail = [] := by
          simp [lineIntersections]
        show rscLoop env g s2mid
            ((lineIntersections env s2mid (s.origin (2 * e + 1))
              (s.origin (2 * e + 1))).tail)
            (s.origin (2 * e + 1)) (s.origin (2 * e + 1)) none []
            ([] ++ (some cstar).toList)
          = some (s2mid.make_constraint_edge (asUndirected cstar), [cstar])
        rw [htl2]
        simp [rscLoop]
      have hmce : s2mid.make_constraint_edge (asUndirected cstar)
          = s2mid := by
        rw [Cdt.make_constraint_edge, if_pos hmidbit]
      refine ⟨s2mid, ?_, by omega⟩
      rw [add_constraint, resolve_splitting_constraint_request, htail, hgf,
        hcoll, hvi, hmce]
      have hfinal : some (decide (s2mid.num_constraints
          ≠ s1.num_constraints), s2mid) = some (true, s2mid) := by
        rw [hmidnc]
        simp only [Option.some.injEq, Prod.mk.injEq]
        refine ⟨?_, trivial⟩
        rw [decide_eq_true_eq]
        omega
      exact hfinal

/-- A four-point kite `A(-1,0)`, `B(0,3)`, `C(1,0)`, `D(0,-3)` triangulated
with the diagonal `B–D` (undirected edge `4`, half-edges `8 : B→D` and
`9 : D→B`) as its only constraint.  The diagonal is not locally Delaunay:
`C` lies inside the circumcircle of `A`, `D`, `B`. -/
def c6Quad : Cdt where
  nextEdge := 5
  edges := [0, 1, 2, 3, 4]
  bit := fun u => u == 4
  num_constraints := 1
  origin := fun d =>
    if d = 0 then 0 else if d = 1 then 1 else if d = 2 then 1
    else if d = 3 then 2 else if d = 4 then 2 else if d = 5 then 3
    else if d = 6 then 3 else if d = 7 then 0 else if d = 8 then 1
    else 3
  nxt := fun d =>
    if d = 0 then 2 else if d = 2 then 4 else if d = 4 then 6
    else if d = 6 then 0 else if d = 7 then 9 else if d = 9 then 1
    else if d = 1 then 7 else if d = 8 then 5 else if d = 5 then 3
    else 8
  prv := fun d =>
    if d = 2 then 0 else if d = 4 then 2 else if d = 6 then 4
    else if d = 0 then 6 else if d = 9 then 7 else if d = 1 then 9
    else if d = 7 then 1 else if d = 5 then 8 else if d = 3 then 5
    else 3
  face := fun d =>
    if d = 7 then 1 else if d = 9 then 1 else if d = 1 then 1
    else if d = 8 then 2 else if d = 5 then 2 else if d = 3 then 2
    else 0
  vdata := fun v =>
    if v = 0 then ((-1, 0), 0) else if v = 1 then ((0, 3), 1)
    else if v = 2 then ((1, 0), 2) else ((0, -3), 3)
  numVertices := 4
  numFaces := 3
  nextFace := 3

/-- The kite after `remove_constraint_edge` on the diagonal: the full
legalization flips the removed edge away, so edge `4` now carries the
`A–C` diagonal (`8 : C→A`, `9 : A→C`). -/
def c6QuadRemoved : Cdt :=
  flip_cw
    { c6Quad.setBit 4 false with
      num_constraints := c6Quad.num_constraints - 1 } 4

/-- The post-removal intersection oracle for the kite: the segment from
`B` back to `D` strictly crosses the new `A–C` diagonal (directed
half-edge `8`, from `C` to `A`, left-to-right across the segment) and then
reaches `D`. -/
def c6QuadEnv : IterEnv :=
  ⟨fun _ _ _ => [Intersection.edgeIntersection 8,
    Intersection.vertexIntersection 3]⟩

/-- C6 — witness: the restore theorem applied to the kite, in the
flipped-away case: the removal's legalization flips `B–D` to `A–C`
(settled by `norm_num` on the one in-circle decision), and the re-add
resolves one conflict region whose border walk marks the re-created `B–D`
edge.  All remaining hypotheses are closed by evaluation. -/
theorem remove_then_add_restores_count_witness :
    (true = true) ∧
    ∃ s2, add_constraint c6QuadEnv 9 c6QuadRemoved 1 3 = some (true, s2) ∧
      s2.num_constraints = c6Quad.num_constraints := by
  have hcic : contained_in_circumference ((-1 : ℚ), (0 : ℚ))
      ((0 : ℚ), (-3 : ℚ)) ((0 : ℚ), (3 : ℚ)) ((1 : ℚ), (0 : ℚ))
      = true := by
    norm_num [contained_in_circumference]
  have hrm : remove_constraint_edge 9 c6Quad 4
      = some (c6QuadRemoved, true) := by
    have h1 : remove_constraint_edge 9 c6Quad 4
        = match legalizeLoop
            { c6Quad.setBit 4 false with
              num_constraints := c6Quad.num_constraints - 1 } 9 [8] true
            false with
          | none => none
          | some (s2, _) => some (s2, true) := rfl
    have h2 : legalizeLoop
        { c6Quad.setBit 4 false with
          num_constraints := c6Quad.num_constraints - 1 } 9 [8] true false
        = if contained_in_circumference ((-1 : ℚ), (0 : ℚ))
            ((0 : ℚ), (-3 : ℚ)) ((0 : ℚ), (3 : ℚ)) ((1 : ℚ), (0 : ℚ)) then
            legalizeLoop c6QuadRemoved 8 [3, 5, 7, 1] true true
          else legalizeLoop
            { c6Quad.setBit 4 false with
              num_constraints := c6Quad.num_constraints - 1 } 8 [] true
            false := rfl
    have h3 : legalizeLoop c6QuadRemoved 8 [3, 5, 7, 1] true true
        = some (c6QuadRemoved, true) := rfl
    rw [h1, h2, if_pos hcic, h3]
  exact remove_then_add_restores_count c6QuadEnv 9 c6Quad 4 c6QuadRemoved
    true 1 3 rfl rfl rfl (by decide) (by decide) hrm (by decide)
    (Or.inr ⟨8, ([] : List ℕ), [1, 9], 9, rfl, by decide, by decide, rfl,
      rfl, rfl, rfl, by decide, by decide, by decide⟩)

/-! ## Vertex removal (`cdt.rs::remove`, `triangulation_ext.rs::remove_core`) -/

/-- Modelled from the spec: `dcel_operations::remove_when_degenerate` — in
the all-collinear state, drop the vertex together with its incident chain
edges; when it was interior to the chain, reconnect its two neighbours
with a fresh (default, non-constraint) edge. -/
def remove_when_degenerate (s : Cdt) (v : ℕ) : Cdt :=
  let incident := s.edges.filter
    (fun u => decide (s.origin (2 * u) = v ∨ s.origin (2 * u + 1) = v))
  let survivors := s.edges.filter
    (fun u => decide (¬ (s.origin (2 * u) = v ∨ s.origin (2 * u + 1) = v)))
  let nbrs := incident.map
    (fun u => if s.origin (2 * u) = v then s.origin (2 * u + 1)
      else s.origin (2 * u))
  match nbrs with
  | [a, b] =>
    let u2 := s.nextEdge
    { s with
      edges := survivors ++ [u2]
      nextEdge := s.nextEdge + 1
      bit := fun u => if u = u2 then false else s.bit u
      origin := fun d =>
        if d = 2 * u2 then a else if d = 2 * u2 + 1 then b else s.origin d
      numVertices := s.numVertices - 1 }
  | _ => { s with edges := survivors, numVertices := s.numVertices - 1 }

/-- Modelled from the spec: `swap_remove_vertex` — O(1) removal that moves
the last vertex record into the removed slot when the removed vertex is
not the last one. -/
def swap_remove_vertex (s : Cdt) (v : ℕ) : Cdt :=
  let last := s.numVertices - 1
  if v = last then { s with numVertices := last }
  else
    { s with
      numVertices := last
      vdata := fun x => if x = v then s.vdata last else s.vdata x
      origin := fun d => if s.origin d = last then v else s.origin d }

/-- Modelled from the spec: `disconnect_edge_strip` together with
`cleanup_isolated_vertex` — destroy the edges incident to the removed hull
vertex, make the supplied border chain the new outer boundary, and free
the faces that involved the vertex. -/
def disconnect_edge_strip (s : Cdt) (chain : List ℕ) (v : ℕ) : Cdt :=
  let incidentDirected := (s.edges.filter
    (fun u => decide (s.origin (2 * u) = v ∨ s.origin (2 * u + 1) = v))).map
      (fun u => 2 * u)
  let gone := ((incidentDirected.map s.face).filter
    (fun f => decide (f ≠ 0))).dedup
  { s with
    edges := s.edges.filter
      (fun u => decide (¬ (s.origin (2 * u) = v ∨ s.origin (2 * u + 1) = v)))
    face := fun d => if d ∈ chain then 0 else s.face d
    numFaces := s.numFaces - gone.length }

/-- Modelled from the spec: `isolate_vertex_and_fill_hole` — disconnect an
interior vertex from all incident edges and fill the star-shaped hole with
a triangle fan of fresh default (non-constraint) edges, which are
returned. -/
def isolate_vertex_and_fill_hole (s : Cdt) (v : ℕ) : Cdt × List ℕ :=
  let degree := (s.outEdges v).length
  let fresh := (List.range (degree - 3)).map (fun i => s.nextEdge + i)
  ({ s with
     edges := s.edges.filter
       (fun u => decide (¬ (s.origin (2 * u) = v ∨ s.origin (2 * u + 1) = v)))
       ++ fresh
     nextEdge := s.nextEdge + (degree - 3)
     bit := fun u => if u ∈ fresh then false else s.bit u
     numFaces := s.numFaces - 2 }, fresh)

/-- Embeds the inner `while let &[.., edge1, edge2]` loop of
`isolate_convex_hull_vertex`: while the two most recently collected hull
edges turn left, flip the edge connecting the newest one to the removed
vertex — with no `is_defined_legal` check — and replace the pair by the
flipped diagonal, queueing it for later re-legalization. -/
def convexRepairWhile (fuel : ℕ) (s : Cdt)
    (convexEdges edgesToValidate : List ℕ) :
    Option (Cdt × List ℕ × List ℕ) :=
  match fuel with
  | 0 => none
  | fuel + 1 =>
    match convexEdges.reverse with
    | e2 :: e1 :: _ =>
      let targetPos := s.pos (s.toVertex e2)
      if 0 < s.edgeSide e1 targetPos then
        let edgeToFlip := rev (s.prv e2)
        let s2 := flip_cw s (asUndirected edgeToFlip)
        convexRepairWhile fuel s2
          (convexEdges.dropLast.dropLast ++ [edgeToFlip])
          (edgesToValidate ++ [asUndirected edgeToFlip])
      else some (s, convexEdges, edgesToValidate)
    | _ => some (s, convexEdges, edgesToValidate)

/-- Embeds the outer loop of `isolate_convex_hull_vertex`: rotate
counterclockwise around the removed vertex collecting the border edges and
repairing convexity after each one. -/
def isolateHullLoop (fuel : ℕ) (s : Cdt)
    (convexEdges edgesToValidate : List ℕ) (current loopEnd : ℕ) :
    Option (Cdt × List ℕ × List ℕ) :=
  match fuel with
  | 0 => none
  | fuel + 1 =>
    let edge := s.nxt current
    let current2 := s.ccw current
    match convexRepairWhile (convexEdges.length + 2) s (convexEdges ++ [edge])
        edgesToValidate with
    | none => none
    | some (s2, ce2, ev2) =>
      if current2 = loopEnd then some (s2, ce2, ev2)
      else isolateHullLoop fuel s2 ce2 ev2 current2 loopEnd

/-- Embeds `isolate_convex_hull_vertex` (triangulation_ext.rs): walk the
border of the removed hull vertex, repair convexity (flipping without any
constraint check), disconnect the strip, and re-legalize the flipped
edges. -/
def isolate_convex_hull_vertex (fuel : ℕ) (s : Cdt)
    (convexHullOutEdge v : ℕ) : Option Cdt :=
  let loopEnd := convexHullOutEdge
  let loopStart := s.ccw loopEnd
  let loopEndNext := s.nxt loopEnd
  match isolateHullLoop fuel s [] [] loopStart loopEnd with
  | none => none
  | some (s2, convexEdges, edgesToValidate) =>
    let s3 := disconnect_edge_strip s2 (convexEdges ++ [loopEndNext]) v
    legalize_edges_after_removal fuel s3 edgesToValidate.reverse
      (fun _ => false)

/-- Embeds `remove_core` (triangulation_ext.rs): degenerate fallback, the
hull-vertex path, and the interior path, each followed by the arena
compaction `swap_remove_vertex`. -/
def remove_core (fuel : ℕ) (s : Cdt) (v : ℕ) : Option Cdt :=
  if s.numFaces ≤ 1 then some (remove_when_degenerate s v)
  else
    match (s.outEdges v).reverse.find? (fun d => s.isOuterEdge d) with
    | some hullEdge =>
      match isolate_convex_hull_vertex fuel s hullEdge v with
      | none => none
      | some s2 => some (swap_remove_vertex s2 v)
    | none =>
      let r := isolate_vertex_and_fill_hole s v
      match legalize_edges_after_removal fuel r.1 r.2.reverse
          (fun u => decide (u ∉ r.2)) with
      | none => none
      | some s3 => some (swap_remove_vertex s3 v)

/-- Embeds `ConstrainedDelaunayTriangulation::remove` (cdt.rs): count the
constraint bits among the out-edges of the vertex, subtract that count
from `num_constraints`, then run the kernel removal (`remove_and_notify`
only adds a hint-generator notification). -/
def cdt_remove (fuel : ℕ) (s : Cdt) (v : ℕ) : Option Cdt :=
  let numRemovedConstraints :=
    ((s.outEdges v).filter (fun d => s.bit (asUndirected d))).length
  remove_core fuel
    { s with num_constraints := s.num_constraints - numRemovedConstraints } v

/-! ## A concrete Delaunay CDT whose hull vertex removal crosses a
constraint.

Vertices: 0 = a = (-2,0), 1 = b = (0,-1), 2 = c = (2,0), 3 = v = (0,3).
Undirected edges 0:{a,b}, 1:{b,c}, 2:{c,v}, 3:{v,a}, 4:{b,v}; the diagonal
{b,v} is a constraint.  Inner faces 1 = (v,a,b) = (6,0,8) and
2 = (v,b,c) = (9,2,4); outer ring 5 → 3 → 1 → 7.  The four points are
co-circular, so the diagonal is Delaunay-legal and the state is exactly
what insertions followed by `add_constraint(b, v)` produce. -/

def bugOrigin : ℕ → ℕ
  | 0 => 0 | 1 => 1 | 2 => 1 | 3 => 2 | 4 => 2
  | 5 => 3 | 6 => 3 | 7 => 0 | 8 => 1 | 9 => 3
  | _ => 0

def bugNxt : ℕ → ℕ
  | 6 => 0 | 0 => 8 | 8 => 6 | 9 => 2 | 2 => 4
  | 4 => 9 | 5 => 3 | 3 => 1 | 1 => 7 | 7 => 5
  | _ => 0

def bugPrv : ℕ → ℕ
  | 0 => 6 | 8 => 0 | 6 => 8 | 2 => 9 | 4 => 2
  | 9 => 4 | 3 => 5 | 1 => 3 | 7 => 1 | 5 => 7
  | _ => 0

def bugFace : ℕ → ℕ
  | 6 => 1 | 0 => 1 | 8 => 1 | 9 => 2 | 2 => 2 | 4 => 2
  | _ => 0

def bugVdata : ℕ → Point × ℕ
  | 0 => (((-2 : ℚ), (0 : ℚ)), 0)
  | 1 => (((0 : ℚ), (-1 : ℚ)), 1)
  | 2 => (((2 : ℚ), (0 : ℚ)), 2)
  | _ => (((0 : ℚ), (3 : ℚ)), 3)

def bugCdt : Cdt where
  nextEdge := 5
  edges := [0, 1, 2, 3, 4]
  bit := fun u => u == 4
  num_constraints := 1
  origin := bugOrigin
  nxt := bugNxt
  prv := bugPrv
  face := bugFace
  vdata := bugVdata
  numVertices := 4
  numFaces := 3
  nextFace := 3

/-- The state right after `remove` has charged the counter for the one
constraint edge incident to the removed vertex. -/
def c2s1 : Cdt := { bugCdt with num_constraints := 0 }

/-- The state after the convexity repair has flipped the constraint
diagonal {b,v} into {a,c} (without consulting `is_defined_legal`). -/
def c2s2 : Cdt := flip_cw c2s1 4

/-- The state after the edge strip incident to the removed vertex has been
disconnected. -/
def c2s3 : Cdt := disconnect_edge_strip c2s2 [8, 3] 3

/-- The counterexample state is a well-formed CDT: `nxt` and `prv` are
mutually inverse on the ten live directed edges, each face cycle is
consistent (the next edge starts where the previous one ends and stays on
the same face), the constraint counter matches the number of set bits,
both inner triangles are counterclockwise, and the four points are
co-circular, so the constrained diagonal {b,v} is Delaunay-legal: the
state is reachable by four insertions plus `add_constraint(b, v)`. -/
theorem bugCdt_wellformed :
    bugCdt.num_constraints = bugCdt.countConstraintBits ∧
    (∀ d ∈ [0, 1, 2, 3, 4, 5, 6, 7, 8, 9],
      bugCdt.prv (bugCdt.nxt d) = d ∧ bugCdt.nxt (bugCdt.prv d) = d ∧
      bugCdt.face (bugCdt.nxt d) = bugCdt.face d ∧
      bugCdt.origin (bugCdt.nxt d) = bugCdt.toVertex d) ∧
    is_ordered_ccw (bugCdt.pos 3) (bugCdt.pos 0) (bugCdt.pos 1) = true ∧
    is_ordered_ccw (bugCdt.pos 3) (bugCdt.pos 1) (bugCdt.pos 2) = true ∧
    contained_in_circumference (bugCdt.pos 3) (bugCdt.pos 0) (bugCdt.pos 1)
      (bugCdt.pos 2) = false := by
  refine ⟨rfl, by decide, ?_, ?_, ?_⟩ <;>
    norm_num [is_ordered_ccw, contained_in_circumference, side_query,
      bugCdt, bugVdata, Cdt.pos]

theorem c2_repair2 :
    convexRepairWhile 3 c2s1 [0, 2] [] = some (c2s2, [8], [4]) := by
  have hside : (0 : ℚ) < c2s1.edgeSide 0 (c2s1.pos (c2s1.toVertex 2)) := by
    norm_num [c2s1, Cdt.edgeSide, Cdt.pos, Cdt.toVertex, side_query, rev,
      bugCdt, bugOrigin, bugPrv, bugVdata]
  simp only [convexRepairWhile, List.reverse_cons, List.reverse_nil,
    List.nil_append, List.cons_append, List.dropLast]
  rw [if_pos hside]
  rw [show rev (c2s1.prv 2) = 8 from rfl]
  rfl

theorem c2_loop2 :
    isolateHullLoop 39 c2s1 [0] [] 9 5 = some (c2s2, [8], [4]) := by
  have h : isolateHullLoop 39 c2s1 [0] [] 9 5 =
      match convexRepairWhile 3 c2s1 [0, 2] [] with
      | none => none
      | some (s2, ce2, ev2) =>
        if (5 : ℕ) = 5 then some (s2, ce2, ev2)
        else isolateHullLoop 38 s2 ce2 ev2 5 5 := rfl
  rw [h, c2_repair2]
  rfl

theorem c2_loop1 :
    isolateHullLoop 40 c2s1 [] [] 6 5 = some (c2s2, [8], [4]) := by
  have h1 : isolateHullLoop 40 c2s1 [] [] 6 5 =
      isolateHullLoop 39 c2s1 [0] [] 9 5 := rfl
  rw [h1, c2_loop2]

theorem c2_iso : isolate_convex_hull_vertex 40 c2s1 5 3 = some c2s3 := by
  have hleg : legalize_edges_after_removal 40 c2s3 [4] (fun _ => false) =
      some c2s3 := rfl
  simp only [isolate_convex_hull_vertex]
  rw [show c2s1.ccw 5 = 6 from rfl]
  rw [c2_loop1]
  exact hleg

theorem c2_rc : remove_core 40 c2s1 3 = some (swap_remove_vertex c2s3 3) := by
  have hface : ¬ c2s1.numFaces ≤ 1 := by decide
  have hfind : (c2s1.outEdges 3).reverse.find?
      (fun d => c2s1.isOuterEdge d) = some 5 := rfl
  simp only [remove_core]
  rw [if_neg hface, hfind]
  show (match isolate_convex_hull_vertex 40 c2s1 5 3 with
    | none => none
    | some s2 => some (swap_remove_vertex s2 3)) =
      some (swap_remove_vertex c2s3 3)
  rw [c2_iso]

/-- C2: counterexample run.  Removing the hull vertex v = (0,3) from the
CDT above charges the counter for the one incident constraint {b,v}, but
`isolate_convex_hull_vertex` then flips that very edge without consulting
`is_defined_legal` (the convexity repair at the left turn a→b→c), so its
constraint bit survives on the flipped diagonal {a,c}; the final state has
`num_constraints = 0` while one edge still carries the bit, violating the
claimed invariant that the counter equals the number of set bits. -/
theorem removal_breaks_constraint_count :
    (cdt_remove 40 bugCdt 3).map
      (fun s2 => (s2.num_constraints, s2.countConstraintBits)) =
      some (0, 1) := by
  have h1 : cdt_remove 40 bugCdt 3 = remove_core 40 c2s1 3 := rfl
  rw [h1, c2_rc]
  rfl

/-! ## Vertex insertion (`triangulation_ext.rs::insert_with_hint_option_impl`) -/

/-- Embeds `InsertionResult` (triangulation_ext.rs). -/
inductive InsertionResult where
  | newlyInserted (h : ℕ)
  | updated (h : ℕ)
  deriving DecidableEq, Repr

/-- Modelled from the spec: `update_vertex` — replace the record stored at
an existing vertex handle with the new data. -/
def Cdt.update_vertex (s : Cdt) (v : ℕ) (w : Point × ℕ) : Cdt :=
  { s with vdata := fun x => if x = v then w else s.vdata x }

/-- Modelled from the spec: `insert_first_vertex` — bootstrap the
degenerate one-vertex state; handle 0, no edges, only the outer face. -/
def insert_first_vertex (s : Cdt) (w : Point × ℕ) : Cdt × ℕ :=
  ({ s with
     vdata := fun x => if x = s.numVertices then w else s.vdata x
     numVertices := s.numVertices + 1 }, s.numVertices)

/-- Modelled from the spec: `insert_second_vertex` (dcel_operations) —
bootstrap the degenerate two-vertex line: one fresh non-constraint
undirected edge between handles 0 and 1, both directed halves on the outer
face and linked to each other. -/
def dcel_insert_second_vertex (s : Cdt) (w : Point × ℕ) : Cdt × ℕ :=
  let v := s.numVertices
  let u := s.nextEdge
  ({ s with
     vdata := fun x => if x = v then w else s.vdata x
     numVertices := v + 1
     edges := s.edges ++ [u]
     nextEdge := u + 1
     bit := fun x => if x = u then false else s.bit x
     origin := fun d =>
       if d = 2 * u then 0 else if d = 2 * u + 1 then v else s.origin d
     nxt := fun d =>
       if d = 2 * u then 2 * u + 1 else if d = 2 * u + 1 then 2 * u
       else s.nxt d
     prv := fun d =>
       if d = 2 * u then 2 * u + 1 else if d = 2 * u + 1 then 2 * u
       else s.prv d
     face := fun d =>
       if d = 2 * u ∨ d = 2 * u + 1 then 0 else s.face d }, v)

/-- Embeds `insert_second_vertex` (triangulation_ext.rs): a coincident
position updates vertex 0 in place, any other position bootstraps the
degenerate line. -/
def insert_second_vertex (s : Cdt) (w : Point × ℕ) : Cdt × InsertionResult :=
  if s.pos 0 = w.1 then (s.update_vertex 0 w, InsertionResult.updated 0)
  else
    let r := dcel_insert_second_vertex s w
    (r.1, InsertionResult.newlyInserted r.2)

/-- Modelled from the spec: `extend_line(end_vertex, v)` — append a vertex
collinear with the existing line beyond the line end `e`, connected to `e`
by a fresh non-constraint edge whose directed halves lie on the outer
face; the outer cycle is relinked around the old end's single out-edge. -/
def extend_line (s : Cdt) (e : ℕ) (w : Point × ℕ) : Cdt × ℕ :=
  let v := s.numVertices
  let u := s.nextEdge
  let link : (ℕ → ℕ) × (ℕ → ℕ) :=
    match s.outEdge e with
    | some dout =>
      (fun d =>
        if d = rev dout then 2 * u
        else if d = 2 * u then 2 * u + 1
        else if d = 2 * u + 1 then dout
        else s.nxt d,
       fun d =>
        if d = dout then 2 * u + 1
        else if d = 2 * u + 1 then 2 * u
        else if d = 2 * u then rev dout
        else s.prv d)
    | none =>
      (fun d =>
        if d = 2 * u then 2 * u + 1 else if d = 2 * u + 1 then 2 * u
        else s.nxt d,
       fun d =>
        if d = 2 * u then 2 * u + 1 else if d = 2 * u + 1 then 2 * u
        else s.prv d)
  ({ s with
     vdata := fun x => if x = v then w else s.vdata x
     numVertices := v + 1
     edges := s.edges ++ [u]
     nextEdge := u + 1
     bit := fun x => if x = u then false else s.bit x
     origin := fun d =>
       if d = 2 * u then e else if d = 2 * u + 1 then v else s.origin d
     nxt := link.1
     prv := link.2
     face := fun d =>
       if d = 2 * u ∨ d = 2 * u + 1 then 0 else s.face d }, v)

/-- Modelled from the spec: `split_edge_when_all_vertices_on_line(edge, v)`
— put the new vertex strictly between the endpoints of `d`, reusing the
record of `d` for the half at its origin (keeping its `CdtEdge` payload)
and a fresh default record for the half at its target; both new directed
halves stay on the line (faces copied from `d`).  Returns the two directed
halves along `d` and the new vertex. -/
def split_edge_when_all_vertices_on_line (s : Cdt) (d : ℕ) (w : Point × ℕ) :
    Cdt × (ℕ × ℕ) × ℕ :=
  let v := s.numVertices
  let u2 := s.nextEdge
  let b := s.toVertex d
  let dn := s.nxt d
  let rp := s.prv (rev d)
  ({ s with
     vdata := fun x => if x = v then w else s.vdata x
     numVertices := v + 1
     edges := s.edges ++ [u2]
     nextEdge := u2 + 1
     bit := fun x => if x = u2 then false else s.bit x
     origin := fun x =>
       if x = rev d then v
       else if x = 2 * u2 then v
       else if x = 2 * u2 + 1 then b
       else s.origin x
     nxt := fun x =>
       if x = d then 2 * u2
       else if x = 2 * u2 then (if dn = rev d then 2 * u2 + 1 else dn)
       else if x = 2 * u2 + 1 then rev d
       else if x = rp then 2 * u2 + 1
       else s.nxt x
     prv := fun x =>
       if x = 2 * u2 then d
       else if x = rev d then 2 * u2 + 1
       else if x = 2 * u2 + 1 then (if rp = d then 2 * u2 else rp)
       else if x = dn then 2 * u2
       else s.prv x
     face := fun x =>
       if x = 2 * u2 then s.face d
       else if x = 2 * u2 + 1 then s.face (rev d)
       else s.face x }, (d, 2 * u2), v)

/-- Modelled from the spec: `create_new_face_adjacent_to_edge` — insert
the new vertex on the outer side of the hull edge `d : a → b`, spanning a
new inner face (a, b, v) with two fresh non-constraint edges {b,v} and
{v,a}; the outer cycle detours a → v → b. -/
def create_new_face_adjacent_to_edge (s : Cdt) (d : ℕ) (w : Point × ℕ) :
    Cdt × ℕ :=
  let v := s.numVertices
  let u1 := s.nextEdge
  let u2 := s.nextEdge + 1
  let f := s.nextFace
  let d0 := s.prv d
  let d1 := s.nxt d
  ({ s with
     vdata := fun x => if x = v then w else s.vdata x
     numVertices := v + 1
     edges := s.edges ++ [u1, u2]
     nextEdge := s.nextEdge + 2
     bit := fun x => if x = u1 ∨ x = u2 then false else s.bit x
     origin := fun x =>
       if x = 2 * u1 then s.toVertex d
       else if x = 2 * u1 + 1 then v
       else if x = 2 * u2 then v
       else if x = 2 * u2 + 1 then s.origin d
       else s.origin x
     nxt := fun x =>
       if x = d then 2 * u1
       else if x = 2 * u1 then 2 * u2
       else if x = 2 * u2 then d
       else if x = d0 then 2 * u2 + 1
       else if x = 2 * u2 + 1 then 2 * u1 + 1
       else if x = 2 * u1 + 1 then d1
       else s.nxt x
     prv := fun x =>
       if x = 2 * u1 then d
       else if x = 2 * u2 then 2 * u1
       else if x = d then 2 * u2
       else if x = 2 * u2 + 1 then d0
       else if x = 2 * u1 + 1 then 2 * u2 + 1
       else if x = d1 then 2 * u1 + 1
       else s.prv x
     face := fun x =>
       if x = d ∨ x = 2 * u1 ∨ x = 2 * u2 then f
       else if x = 2 * u1 + 1 ∨ x = 2 * u2 + 1 then 0
       else s.face x
     numFaces := s.numFaces + 1
     nextFace := s.nextFace + 1 }, v)

/-- Modelled from the spec: `create_single_face_between_edge_and_next` —
close the two consecutive outer edges `e : a → b` and `nxt e : b → c` into
a new inner face with one fresh edge {c,a}; returns the new outer directed
edge a → c. -/
def create_single_face_between_edge_and_next (s : Cdt) (e : ℕ) : Cdt × ℕ :=
  let e2 := s.nxt e
  let u := s.nextEdge
  let f := s.nextFace
  let d0 := s.prv e
  let d1 := s.nxt e2
  ({ s with
     edges := s.edges ++ [u]
     nextEdge := u + 1
     bit := fun x => if x = u then false else s.bit x
     origin := fun x =>
       if x = 2 * u then s.toVertex e2
       else if x = 2 * u + 1 then s.origin e
       else s.origin x
     nxt := fun x =>
       if x = e2 then 2 * u
       else if x = 2 * u then e
       else if x = d0 then 2 * u + 1
       else if x = 2 * u + 1 then d1
       else s.nxt x
     prv := fun x =>
       if x = 2 * u then e2
       else if x = e then 2 * u
       else if x = 2 * u + 1 then d0
       else if x = d1 then 2 * u + 1
       else s.prv x
     face := fun x =>
       if x = e ∨ x = e2 ∨ x = 2 * u then f
       else if x = 2 * u + 1 then 0
       else s.face x
     numFaces := s.numFaces + 1
     nextFace := s.nextFace + 1 }, 2 * u + 1)

/-- Embeds the counterclockwise hull-repair walk of
`insert_outside_of_convex_hull` (triangulation_ext.rs): step to the
previous hull edge; while the new position sees it, span a face over it
and its successor, legalize it, and continue from the fresh hull edge. -/
def hullWalkCcw (fuel : ℕ) (s : Cdt) (p : Point) (current : ℕ) :
    Option Cdt :=
  match fuel with
  | 0 => none
  | fuel + 1 =>
    let prevE := s.prv current
    if 0 < s.edgeSide prevE p then
      let r := create_single_face_between_edge_and_next s prevE
      match legalize_edge fuel r.1 prevE false with
      | none => none
      | some (s2, _) => hullWalkCcw fuel s2 p r.2
    else some s

/-- Embeds the clockwise hull-repair walk of
`insert_outside_of_convex_hull` (triangulation_ext.rs). -/
def hullWalkCw (fuel : ℕ) (s : Cdt) (p : Point) (current : ℕ) :
    Option Cdt :=
  match fuel with
  | 0 => none
  | fuel + 1 =>
    let nextE := s.nxt current
    if 0 < s.edgeSide nextE p then
      let r := create_single_face_between_edge_and_next s current
      match legalize_edge fuel r.1 nextE false with
      | none => none
      | some (s2, _) => hullWalkCw fuel s2 p r.2
    else some s

/-- Embeds `insert_outside_of_convex_hull` (triangulation_ext.rs): span a
face over the visible hull edge, then repair the hull in both rotation
directions; `none` embeds the entry assertion (the position must see the
edge) and fuel exhaustion. -/
def insert_outside_of_convex_hull (fuel : ℕ) (s : Cdt) (d : ℕ)
    (w : Point × ℕ) : Option (Cdt × ℕ) :=
  if 0 < s.edgeSide d w.1 then
    let r := create_new_face_adjacent_to_edge s d w
    let ccwStart := rev (r.1.prv d)
    let cwStart := rev (r.1.nxt d)
    match legalize_edge fuel r.1 d false with
    | none => none
    | some (s1, _) =>
      match hullWalkCcw fuel s1 w.1 ccwStart with
      | none => none
      | some s2 =>
        match hullWalkCw fuel s2 w.1 cwStart with
        | none => none
        | some s3 => some (s3, r.2)
  else none

/-- Modelled from the spec: `insert_into_triangle` — connect the new
vertex to the three corners of the inner face `f`, reusing `f` for one of
the three sub-triangles and allocating two fresh faces and three fresh
non-constraint spoke edges. -/
def insert_into_triangle (s : Cdt) (f : ℕ) (w : Point × ℕ) : Cdt × ℕ :=
  match (s.edges.bind (fun u => [2 * u, 2 * u + 1])).find?
      (fun d => decide (s.face d = f)) with
  | none => (s, 0)
  | some d1 =>
    let d2 := s.nxt d1
    let d3 := s.nxt d2
    let v := s.numVertices
    let u1 := s.nextEdge
    let u2 := s.nextEdge + 1
    let u3 := s.nextEdge + 2
    let f2 := s.nextFace
    let f3 := s.nextFace + 1
    ({ s with
       vdata := fun x => if x = v then w else s.vdata x
       numVertices := v + 1
       edges := s.edges ++ [u1, u2, u3]
       nextEdge := s.nextEdge + 3
       bit := fun x => if x = u1 ∨ x = u2 ∨ x = u3 then false else s.bit x
       origin := fun x =>
         if x = 2 * u1 then s.origin d1
         else if x = 2 * u1 + 1 then v
         else if x = 2 * u2 then s.origin d2
         else if x = 2 * u2 + 1 then v
         else if x = 2 * u3 then s.origin d3
         else if x = 2 * u3 + 1 then v
         else s.origin x
       nxt := fun x =>
         if x = d1 then 2 * u2
         else if x = 2 * u2 then 2 * u1 + 1
         else if x = 2 * u1 + 1 then d1
         else if x = d2 then 2 * u3
         else if x = 2 * u3 then 2 * u2 + 1
         else if x = 2 * u2 + 1 then d2
         else if x = d3 then 2 * u1
         else if x = 2 * u1 then 2 * u3 + 1
         else if x = 2 * u3 + 1 then d3
         else s.nxt x
       prv := fun x =>
         if x = 2 * u2 then d1
         else if x = 2 * u1 + 1 then 2 * u2
         else if x = d1 then 2 * u1 + 1
         else if x = 2 * u3 then d2
         else if x = 2 * u2 + 1 then 2 * u3
         else if x = d2 then 2 * u2 + 1
         else if x = 2 * u1 then d3
         else if x = 2 * u3 + 1 then 2 * u1
         else if x = d3 then 2 * u3 + 1
         else s.prv x
       face := fun x =>
         if x = d1 ∨ x = 2 * u2 ∨ x = 2 * u1 + 1 then f
         else if x = d2 ∨ x = 2 * u3 ∨ x = 2 * u2 + 1 then f2
         else if x = d3 ∨ x = 2 * u1 ∨ x = 2 * u3 + 1 then f3
         else s.face x
       numFaces := s.numFaces + 2
       nextFace := s.nextFace + 2 }, v)

/-- Embeds `insert_into_face` (triangulation_ext.rs): insert into the
triangle, then legalize around the new vertex. -/
def insert_into_face (fuel : ℕ) (s : Cdt) (f : ℕ) (w : Point × ℕ) :
    Option (Cdt × ℕ) :=
  let r := insert_into_triangle s f w
  match legalize_vertex fuel r.1 r.2 with
  | none => none
  | some s2 => some (s2, r.2)

/-- Embeds `insert_when_all_vertices_on_line` (triangulation_ext.rs).
Note that the `OnVertex` arm returns `Updated` without writing the new
data: the degenerate path drops the new payload. -/
def insert_when_all_vertices_on_line (fuel : ℕ) (s : Cdt)
    (loc : PositionWhenAllVerticesOnLine) (w : Point × ℕ) :
    Option (Cdt × InsertionResult) :=
  match loc with
  | PositionWhenAllVerticesOnLine.onEdge d =>
    let isC := s.is_defined_legal (asUndirected d)
    let r := split_edge_when_all_vertices_on_line s d w
    let s2 := if isC then handle_legal_edge_split r.1 r.2.1.1 r.2.1.2
      else r.1
    some (s2, InsertionResult.newlyInserted r.2.2)
  | PositionWhenAllVerticesOnLine.onVertex v =>
    some (s, InsertionResult.updated v)
  | PositionWhenAllVerticesOnLine.notOnLine d =>
    match insert_outside_of_convex_hull fuel s d w with
    | none => none
    | some r => some (r.1, InsertionResult.newlyInserted r.2)
  | PositionWhenAllVerticesOnLine.extendingLine e =>
    let r := extend_line s e w
    some (r.1, InsertionResult.newlyInserted r.2)

/-- Embeds `insert_with_hint_option_impl` (triangulation_ext.rs): the
vertex-count bootstrap, the all-on-line dispatch, and the located general
cases; the hint is the walk start (`locate_with_hint_option_core` with an
explicit hint).  `none` embeds panics and fuel exhaustion. -/
def insert_with_hint (fuel : ℕ) (s : Cdt) (w : Point × ℕ) (hint : ℕ) :
    Option (Cdt × InsertionResult) :=
  match s.numVertices with
  | 0 =>
    let r := insert_first_vertex s w
    some (r.1, InsertionResult.newlyInserted r.2)
  | 1 => some (insert_second_vertex s w)
  | _ + 2 =>
    if all_vertices_on_line s then
      match locate_when_all_vertices_on_line s w.1 with
      | none => none
      | some loc => insert_when_all_vertices_on_line fuel s loc w
    else
      match locate_with_hint_fixed_core s w.1 hint with
      | none => none
      | some (PositionInTriangulation.outsideOfConvexHull d) =>
        match insert_outside_of_convex_hull fuel s d w with
        | none => none
        | some r => some (r.1, InsertionResult.newlyInserted r.2)
      | some (PositionInTriangulation.onFace f) =>
        match insert_into_face fuel s f w with
        | none => none
        | some r => some (r.1, InsertionResult.newlyInserted r.2)
      | some (PositionInTriangulation.onEdge d) =>
        let r := insert_on_edge s d w
        let s2 := if r.1.is_defined_legal (asUndirected d) then
            handle_legal_edge_split r.1 r.2.2.1 r.2.2.2
          else r.1
        match legalize_vertex fuel s2 r.2.1 with
        | none => none
        | some s3 => some (s3, InsertionResult.newlyInserted r.2.1)
      | some (PositionInTriangulation.onVertex v) =>
        some (s.update_vertex v w, InsertionResult.updated v)
      | some PositionInTriangulation.noTriangulation => none

/-- Insert a list of vertices one by one, always with hint 0 (the hint
only seeds the walk and does not affect which case is taken). -/
def insertAll (fuel : ℕ) : Cdt → List (Point × ℕ) → Option Cdt
  | s, [] => some s
  | s, w :: rest =>
    match insert_with_hint fuel s w 0 with
    | none => none
    | some (s2, _) => insertAll fuel s2 rest

/-! ## The degenerate chain invariant: all-collinear insertion -/

theorem pointLt_trans {p q r : Point} (h1 : pointLt p q = true)
    (h2 : pointLt q r = true) : pointLt p r = true := by
  simp only [pointLt, decide_eq_true_eq] at h1 h2 ⊢
  rcases h1 with h1 | ⟨h1a, h1b⟩ <;> rcases h2 with h2 | ⟨h2a, h2b⟩
  · exact Or.inl (h1.trans h2)
  · exact Or.inl (by rw [← h2a]; exact h1)
  · exact Or.inl (by rw [h1a]; exact h2)
  · exact Or.inr ⟨h1a.trans h2a, h1b.trans h2b⟩

theorem pointLt_irrefl (p : Point) : pointLt p p = false := by
  simp [pointLt]

theorem pointLt_ne {p q : Point} (h : pointLt p q = true) : p ≠ q := by
  intro he
  rw [he, pointLt_irrefl] at h
  exact Bool.false_ne_true h

theorem pointLt_total {p q : Point} (h : p ≠ q) :
    pointLt p q = true ∨ pointLt q p = true := by
  simp only [pointLt, decide_eq_true_eq]
  rcases lt_trichotomy p.1 q.1 with h1 | h1 | h1
  · exact Or.inl (Or.inl h1)
  · rcases lt_trichotomy p.2 q.2 with h2 | h2 | h2
    · exact Or.inl (Or.inr ⟨h1, h2⟩)
    · exact absurd (Prod.ext h1 h2) h
    · exact Or.inr (Or.inr ⟨h1.symm, h2⟩)
  · exact Or.inr (Or.inl h1)

theorem pointLe_of_lt {p q : Point} (h : pointLt p q = true) :
    pointLe p q = true := by
  simp only [pointLt, pointLe, decide_eq_true_eq] at h ⊢
  rcases h with h | ⟨h1, h2⟩
  · exact Or.inl h
  · exact Or.inr ⟨h1, le_of_lt h2⟩

theorem pointLe_trans (p q r : Point) (h1 : pointLe p q = true)
    (h2 : pointLe q r = true) : pointLe p r = true := by
  simp only [pointLe, decide_eq_true_eq] at h1 h2 ⊢
  rcases h1 with h1 | ⟨h1a, h1b⟩ <;> rcases h2 with h2 | ⟨h2a, h2b⟩
  · exact Or.inl (h1.trans h2)
  · exact Or.inl (by rw [← h2a]; exact h1)
  · exact Or.inl (by rw [h1a]; exact h2)
  · exact Or.inr ⟨h1a.trans h2a, h1b.trans h2b⟩

theorem pointLe_total (p q : Point) : (pointLe p q || pointLe q p) = true := by
  simp only [pointLe, Bool.or_eq_true, decide_eq_true_eq]
  rcases lt_trichotomy p.1 q.1 with h | h | h
  · exact Or.inl (Or.inl h)
  · rcases le_total p.2 q.2 with h2 | h2
    · exact Or.inl (Or.inr ⟨h, h2⟩)
    · exact Or.inr (Or.inr ⟨h.symm, h2⟩)
  · exact Or.inr (Or.inl h)

theorem pointLe_antisymm {p q : Point} (h1 : pointLe p q = true)
    (h2 : pointLe q p = true) : p = q := by
  simp only [pointLe, decide_eq_true_eq] at h1 h2
  rcases h1 with h1 | ⟨h1a, h1b⟩ <;> rcases h2 with h2 | ⟨h2a, h2b⟩
  · exact absurd (h1.trans h2) (lt_irrefl _)
  · exact absurd (by rw [h2a] at h1; exact h1) (lt_irrefl p.1)
  · exact absurd (by rw [h1a] at h2; exact h2) (lt_irrefl q.1)
  · exact Prod.ext h1a (le_antisymm h1b h2b)

/-- Two sorted lists that are permutations of each other coincide, with
antisymmetry required only on the members. -/
theorem pairwise_perm_eq {α : Type _} (le : α → α → Bool) :
    ∀ (l1 l2 : List α), l1.Perm l2 →
      (∀ a ∈ l1, ∀ b ∈ l1, le a b = true → le b a = true → a = b) →
      l1.Pairwise (fun a b => le a b = true) →
      l2.Pairwise (fun a b => le a b = true) → l1 = l2 := by
  intro l1
  induction l1 with
  | nil =>
    intro l2 hp _ _ _
    exact (List.nil_perm.mp hp).symm
  | cons a t ih =>
    intro l2 hp hanti hs1 hs2
    cases l2 with
    | nil => exact absurd hp.symm (by simp)
    | cons b t2 =>
      rcases List.pairwise_cons.mp hs1 with ⟨ha1, ht1⟩
      rcases List.pairwise_cons.mp hs2 with ⟨hb2, ht2⟩
      by_cases hab : a = b
      · subst hab
        have hp2 : t.Perm t2 := hp.cons_inv
        have : t = t2 := ih t2 hp2
          (fun x hx y hy => hanti x (List.mem_cons_of_mem a hx)
            y (List.mem_cons_of_mem a hy)) ht1 ht2
        rw [this]
      · have hbmem : b ∈ a :: t := hp.symm.subset (List.mem_cons_self b t2)
        have hbt : b ∈ t := by
          rcases List.mem_cons.mp hbmem with h | h
          · exact absurd h.symm hab
          · exact h
        have hamem : a ∈ b :: t2 := hp.subset (List.mem_cons_self a t)
        have hat2 : a ∈ t2 := by
          rcases List.mem_cons.mp hamem with h | h
          · exact absurd h hab
          · exact h
        exact absurd
          (hanti a (List.mem_cons_self a t) b hbmem (ha1 b hbt)
            ((hb2 a hat2)))
          hab

/-- In a sorted list, a downward-closed filter keeps exactly a prefix. -/
theorem filter_eq_take_of_sorted {α : Type _} (P : α → Bool)
    (lt : α → α → Prop) (hdc : ∀ a b, lt a b → P b = true → P a = true) :
    ∀ (l : List α), l.Pairwise lt →
      l.filter P = l.take (l.filter P).length := by
  intro l
  induction l with
  | nil => simp
  | cons x t ih =>
    intro hp
    rcases List.pairwise_cons.mp hp with ⟨hx, ht⟩
    by_cases hPx : P x = true
    · rw [List.filter_cons_of_pos hPx, List.length_cons, List.take_succ_cons,
        ← ih ht]
    · have hft : t.filter P = [] := by
        apply List.filter_eq_nil_iff.mpr
        intro y hy hPy
        exact hPx (hdc x y (hx y hy) hPy)
      rw [List.filter_cons_of_neg (by simp [hPx]), hft]
      simp

theorem rev_two_mul (u : ℕ) : rev (2 * u) = 2 * u + 1 := by
  simp [rev, Nat.mul_mod_right]

theorem rev_two_mul_add_one (u : ℕ) : rev (2 * u + 1) = 2 * u := by
  have h : (2 * u + 1) % 2 = 1 := by omega
  simp [rev, h]

/-- The undirected edge `u` connects exactly `a` and `b` (in either
direction). -/
def pairMatch (s : Cdt) (u a b : ℕ) : Prop :=
  (s.origin (2 * u) = a ∧ s.origin (2 * u + 1) = b) ∨
    (s.origin (2 * u) = b ∧ s.origin (2 * u + 1) = a)

theorem pairMatch_symm {s : Cdt} {u a b : ℕ} (h : pairMatch s u a b) :
    pairMatch s u b a := h.symm

/-- `get_edge_from_neighbors` succeeds whenever some arena edge connects
the two vertices, and the returned handle is directed from the first to
the second. -/
theorem get_edge_from_neighbors_spec (s : Cdt) (a b : ℕ) :
    ∀ (l : List ℕ), (∃ u ∈ l, pairMatch s u a b) →
      ∃ d, (l.foldr
        (fun u acc =>
          if s.origin (2 * u) = a ∧ s.origin (2 * u + 1) = b then some (2 * u)
          else if s.origin (2 * u) = b ∧ s.origin (2 * u + 1) = a then
            some (2 * u + 1)
          else acc)
        none) = some d ∧
        s.origin d = a ∧ s.origin (rev d) = b ∧ d / 2 ∈ l := by
  intro l
  induction l with
  | nil => rintro ⟨u, hu, _⟩; cases hu
  | cons x t ih =>
    rintro ⟨u, hu, hm⟩
    rw [List.foldr_cons]
    by_cases h1 : s.origin (2 * x) = a ∧ s.origin (2 * x + 1) = b
    · refine ⟨2 * x, by rw [if_pos h1], h1.1, ?_, ?_⟩
      · rw [rev_two_mul]; exact h1.2
      · simp [Nat.mul_div_cancel_left]
    · by_cases h2 : s.origin (2 * x) = b ∧ s.origin (2 * x + 1) = a
      · refine ⟨2 * x + 1, by rw [if_neg h1, if_pos h2], h2.2, ?_, ?_⟩
        · rw [rev_two_mul_add_one]; exact h2.1
        · have : (2 * x + 1) / 2 = x := by omega
          simp [this]
      · have hut : u ∈ t := by
          rcases List.mem_cons.mp hu with h | h
          · subst h
            rcases hm with hm | hm
            · exact absurd hm h1
            · exact absurd hm h2
          · exact h
        rcases ih ⟨u, hut, hm⟩ with ⟨d, hd, hda, hdb, hdm⟩
        exact ⟨d, by rw [if_neg h1, if_neg h2]; exact hd, hda, hdb,
          List.mem_cons_of_mem x hdm⟩

/-- The invariant of the degenerate all-on-line state: `vs` lists the
vertex handles in strictly increasing position order, the arena edges are
exactly the consecutive chain links, every directed edge lies on the single
(outer) face, and edge handles are fresh below `nextEdge`. -/
structure ChainInv (s : Cdt) (vs : List ℕ) : Prop where
  perm : vs.Perm (List.range s.numVertices)
  sorted : vs.Pairwise (fun a b => pointLt (s.pos a) (s.pos b) = true)
  count : s.edges.length + 1 = s.numVertices
  faces : s.numFaces = 1
  face0 : ∀ d, s.face d = 0
  nodupE : s.edges.Nodup
  bound : ∀ u ∈ s.edges, u < s.nextEdge
  ends : ∀ u ∈ s.edges, ∃ i a b, vs[i]? = some a ∧ vs[i + 1]? = some b ∧
    pairMatch s u a b
  conn : ∀ i a b, vs[i]? = some a → vs[i + 1]? = some b →
    ∃ u ∈ s.edges, pairMatch s u a b
  inj : ∀ u ∈ s.edges, ∀ u2 ∈ s.edges, ∀ a b, pairMatch s u a b →
    pairMatch s u2 a b → u = u2

theorem ChainInv.len {s : Cdt} {vs : List ℕ} (inv : ChainInv s vs) :
    vs.length = s.numVertices :=
  inv.perm.length_eq.trans (List.length_range _)

theorem ChainInv.memLt {s : Cdt} {vs : List ℕ} (inv : ChainInv s vs)
    {v : ℕ} (hv : v ∈ vs) : v < s.numVertices :=
  List.mem_range.mp (inv.perm.subset hv)

theorem ChainInv.nodupV {s : Cdt} {vs : List ℕ} (inv : ChainInv s vs) :
    vs.Nodup :=
  (inv.perm.nodup_iff).mpr (List.nodup_range _)

theorem ChainInv.endMem {s : Cdt} {vs : List ℕ} (inv : ChainInv s vs)
    {u : ℕ} (hu : u ∈ s.edges) :
    s.origin (2 * u) ∈ vs ∧ s.origin (2 * u + 1) ∈ vs := by
  rcases inv.ends u hu with ⟨i, a, b, ha, hb, hm⟩
  have hav : a ∈ vs := List.getElem?_mem ha
  have hbv : b ∈ vs := List.getElem?_mem hb
  rcases hm with ⟨h1, h2⟩ | ⟨h1, h2⟩
  · exact ⟨h1.symm ▸ hav, h2.symm ▸ hbv⟩
  · exact ⟨h1.symm ▸ hbv, h2.symm ▸ hav⟩

theorem pairMatch_congr {s s2 : Cdt} {u a b : ℕ}
    (h1 : s2.origin (2 * u) = s.origin (2 * u))
    (h2 : s2.origin (2 * u + 1) = s.origin (2 * u + 1))
    (h : pairMatch s u a b) : pairMatch s2 u a b := by
  unfold pairMatch at h ⊢
  rw [h1, h2]
  exact h

theorem extend_line_fst_edges (s : Cdt) (e : ℕ) (w : Point × ℕ) :
    (extend_line s e w).1.edges = s.edges ++ [s.nextEdge] := rfl

theorem extend_line_fst_numVertices (s : Cdt) (e : ℕ) (w : Point × ℕ) :
    (extend_line s e w).1.numVertices = s.numVertices + 1 := rfl

theorem extend_line_fst_numFaces (s : Cdt) (e : ℕ) (w : Point × ℕ) :
    (extend_line s e w).1.numFaces = s.numFaces := rfl

theorem extend_line_fst_nextEdge (s : Cdt) (e : ℕ) (w : Point × ℕ) :
    (extend_line s e w).1.nextEdge = s.nextEdge + 1 := rfl

theorem extend_line_fst_face (s : Cdt) (e : ℕ) (w : Point × ℕ) (d : ℕ) :
    (extend_line s e w).1.face d =
      if d = 2 * s.nextEdge ∨ d = 2 * s.nextEdge + 1 then 0
      else s.face d := rfl

theorem extend_line_fst_origin (s : Cdt) (e : ℕ) (w : Point × ℕ) (d : ℕ) :
    (extend_line s e w).1.origin d =
      if d = 2 * s.nextEdge then e
      else if d = 2 * s.nextEdge + 1 then s.numVertices
      else s.origin d := rfl

theorem extend_line_fst_pos (s : Cdt) (e : ℕ) (w : Point × ℕ) (x : ℕ) :
    (extend_line s e w).1.pos x =
      if x = s.numVertices then w.1 else s.pos x := by
  by_cases hx : x = s.numVertices <;> simp [Cdt.pos, extend_line, hx]

theorem extend_line_snd (s : Cdt) (e : ℕ) (w : Point × ℕ) :
    (extend_line s e w).2 = s.numVertices := rfl

/-- Appending a vertex in front of the chain (the new position is smaller
than every stored one) preserves the chain invariant. -/
theorem extend_front_inv (s : Cdt) (vs : List ℕ) (w : Point × ℕ)
    (inv : ChainInv s vs) (v0 : ℕ) (hhead : vs.head? = some v0)
    (hlt : ∀ x ∈ vs, pointLt w.1 (s.pos x) = true) :
    ChainInv (extend_line s v0 w).1 (s.numVertices :: vs) ∧
      ((s.numVertices :: vs).map (extend_line s v0 w).1.pos) =
        w.1 :: vs.map s.pos := by
  set n := s.numVertices with hn
  set u := s.nextEdge with hu
  set s2 := (extend_line s v0 w).1 with hs2
  have hposN : s2.pos n = w.1 := by
    rw [hs2, extend_line_fst_pos]; exact if_pos rfl
  have hposOld : ∀ x ∈ vs, s2.pos x = s.pos x := by
    intro x hx
    rw [hs2, extend_line_fst_pos]
    exact if_neg (Nat.ne_of_lt (inv.memLt hx))
  have hnotin : n ∉ vs := fun h => lt_irrefl n (inv.memLt h)
  have horigOld : ∀ x ∈ s.edges, s2.origin (2 * x) = s.origin (2 * x) ∧
      s2.origin (2 * x + 1) = s.origin (2 * x + 1) := by
    intro x hx
    have hxu : x < u := inv.bound x hx
    rw [hs2, extend_line_fst_origin, extend_line_fst_origin]
    constructor
    · rw [if_neg (by omega), if_neg (by omega)]
    · rw [if_neg (by omega), if_neg (by omega)]
  have horigA : s2.origin (2 * u) = v0 := by
    rw [hs2, extend_line_fst_origin]; exact if_pos rfl
  have horigB : s2.origin (2 * u + 1) = n := by
    rw [hs2, extend_line_fst_origin, if_neg (by omega), if_pos rfl]
  have hmatchOld : ∀ x ∈ s.edges, ∀ a b, pairMatch s x a b ↔
      pairMatch s2 x a b := by
    intro x hx a b
    constructor
    · exact pairMatch_congr (horigOld x hx).1 (horigOld x hx).2
    · exact pairMatch_congr (horigOld x hx).1.symm (horigOld x hx).2.symm
  have h0 : vs[0]? = some v0 := by
    cases vs with
    | nil => simp at hhead
    | cons a t => simpa using hhead
  have hnewMatch : pairMatch s2 u n v0 := Or.inr ⟨horigA, horigB⟩
  have hEd : s2.edges = s.edges ++ [u] := by
    rw [hs2, extend_line_fst_edges]
  refine ⟨⟨?_, ?_, ?_, ?_, ?_, ?_, ?_, ?_, ?_, ?_⟩, ?_⟩
  · -- perm
    rw [hs2, extend_line_fst_numVertices, ← hn, List.range_succ]
    exact (inv.perm.cons n).trans (List.perm_append_singleton n _).symm
  · -- sorted
    refine List.pairwise_cons.mpr ⟨?_, ?_⟩
    · intro x hx
      rw [hposN, hposOld x hx]
      exact hlt x hx
    · refine List.Pairwise.imp_of_mem ?_ inv.sorted
      intro a b ha hb hab
      rw [hposOld a ha, hposOld b hb]
      exact hab
  · -- count
    rw [hEd, hs2, extend_line_fst_numVertices, List.length_append]
    simpa using inv.count
  · rw [hs2, extend_line_fst_numFaces]; exact inv.faces
  · intro d
    rw [hs2, extend_line_fst_face]
    by_cases hd : d = 2 * u ∨ d = 2 * u + 1
    · rw [if_pos hd]
    · rw [if_neg hd]; exact inv.face0 d
  · -- nodup
    rw [hEd]
    refine List.Nodup.append inv.nodupE (List.nodup_singleton u) ?_
    intro x hx hx2
    rw [List.mem_singleton] at hx2
    rw [hx2] at hx
    exact lt_irrefl u (inv.bound u hx)
  · -- bound
    intro x hx
    rw [hEd] at hx
    rw [hs2, extend_line_fst_nextEdge]
    rcases List.mem_append.mp hx with h | h
    · exact Nat.lt_succ_of_lt (inv.bound x h)
    · rw [List.mem_singleton] at h; omega
  · -- ends
    intro x hx
    rw [hEd] at hx
    rcases List.mem_append.mp hx with h | h
    · rcases inv.ends x h with ⟨i, a, b, ha, hb, hm⟩
      exact ⟨i + 1, a, b, by simpa using ha, by simpa using hb,
        ((hmatchOld x h a b).mp hm)⟩
    · rw [List.mem_singleton] at h
      subst h
      exact ⟨0, n, v0, by simp, by simpa using h0, hnewMatch⟩
  · -- conn
    intro i a b ha hb
    cases i with
    | zero =>
      have haa : n = a := by simpa using ha
      have hbb : b = v0 := by
        have h1v : (n :: vs)[1]? = vs[0]? := by simp
        rw [h1v, h0] at hb
        exact (Option.some_inj.mp hb).symm
      subst haa; subst hbb
      exact ⟨u, by rw [hEd]; simp, hnewMatch⟩
    | succ j =>
      have ha2 : vs[j]? = some a := by simpa using ha
      have hb2 : vs[j + 1]? = some b := by simpa using hb
      rcases inv.conn j a b ha2 hb2 with ⟨x, hx, hm⟩
      exact ⟨x, by rw [hEd]; exact List.mem_append_left _ hx,
        (hmatchOld x hx a b).mp hm⟩
  · -- inj
    intro x hx y hy a b hmx hmy
    rw [hEd] at hx hy
    have hnotOld : ∀ z ∈ s.edges, ¬ pairMatch s2 z a b ∨ ¬ (a = n ∨ b = n) := by
      intro z hz
      by_cases hpm : pairMatch s2 z a b
      · right
        intro hab
        have hz2 := (hmatchOld z hz a b).mpr hpm
        have hzm := inv.endMem hz
        rcases hz2 with ⟨h1, h2⟩ | ⟨h1, h2⟩ <;> rcases hab with hab | hab
        · exact hnotin (hab ▸ h1 ▸ hzm.1)
        · exact hnotin (hab ▸ h2 ▸ hzm.2)
        · exact hnotin (hab ▸ h2 ▸ hzm.2)
        · exact hnotin (hab ▸ h1 ▸ hzm.1)
      · left; exact hpm
    rcases List.mem_append.mp hx with hxo | hxu
    · rcases List.mem_append.mp hy with hyo | hyu
      · exact inv.inj x hxo y hyo a b ((hmatchOld x hxo a b).mpr hmx)
          ((hmatchOld y hyo a b).mpr hmy)
      · rw [List.mem_singleton] at hyu
        subst hyu
        have hab : a = n ∨ b = n := by
          rcases hmy with ⟨h1, h2⟩ | ⟨h1, h2⟩
          · right; rw [← h2, horigB]
          · left; rw [← h2, horigB]
        rcases hnotOld x hxo with h | h
        · exact absurd hmx h
        · exact absurd hab h
    · rw [List.mem_singleton] at hxu
      subst hxu
      rcases List.mem_append.mp hy with hyo | hyu
      · have hab : a = n ∨ b = n := by
          rcases hmx with ⟨h1, h2⟩ | ⟨h1, h2⟩
          · right; rw [← h2, horigB]
          · left; rw [← h2, horigB]
        rcases hnotOld y hyo with h | h
        · exact absurd hmy h
        · exact absurd hab h
      · rw [List.mem_singleton] at hyu
        rw [hyu]
  · -- positions
    rw [List.map_cons, hposN]
    congr 1
    exact List.map_congr_left hposOld

theorem split_line_fst_edges (s : Cdt) (d : ℕ) (w : Point × ℕ) :
    (split_edge_when_all_vertices_on_line s d w).1.edges =
      s.edges ++ [s.nextEdge] := rfl

theorem split_line_fst_numVertices (s : Cdt) (d : ℕ) (w : Point × ℕ) :
    (split_edge_when_all_vertices_on_line s d w).1.numVertices =
      s.numVertices + 1 := rfl

theorem split_line_fst_numFaces (s : Cdt) (d : ℕ) (w : Point × ℕ) :
    (split_edge_when_all_vertices_on_line s d w).1.numFaces =
      s.numFaces := rfl

theorem split_line_fst_nextEdge (s : Cdt) (d : ℕ) (w : Point × ℕ) :
    (split_edge_when_all_vertices_on_line s d w).1.nextEdge =
      s.nextEdge + 1 := rfl

theorem split_line_fst_face (s : Cdt) (d : ℕ) (w : Point × ℕ) (x : ℕ) :
    (split_edge_when_all_vertices_on_line s d w).1.face x =
      if x = 2 * s.nextEdge then s.face d
      else if x = 2 * s.nextEdge + 1 then s.face (rev d)
      else s.face x := rfl

theorem split_line_fst_origin (s : Cdt) (d : ℕ) (w : Point × ℕ) (x : ℕ) :
    (split_edge_when_all_vertices_on_line s d w).1.origin x =
      if x = rev d then s.numVertices
      else if x = 2 * s.nextEdge then s.numVertices
      else if x = 2 * s.nextEdge + 1 then s.toVertex d
      else s.origin x := rfl

theorem split_line_fst_pos (s : Cdt) (d : ℕ) (w : Point × ℕ) (x : ℕ) :
    (split_edge_when_all_vertices_on_line s d w).1.pos x =
      if x = s.numVertices then w.1 else s.pos x := by
  by_cases hx : x = s.numVertices <;>
    simp [Cdt.pos, split_edge_when_all_vertices_on_line, hx]

theorem split_line_snd (s : Cdt) (d : ℕ) (w : Point × ℕ) :
    (split_edge_when_all_vertices_on_line s d w).2 =
      ((d, 2 * s.nextEdge), s.numVertices) := rfl

/-- Splitting the chain edge between the two sorted neighbours of the new
position preserves the chain invariant. -/
theorem split_middle_inv (s : Cdt) (vs : List ℕ) (w : Point × ℕ)
    (inv : ChainInv s vs) (idx : ℕ) (hpos0 : 0 < idx)
    (hposlen : idx < vs.length) (v1 v2 : ℕ)
    (hv1 : vs[idx]? = some v1) (hv2 : vs[idx - 1]? = some v2)
    (d : ℕ) (hdu : d / 2 ∈ s.edges)
    (hod : s.origin d = v1) (hord : s.origin (rev d) = v2)
    (htake : ∀ x ∈ vs.take idx, pointLt (s.pos x) w.1 = true)
    (hdrop : ∀ y ∈ vs.drop idx, pointLt w.1 (s.pos y) = true) :
    ChainInv (split_edge_when_all_vertices_on_line s d w).1
        (vs.take idx ++ s.numVertices :: vs.drop idx) ∧
      ((vs.take idx ++ s.numVertices :: vs.drop idx).map
          (split_edge_when_all_vertices_on_line s d w).1.pos).Perm
        (w.1 :: vs.map s.pos) := by
  set n := s.numVertices with hn
  set u2 := s.nextEdge with hu2
  set ud := d / 2 with hud
  set s2 := (split_edge_when_all_vertices_on_line s d w).1 with hs2
  set vs2 := vs.take idx ++ n :: vs.drop idx with hvs2
  have hrevd : (d = 2 * ud ∧ rev d = 2 * ud + 1) ∨
      (d = 2 * ud + 1 ∧ rev d = 2 * ud) := by
    have hd2 : d = 2 * ud ∨ d = 2 * ud + 1 := by omega
    rcases hd2 with h | h
    · exact Or.inl ⟨h, by rw [h, rev_two_mul]⟩
    · exact Or.inr ⟨h, by rw [h, rev_two_mul_add_one]⟩
  have hudlt : ud < u2 := inv.bound ud hdu
  have hposN : s2.pos n = w.1 := by
    rw [hs2, split_line_fst_pos]; exact if_pos rfl
  have hposOld : ∀ x ∈ vs, s2.pos x = s.pos x := by
    intro x hx
    rw [hs2, split_line_fst_pos]
    exact if_neg (Nat.ne_of_lt (inv.memLt hx))
  have hnotin : n ∉ vs := fun h => lt_irrefl n (inv.memLt h)
  have horigOld : ∀ x ∈ s.edges, x ≠ ud →
      s2.origin (2 * x) = s.origin (2 * x) ∧
      s2.origin (2 * x + 1) = s.origin (2 * x + 1) := by
    intro x hx hxd
    have hxu : x < u2 := inv.bound x hx
    rw [hs2, split_line_fst_origin, split_line_fst_origin]
    rcases hrevd with ⟨h1, h2⟩ | ⟨h1, h2⟩ <;>
      exact ⟨by rw [if_neg (by omega), if_neg (by omega), if_neg (by omega)],
        by rw [if_neg (by omega), if_neg (by omega), if_neg (by omega)]⟩
  have hmatchOld : ∀ x ∈ s.edges, x ≠ ud → ∀ a b, pairMatch s x a b ↔
      pairMatch s2 x a b := by
    intro x hx hxd a b
    constructor
    · exact pairMatch_congr (horigOld x hx hxd).1 (horigOld x hx hxd).2
    · exact pairMatch_congr (horigOld x hx hxd).1.symm
        (horigOld x hx hxd).2.symm
  have htv : s.toVertex d = v2 := hord
  have hrdlt : rev d < 2 * u2 := by
    rcases hrevd with ⟨_, h⟩ | ⟨_, h⟩ <;> omega
  have horigU2a : s2.origin (2 * u2) = n := by
    rw [hs2, split_line_fst_origin, if_neg (by omega), if_pos rfl]
  have horigU2b : s2.origin (2 * u2 + 1) = v2 := by
    rw [hs2, split_line_fst_origin, if_neg (by omega), if_neg (by omega),
      if_pos rfl, htv]
  have horigUd : (s2.origin (2 * ud) = v1 ∧ s2.origin (2 * ud + 1) = n) ∨
      (s2.origin (2 * ud) = n ∧ s2.origin (2 * ud + 1) = v1) := by
    rcases hrevd with ⟨h1, h2⟩ | ⟨h1, h2⟩
    · left
      constructor
      · rw [hs2, split_line_fst_origin, if_neg (by omega),
          if_neg (by omega), if_neg (by omega), ← h1, hod]
      · rw [hs2, split_line_fst_origin, ← h2, if_pos rfl]
    · right
      constructor
      · rw [hs2, split_line_fst_origin, ← h2, if_pos rfl]
      · rw [hs2, split_line_fst_origin, if_neg (by omega),
          if_neg (by omega), if_neg (by omega), ← h1, hod]
  have hmatchUd : pairMatch s2 ud v1 n := by
    rcases horigUd with ⟨h1, h2⟩ | ⟨h1, h2⟩
    · exact Or.inl ⟨h1, h2⟩
    · exact Or.inr ⟨h1, h2⟩
  have hmatchU2 : pairMatch s2 u2 v2 n := Or.inr ⟨horigU2a, horigU2b⟩
  have hv1v : v1 ∈ vs := List.getElem?_mem hv1
  have hv2v : v2 ∈ vs := List.getElem?_mem hv2
  have hv1drop : v1 ∈ vs.drop idx := by
    have h : (vs.drop idx)[0]? = some v1 := by
      rw [List.getElem?_drop]
      simpa using hv1
    exact List.getElem?_mem h
  have hv2take : v2 ∈ vs.take idx := by
    have h : (vs.take idx)[idx - 1]? = some v2 := by
      rw [List.getElem?_take_of_lt (by omega)]
      exact hv2
    exact List.getElem?_mem h
  have hv1v2 : v1 ≠ v2 := by
    intro he
    have h1 := htake v2 hv2take
    have h2 := hdrop v1 hv1drop
    rw [he] at h2
    exact absurd rfl (pointLt_ne (pointLt_trans h1 h2)).symm
  have hv1n : v1 ≠ n := Nat.ne_of_lt (inv.memLt hv1v)
  have hv2n : v2 ≠ n := Nat.ne_of_lt (inv.memLt hv2v)
  have hlentake : (vs.take idx).length = idx :=
    List.length_take_of_le (le_of_lt hposlen)
  have hEd : s2.edges = s.edges ++ [u2] := by
    rw [hs2, split_line_fst_edges]
  have hidxInj : ∀ (k1 k2 c : ℕ), vs[k1]? = some c → vs[k2]? = some c →
      k1 = k2 := by
    intro k1 k2 c h1 h2
    have hk1 : k1 < vs.length := by
      by_contra hc
      rw [List.getElem?_eq_none (by omega)] at h1
      cases h1
    exact List.getElem?_inj hk1 inv.nodupV (h1.trans h2.symm)
  have hudPairS : ∀ a b, pairMatch s ud a b →
      (a = v1 ∧ b = v2) ∨ (a = v2 ∧ b = v1) := by
    intro a b hm
    rcases hrevd with ⟨h1, h2⟩ | ⟨h1, h2⟩ <;>
      rcases hm with ⟨hm1, hm2⟩ | ⟨hm1, hm2⟩
    · exact Or.inl ⟨by rw [← hm1, ← h1, hod], by rw [← hm2, ← h2, hord]⟩
    · exact Or.inr ⟨by rw [← hm2, ← h2, hord], by rw [← hm1, ← h1, hod]⟩
    · exact Or.inr ⟨by rw [← hm1, ← h2, hord], by rw [← hm2, ← h1, hod]⟩
    · exact Or.inl ⟨by rw [← hm2, ← h1, hod], by rw [← hm1, ← h2, hord]⟩
  have hudIdx : ∀ (j2 a b : ℕ), vs[j2]? = some a → vs[j2 + 1]? = some b →
      pairMatch s ud a b → j2 + 1 = idx := by
    intro j2 a b ha hb hm
    rcases hudPairS a b hm with ⟨ha1, hb1⟩ | ⟨ha1, hb1⟩
    · rw [ha1] at ha
      rw [hb1] at hb
      have h1 := hidxInj j2 idx v1 ha hv1
      have h2 := hidxInj (j2 + 1) (idx - 1) v2 hb hv2
      omega
    · rw [hb1] at hb
      have h2 := hidxInj (j2 + 1) idx v1 hb hv1
      omega
  have hudPair2 : ∀ a b, pairMatch s2 ud a b →
      (a = v1 ∧ b = n) ∨ (a = n ∧ b = v1) := by
    intro a b hm
    rcases horigUd with ⟨h1, h2⟩ | ⟨h1, h2⟩ <;>
      rcases hm with ⟨hm1, hm2⟩ | ⟨hm1, hm2⟩
    · exact Or.inl ⟨by rw [← hm1, h1], by rw [← hm2, h2]⟩
    · exact Or.inr ⟨by rw [← hm2, h2], by rw [← hm1, h1]⟩
    · exact Or.inr ⟨by rw [← hm1, h1], by rw [← hm2, h2]⟩
    · exact Or.inl ⟨by rw [← hm2, h2], by rw [← hm1, h1]⟩
  have hu2Pair2 : ∀ a b, pairMatch s2 u2 a b →
      (a = n ∧ b = v2) ∨ (a = v2 ∧ b = n) := by
    intro a b hm
    rcases hm with ⟨hm1, hm2⟩ | ⟨hm1, hm2⟩
    · exact Or.inl ⟨by rw [← hm1, horigU2a], by rw [← hm2, horigU2b]⟩
    · exact Or.inr ⟨by rw [← hm2, horigU2b], by rw [← hm1, horigU2a]⟩
  have hOldNoN : ∀ y ∈ s.edges, y ≠ ud → ∀ a b, pairMatch s2 y a b →
      a ≠ n ∧ b ≠ n := by
    intro y hy hyd a b hm
    have hmem := inv.endMem hy
    have ho := horigOld y hy hyd
    rcases hm with ⟨hm1, hm2⟩ | ⟨hm1, hm2⟩
    · constructor
      · intro he
        rw [he] at hm1
        exact hnotin (by rw [← ho.1, hm1] at hmem; exact hmem.1)
      · intro he
        rw [he] at hm2
        exact hnotin (by rw [← ho.2, hm2] at hmem; exact hmem.2)
    · constructor
      · intro he
        rw [he] at hm2
        exact hnotin (by rw [← ho.2, hm2] at hmem; exact hmem.2)
      · intro he
        rw [he] at hm1
        exact hnotin (by rw [← ho.1, hm1] at hmem; exact hmem.1)
  -- index toolkit for vs2
  have hidx_lt : ∀ (j : ℕ), j < idx → vs2[j]? = vs[j]? := by
    intro j hj
    rw [hvs2, List.getElem?_append_left (by omega),
      List.getElem?_take_of_lt hj]
  have hidx_eq : vs2[idx]? = some n := by
    rw [hvs2, List.getElem?_append_right (by omega)]
    simp [hlentake]
  have hidx_gt : ∀ (k : ℕ), vs2[idx + 1 + k]? = vs[idx + k]? := by
    intro k
    rw [hvs2, List.getElem?_append_right (by omega), hlentake]
    have h1 : idx + 1 + k - idx = k + 1 := by omega
    rw [h1]
    simp [List.getElem?_drop]
  refine ⟨⟨?_, ?_, ?_, ?_, ?_, ?_, ?_, ?_, ?_, ?_⟩, ?_⟩
  · -- perm
    rw [hs2, split_line_fst_numVertices, ← hn, List.range_succ, hvs2]
    refine List.perm_middle.trans ?_
    rw [List.take_append_drop]
    exact (inv.perm.cons n).trans (List.perm_append_singleton n _).symm
  · -- sorted
    rw [hvs2, List.pairwise_append]
    have hsplit2 : List.Pairwise
        (fun a b => pointLt (s.pos a) (s.pos b) = true)
        (vs.take idx ++ vs.drop idx) := by
      rw [List.take_append_drop]
      exact inv.sorted
    have hsplit := List.pairwise_append.mp hsplit2
    refine ⟨?_, ?_, ?_⟩
    · refine List.Pairwise.imp_of_mem ?_ hsplit.1
      intro a b ha hb hab
      rw [hposOld a (List.take_subset _ _ ha),
        hposOld b (List.take_subset _ _ hb)]
      exact hab
    · refine List.pairwise_cons.mpr ⟨?_, ?_⟩
      · intro y hy
        rw [hposN, hposOld y (List.drop_subset _ _ hy)]
        exact hdrop y hy
      · refine List.Pairwise.imp_of_mem ?_ hsplit.2.1
        intro a b ha hb hab
        rw [hposOld a (List.drop_subset _ _ ha),
          hposOld b (List.drop_subset _ _ hb)]
        exact hab
    · intro a ha b hb
      rcases List.mem_cons.mp hb with hb | hb
      · subst hb
        rw [hposN, hposOld a (List.take_subset _ _ ha)]
        exact htake a ha
      · rw [hposOld a (List.take_subset _ _ ha),
          hposOld b (List.drop_subset _ _ hb)]
        exact hsplit.2.2 a ha b hb
  · -- count
    rw [hEd, hs2, split_line_fst_numVertices, List.length_append]
    simpa using inv.count
  · rw [hs2, split_line_fst_numFaces]; exact inv.faces
  · intro x
    rw [hs2, split_line_fst_face]
    by_cases h1 : x = 2 * u2
    · rw [if_pos h1]; exact inv.face0 d
    · rw [if_neg h1]
      by_cases h2 : x = 2 * u2 + 1
      · rw [if_pos h2]; exact inv.face0 (rev d)
      · rw [if_neg h2]; exact inv.face0 x
  · -- nodup
    rw [hEd]
    refine List.Nodup.append inv.nodupE (List.nodup_singleton u2) ?_
    intro x hx hx2
    rw [List.mem_singleton] at hx2
    rw [hx2] at hx
    exact lt_irrefl u2 (inv.bound u2 hx)
  · -- bound
    intro x hx
    rw [hEd] at hx
    rw [hs2, split_line_fst_nextEdge]
    rcases List.mem_append.mp hx with h | h
    · exact Nat.lt_succ_of_lt (inv.bound x h)
    · rw [List.mem_singleton] at h; omega
  · -- ends
    intro x hx
    rw [hEd] at hx
    rcases List.mem_append.mp hx with h | h
    · by_cases hxd : x = ud
      · subst hxd
        refine ⟨idx, n, v1, hidx_eq, ?_, pairMatch_symm hmatchUd⟩
        have h0 := hidx_gt 0
        rw [Nat.add_zero] at h0
        rw [h0]
        exact hv1
      · rcases inv.ends x h with ⟨i, a, b, ha, hb, hm⟩
        have hm2 : pairMatch s2 x a b := (hmatchOld x h hxd a b).mp hm
        rcases Nat.lt_trichotomy (i + 1) idx with hi | hi | hi
        · exact ⟨i, a, b, by rw [hidx_lt i (by omega)]; exact ha,
            by rw [hidx_lt (i + 1) hi]; exact hb, hm2⟩
        · exfalso
          have haa : a = v2 := by
            rw [show i = idx - 1 by omega] at ha
            exact Option.some_inj.mp (ha.symm.trans hv2)
          have hbb : b = v1 := by
            rw [hi] at hb
            exact Option.some_inj.mp (hb.symm.trans hv1)
          rw [haa, hbb] at hm
          have hmud : pairMatch s ud v2 v1 := by
            rcases hrevd with ⟨h1, h2⟩ | ⟨h1, h2⟩
            · exact Or.inr ⟨by rw [← h1, hod], by rw [← h2, hord]⟩
            · exact Or.inl ⟨by rw [← h2, hord], by rw [← h1, hod]⟩
          exact hxd (inv.inj x h ud hdu v2 v1 hm hmud)
        · refine ⟨i + 1, a, b, ?_, ?_, hm2⟩
          · rw [show i + 1 = idx + 1 + (i - idx) by omega, hidx_gt,
              show idx + (i - idx) = i by omega]
            exact ha
          · rw [show i + 1 + 1 = idx + 1 + (i - idx + 1) by omega, hidx_gt,
              show idx + (i - idx + 1) = i + 1 by omega]
            exact hb
    · rw [List.mem_singleton] at h
      subst h
      refine ⟨idx - 1, v2, n, ?_, ?_, hmatchU2⟩
      · rw [hidx_lt (idx - 1) (by omega)]
        exact hv2
      · rw [show idx - 1 + 1 = idx by omega]
        exact hidx_eq
  · -- conn
    intro j a b ha hb
    rcases Nat.lt_trichotomy (j + 1) idx with hj | hj | hj
    · rw [hidx_lt j (by omega)] at ha
      rw [hidx_lt (j + 1) hj] at hb
      rcases inv.conn j a b ha hb with ⟨x, hx, hm⟩
      by_cases hxd : x = ud
      · exfalso
        subst hxd
        exact absurd (hudIdx j a b ha hb hm) (by omega)
      · exact ⟨x, by rw [hEd]; exact List.mem_append_left _ hx,
          (hmatchOld x hx hxd a b).mp hm⟩
    · rw [hidx_lt j (by omega)] at ha
      rw [hj, hidx_eq] at hb
      have haa : a = v2 := by
        rw [show j = idx - 1 by omega] at ha
        exact Option.some_inj.mp (ha.symm.trans hv2)
      have hbb : b = n := (Option.some_inj.mp hb).symm
      subst haa; subst hbb
      exact ⟨u2, by rw [hEd]; simp, hmatchU2⟩
    · rcases Nat.lt_or_ge idx j with hj2 | hj2
      · have hja : j = idx + 1 + (j - idx - 1) := by omega
        rw [hja, hidx_gt] at ha
        rw [show j + 1 = idx + 1 + (j - idx) by omega, hidx_gt] at hb
        have ha2 : vs[idx + (j - idx - 1)]? = some a := ha
        have hb2 : vs[idx + (j - idx - 1) + 1]? = some b := by
          rw [show idx + (j - idx - 1) + 1 = idx + (j - idx) by omega]
          exact hb
        rcases inv.conn (idx + (j - idx - 1)) a b ha2 hb2 with ⟨x, hx, hm⟩
        by_cases hxd : x = ud
        · exfalso
          subst hxd
          exact absurd (hudIdx _ a b ha2 hb2 hm) (by omega)
        · exact ⟨x, by rw [hEd]; exact List.mem_append_left _ hx,
            (hmatchOld x hx hxd a b).mp hm⟩
      · have hjeq : j = idx := by omega
        subst hjeq
        rw [hidx_eq] at ha
        have h0 := hidx_gt 0
        rw [Nat.add_zero] at h0
        rw [show j + 1 = j + 1 + 0 by omega, h0] at hb
        have haa : a = n := (Option.some_inj.mp ha).symm
        have hbb : b = v1 := Option.some_inj.mp (hb.symm.trans hv1)
        subst haa; subst hbb
        exact ⟨ud, by rw [hEd]; exact List.mem_append_left _ hdu,
          pairMatch_symm hmatchUd⟩
  · -- inj
    intro x hx y hy a b hmx hmy
    rw [hEd] at hx hy
    rcases List.mem_append.mp hx with hxo | hxu
    · rcases List.mem_append.mp hy with hyo | hyu
      · by_cases hxd : x = ud
        · by_cases hyd : y = ud
          · rw [hxd, hyd]
          · exfalso
            subst hxd
            rcases hudPair2 a b hmx with ⟨h1, h2⟩ | ⟨h1, h2⟩
            · exact (hOldNoN y hyo hyd a b hmy).2 h2
            · exact (hOldNoN y hyo hyd a b hmy).1 h1
        · by_cases hyd : y = ud
          · exfalso
            subst hyd
            rcases hudPair2 a b hmy with ⟨h1, h2⟩ | ⟨h1, h2⟩
            · exact (hOldNoN x hxo hxd a b hmx).2 h2
            · exact (hOldNoN x hxo hxd a b hmx).1 h1
          · exact inv.inj x hxo y hyo a b ((hmatchOld x hxo hxd a b).mpr hmx)
              ((hmatchOld y hyo hyd a b).mpr hmy)
      · rw [List.mem_singleton] at hyu
        subst hyu
        exfalso
        by_cases hxd : x = ud
        · subst hxd
          rcases hudPair2 a b hmx with ⟨h1, h2⟩ | ⟨h1, h2⟩ <;>
            rcases hu2Pair2 a b hmy with ⟨h3, h4⟩ | ⟨h3, h4⟩
          · exact hv1n (h1.symm.trans h3)
          · exact hv1v2 (h1.symm.trans h3)
          · exact hv1v2 (h2.symm.trans h4)
          · exact hv1n (h2.symm.trans h4)
        · rcases hu2Pair2 a b hmy with ⟨h1, h2⟩ | ⟨h1, h2⟩
          · exact (hOldNoN x hxo hxd a b hmx).1 h1
          · exact (hOldNoN x hxo hxd a b hmx).2 h2
    · rw [List.mem_singleton] at hxu
      subst hxu
      rcases List.mem_append.mp hy with hyo | hyu
      · exfalso
        by_cases hyd : y = ud
        · subst hyd
          rcases hudPair2 a b hmy with ⟨h1, h2⟩ | ⟨h1, h2⟩ <;>
            rcases hu2Pair2 a b hmx with ⟨h3, h4⟩ | ⟨h3, h4⟩
          · exact hv1n (h1.symm.trans h3)
          · exact hv1v2 (h1.symm.trans h3)
          · exact hv1v2 (h2.symm.trans h4)
          · exact hv1n (h2.symm.trans h4)
        · rcases hu2Pair2 a b hmx with ⟨h1, h2⟩ | ⟨h1, h2⟩
          · exact (hOldNoN y hyo hyd a b hmy).1 h1
          · exact (hOldNoN y hyo hyd a b hmy).2 h2
      · rw [List.mem_singleton] at hyu
        rw [hyu]
  · -- positions
    rw [hvs2, List.map_append, List.map_cons, hposN]
    have h1 : (vs.take idx).map s2.pos = (vs.take idx).map s.pos :=
      List.map_congr_left (fun x hx => hposOld x (List.take_subset _ _ hx))
    have h2 : (vs.drop idx).map s2.pos = (vs.drop idx).map s.pos :=
      List.map_congr_left (fun x hx => hposOld x (List.drop_subset _ _ hx))
    rw [h1, h2,
      show w.1 :: vs.map s.pos =
        w.1 :: ((vs.take idx).map s.pos ++ (vs.drop idx).map s.pos) by
          rw [← List.map_append, List.take_append_drop]]
    exact List.perm_middle

theorem dsv_fst_edges (s : Cdt) (w : Point × ℕ) :
    (dcel_insert_second_vertex s w).1.edges = s.edges ++ [s.nextEdge] := rfl

theorem dsv_fst_numVertices (s : Cdt) (w : Point × ℕ) :
    (dcel_insert_second_vertex s w).1.numVertices = s.numVertices + 1 := rfl

theorem dsv_fst_numFaces (s : Cdt) (w : Point × ℕ) :
    (dcel_insert_second_vertex s w).1.numFaces = s.numFaces := rfl

theorem dsv_fst_nextEdge (s : Cdt) (w : Point × ℕ) :
    (dcel_insert_second_vertex s w).1.nextEdge = s.nextEdge + 1 := rfl

theorem dsv_fst_face (s : Cdt) (w : Point × ℕ) (x : ℕ) :
    (dcel_insert_second_vertex s w).1.face x =
      if x = 2 * s.nextEdge ∨ x = 2 * s.nextEdge + 1 then 0
      else s.face x := rfl

theorem dsv_fst_origin (s : Cdt) (w : Point × ℕ) (x : ℕ) :
    (dcel_insert_second_vertex s w).1.origin x =
      if x = 2 * s.nextEdge then 0
      else if x = 2 * s.nextEdge + 1 then s.numVertices
      else s.origin x := rfl

theorem dsv_fst_pos (s : Cdt) (w : Point × ℕ) (x : ℕ) :
    (dcel_insert_second_vertex s w).1.pos x =
      if x = s.numVertices then w.1 else s.pos x := by
  by_cases hx : x = s.numVertices <;>
    simp [Cdt.pos, dcel_insert_second_vertex, hx]

theorem dsv_snd (s : Cdt) (w : Point × ℕ) :
    (dcel_insert_second_vertex s w).2 = s.numVertices := rfl

/-- Bootstrapping the degenerate two-vertex line establishes the chain
invariant. -/
theorem second_vertex_inv (s : Cdt) (w : Point × ℕ) (inv : ChainInv s [0])
    (hnv : s.numVertices = 1) (hne : s.pos 0 ≠ w.1) :
    ∃ vs2, ChainInv (dcel_insert_second_vertex s w).1 vs2 ∧
      (vs2.map (dcel_insert_second_vertex s w).1.pos).Perm
        (w.1 :: ([0] : List ℕ).map s.pos) := by
  set u := s.nextEdge with hu
  set s2 := (dcel_insert_second_vertex s w).1 with hs2
  have hE : s.edges = [] := by
    have := inv.count
    rw [hnv] at this
    exact List.length_eq_zero.mp (by omega)
  have hEd : s2.edges = [u] := by
    rw [hs2, dsv_fst_edges, hE, List.nil_append]
  have hpos0 : s2.pos 0 = s.pos 0 := by
    rw [hs2, dsv_fst_pos, if_neg (by omega)]
  have hpos1 : s2.pos 1 = w.1 := by
    rw [hs2, dsv_fst_pos, hnv]
    exact if_pos rfl
  have horig0 : s2.origin (2 * u) = 0 := by
    rw [hs2, dsv_fst_origin]
    exact if_pos rfl
  have horig1 : s2.origin (2 * u + 1) = 1 := by
    rw [hs2, dsv_fst_origin, if_neg (by omega), if_pos rfl, hnv]
  have hnv2 : s2.numVertices = 2 := by
    rw [hs2, dsv_fst_numVertices, hnv]
  have hrange2 : List.range 2 = [0, 1] := by decide
  have hfaces2 : s2.numFaces = 1 := by
    rw [hs2, dsv_fst_numFaces]; exact inv.faces
  have hface02 : ∀ d, s2.face d = 0 := by
    intro d
    rw [hs2, dsv_fst_face]
    by_cases hd : d = 2 * u ∨ d = 2 * u + 1
    · rw [if_pos hd]
    · rw [if_neg hd]; exact inv.face0 d
  have hnodup2 : s2.edges.Nodup := by rw [hEd]; exact List.nodup_singleton u
  have hbound2 : ∀ x ∈ s2.edges, x < s2.nextEdge := by
    intro x hx
    rw [hEd, List.mem_singleton] at hx
    rw [hx, hs2, dsv_fst_nextEdge]
    omega
  have hcount2 : s2.edges.length + 1 = s2.numVertices := by
    rw [hEd, hnv2]; rfl
  have hconnNone : ∀ (l : List ℕ), l.length = 2 → ∀ (i b : ℕ),
      l[i + 1]? = some b → i = 0 := by
    intro l hl i b hb
    by_contra hc
    rw [List.getElem?_eq_none (by omega)] at hb
    cases hb
  rcases pointLt_total hne with hlt | hlt
  · refine ⟨[0, 1], ⟨?_, ?_, hcount2, hfaces2, hface02, hnodup2, hbound2,
      ?_, ?_, ?_⟩, ?_⟩
    · rw [hnv2, hrange2]
    · refine List.pairwise_cons.mpr ⟨?_, List.pairwise_singleton _ _⟩
      intro b hb
      rw [List.mem_singleton] at hb
      subst hb
      rw [hpos0, hpos1]
      exact hlt
    · intro x hx
      rw [hEd, List.mem_singleton] at hx
      subst hx
      exact ⟨0, 0, 1, by simp, by simp, Or.inl ⟨horig0, horig1⟩⟩
    · intro i a b ha hb
      have hi0 : i = 0 := hconnNone [0, 1] (by simp) i b hb
      subst hi0
      have haa : a = 0 := by simpa using ha.symm
      have hbb : b = 1 := by simpa using hb.symm
      subst haa; subst hbb
      exact ⟨u, by rw [hEd]; simp, Or.inl ⟨horig0, horig1⟩⟩
    · intro x hx y hy a b hmx hmy
      rw [hEd, List.mem_singleton] at hx hy
      rw [hx, hy]
    · rw [List.map_cons, List.map_cons, List.map_nil, hpos0, hpos1,
        List.map_cons, List.map_nil]
      exact List.Perm.swap _ _ _
  · refine ⟨[1, 0], ⟨?_, ?_, hcount2, hfaces2, hface02, hnodup2, hbound2,
      ?_, ?_, ?_⟩, ?_⟩
    · rw [hnv2, hrange2]
      exact List.Perm.swap _ _ _
    · refine List.pairwise_cons.mpr ⟨?_, List.pairwise_singleton _ _⟩
      intro b hb
      rw [List.mem_singleton] at hb
      subst hb
      rw [hpos0, hpos1]
      exact hlt
    · intro x hx
      rw [hEd, List.mem_singleton] at hx
      subst hx
      exact ⟨0, 1, 0, by simp, by simp, Or.inr ⟨horig0, horig1⟩⟩
    · intro i a b ha hb
      have hi0 : i = 0 := hconnNone [1, 0] (by simp) i b hb
      subst hi0
      have haa : a = 1 := by simpa using ha.symm
      have hbb : b = 0 := by simpa using hb.symm
      subst haa; subst hbb
      exact ⟨u, by rw [hEd]; simp, Or.inr ⟨horig0, horig1⟩⟩
    · intro x hx y hy a b hmx hmy
      rw [hEd, List.mem_singleton] at hx hy
      rw [hx, hy]
    · rw [List.map_cons, List.map_cons, List.map_nil, hpos0, hpos1,
        List.map_cons, List.map_nil]

/-- What the degenerate locate returns on a chain state, for a query
position on the line but not at a stored vertex: the insertion index
(the number of stored positions below the query) decides between the two
line ends and a split of the connecting edge. -/
theorem locate_on_line_result (s : Cdt) (vs : List ℕ) (inv : ChainInv s vs)
    (k : ℕ) (hnv : s.numVertices = k + 2) (p : Point)
    (hcol : ∀ a ∈ vs, ∀ b ∈ vs, side_query (s.pos a) (s.pos b) p = 0)
    (hnew : ∀ v ∈ vs, s.pos v ≠ p) :
    ((vs.filter (fun v => pointLt (s.pos v) p)).length = 0 ∧
      ∃ v0, vs.head? = some v0 ∧
        locate_when_all_vertices_on_line s p =
          some (PositionWhenAllVerticesOnLine.extendingLine v0)) ∨
    ((vs.filter (fun v => pointLt (s.pos v) p)).length = vs.length ∧
      ∃ vl, vs.getLast? = some vl ∧
        locate_when_all_vertices_on_line s p =
          some (PositionWhenAllVerticesOnLine.extendingLine vl)) ∨
    (0 < (vs.filter (fun v => pointLt (s.pos v) p)).length ∧
      (vs.filter (fun v => pointLt (s.pos v) p)).length < vs.length ∧
      ∃ d v1 v2,
        vs[(vs.filter (fun v => pointLt (s.pos v) p)).length]? = some v1 ∧
        vs[(vs.filter (fun v => pointLt (s.pos v) p)).length - 1]? =
          some v2 ∧
        d / 2 ∈ s.edges ∧ s.origin d = v1 ∧ s.origin (rev d) = v2 ∧
        locate_when_all_vertices_on_line s p =
          some (PositionWhenAllVerticesOnLine.onEdge d)) := by
  set idx := (vs.filter (fun v => pointLt (s.pos v) p)).length with hidx
  have hlenv : vs.length = s.numVertices := inv.len
  have hEpos : 0 < s.edges.length := by
    have := inv.count
    omega
  obtain ⟨u0, rest, hE⟩ := List.exists_cons_of_length_pos hEpos
  have hu0 : u0 ∈ s.edges := by rw [hE]; exact List.mem_cons_self _ _
  have hq : s.edgeSide (2 * u0) p = 0 := by
    unfold Cdt.edgeSide Cdt.toVertex
    rw [rev_two_mul]
    exact hcol _ (inv.endMem hu0).1 _ (inv.endMem hu0).2
  have hperm : ((List.range s.numVertices).mergeSort
      (fun a b => pointLe (s.pos a) (s.pos b))).Perm vs :=
    (List.mergeSort_perm _ _).trans inv.perm.symm
  have hposinj : ∀ a ∈ vs, ∀ b ∈ vs, s.pos a = s.pos b → a = b := by
    intro a ha b hb he
    by_contra hne
    have hsym : Symmetric (fun a b : ℕ =>
        pointLt (s.pos a) (s.pos b) = true ∨
        pointLt (s.pos b) (s.pos a) = true) := by
      intro x y h
      exact h.symm
    have hpair : vs.Pairwise (fun x y : ℕ =>
        pointLt (s.pos x) (s.pos y) = true ∨
        pointLt (s.pos y) (s.pos x) = true) :=
      inv.sorted.imp (fun {x y} h => Or.inl h)
    rcases hpair.forall hsym ha hb hne with h | h
    · exact absurd he (pointLt_ne h)
    · exact absurd he.symm (pointLt_ne h)
  have hveq : (List.range s.numVertices).mergeSort
      (fun a b => pointLe (s.pos a) (s.pos b)) = vs := by
    refine pairwise_perm_eq (fun a b => pointLe (s.pos a) (s.pos b)) _ _
      hperm ?_ ?_ ?_
    · intro a ha b hb h1 h2
      exact hposinj a (hperm.subset ha) b (hperm.subset hb)
        (pointLe_antisymm h1 h2)
    · exact List.sorted_mergeSort
        (fun a b c => pointLe_trans (s.pos a) (s.pos b) (s.pos c))
        (fun a b => pointLe_total (s.pos a) (s.pos b)) _
    · exact inv.sorted.imp (fun {a b} h => pointLe_of_lt h)
  have hfind : vs.find? (fun v => decide (s.pos v = p)) = none :=
    List.find?_eq_none.mpr (fun v hv => by simpa using hnew v hv)
  have hidxle : idx ≤ vs.length := by
    rw [hidx]
    exact (List.length_filter_le _ _)
  have hstep1 : locate_when_all_vertices_on_line s p =
      (if idx = 0 then
        match vs.head? with
        | some v => some (PositionWhenAllVerticesOnLine.extendingLine v)
        | none => none
      else if idx = vs.length then
        match vs.getLast? with
        | some v => some (PositionWhenAllVerticesOnLine.extendingLine v)
        | none => none
      else
        match vs[idx]?, vs[idx - 1]? with
        | some v1, some v2 =>
          match s.get_edge_from_neighbors v1 v2 with
          | some d => some (PositionWhenAllVerticesOnLine.onEdge d)
          | none => none
        | _, _ => none) := by
    simp only [locate_when_all_vertices_on_line, hE]
    simp only [← hE, hq, hveq, hfind]
    rw [if_neg (lt_irrefl (0 : ℚ)), if_neg (lt_irrefl (0 : ℚ))]
  have hvs_ne : vs ≠ [] := by
    intro h
    rw [h] at hlenv
    simp at hlenv
    omega
  by_cases h0 : idx = 0
  · left
    have hvslen : 0 < vs.length := by rw [hlenv]; omega
    obtain ⟨v0, t, hvs⟩ := List.exists_cons_of_length_pos hvslen
    refine ⟨h0, v0, by rw [hvs]; rfl, ?_⟩
    rw [hstep1, if_pos h0, hvs]
    rfl
  · by_cases hlen : idx = vs.length
    · right; left
      have hgl : ∃ vl, vs.getLast? = some vl := by
        cases hvl : vs.getLast? with
        | none => exact absurd (List.getLast?_eq_none_iff.mp hvl) hvs_ne
        | some v => exact ⟨v, rfl⟩
      obtain ⟨vl, hvl⟩ := hgl
      refine ⟨hlen, vl, hvl, ?_⟩
      rw [hstep1, if_neg h0, if_pos hlen, hvl]
    · right; right
      have hidxlt : idx < vs.length := lt_of_le_of_ne hidxle hlen
      have hv1 : vs[idx]? = some vs[idx] := List.getElem?_eq_getElem hidxlt
      have hv2 : vs[idx - 1]? = some vs[idx - 1] :=
        List.getElem?_eq_getElem (by omega)
      rcases inv.conn (idx - 1) vs[idx - 1] vs[idx]
          (by exact hv2) (by rw [show idx - 1 + 1 = idx by omega]; exact hv1)
        with ⟨u, hu, hm⟩
      have hex : ∃ x ∈ s.edges, pairMatch s x vs[idx] vs[idx - 1] :=
        ⟨u, hu, pairMatch_symm hm⟩
      rcases get_edge_from_neighbors_spec s vs[idx] vs[idx - 1] s.edges hex
        with ⟨d, hd, hda, hdb, hdm⟩
      have hd2 : s.get_edge_from_neighbors vs[idx] vs[idx - 1] = some d := hd
      refine ⟨Nat.pos_of_ne_zero h0, hidxlt, d, vs[idx], vs[idx - 1],
        hv1, hv2, hdm, hda, hdb, ?_⟩
      rw [hstep1, if_neg h0, if_neg hlen, hv1, hv2]
      simp only [hd2]

/-- The chain invariant only reads the arena, origins, positions, faces
and the counters, so it transports across states that agree there. -/
theorem ChainInv.transport {s s2 : Cdt} {vs : List ℕ} (inv : ChainInv s vs)
    (he : s2.edges = s.edges) (ho : ∀ d, s2.origin d = s.origin d)
    (hp : ∀ v, s2.pos v = s.pos v) (hnv : s2.numVertices = s.numVertices)
    (hnf : s2.numFaces = s.numFaces) (hf : ∀ d, s2.face d = s.face d)
    (hne : s2.nextEdge = s.nextEdge) : ChainInv s2 vs := by
  have hm : ∀ u a b, pairMatch s u a b → pairMatch s2 u a b :=
    fun u a b h => pairMatch_congr (ho _) (ho _) h
  refine ⟨?_, ?_, ?_, ?_, ?_, ?_, ?_, ?_, ?_, ?_⟩
  · rw [hnv]; exact inv.perm
  · exact inv.sorted.imp (fun {a b} h => by rw [hp a, hp b]; exact h)
  · rw [he, hnv]; exact inv.count
  · rw [hnf]; exact inv.faces
  · intro d; rw [hf]; exact inv.face0 d
  · rw [he]; exact inv.nodupE
  · intro u hu
    rw [he] at hu
    rw [hne]
    exact inv.bound u hu
  · intro u hu
    rw [he] at hu
    rcases inv.ends u hu with ⟨i, a, b, ha, hb, hmm⟩
    exact ⟨i, a, b, ha, hb, hm u a b hmm⟩
  · intro i a b ha hb
    rcases inv.conn i a b ha hb with ⟨u, hu, hmm⟩
    exact ⟨u, by rw [he]; exact hu, hm u a b hmm⟩
  · intro x hx y hy a b hmx hmy
    rw [he] at hx hy
    exact inv.inj x hx y hy a b
      (pairMatch_congr (ho _).symm (ho _).symm hmx)
      (pairMatch_congr (ho _).symm (ho _).symm hmy)

theorem hles_edges (s : Cdt) (h0 h1 : ℕ) :
    (handle_legal_edge_split s h0 h1).edges = s.edges := by
  simp [handle_legal_edge_split, Cdt.setBit, apply_ite Cdt.edges]

theorem hles_origin (s : Cdt) (h0 h1 : ℕ) (d : ℕ) :
    (handle_legal_edge_split s h0 h1).origin d = s.origin d := by
  simp [handle_legal_edge_split, Cdt.setBit, apply_ite Cdt.origin]

theorem hles_vdata (s : Cdt) (h0 h1 : ℕ) (v : ℕ) :
    (handle_legal_edge_split s h0 h1).vdata v = s.vdata v := by
  simp [handle_legal_edge_split, Cdt.setBit, apply_ite Cdt.vdata]

theorem hles_pos (s : Cdt) (h0 h1 : ℕ) (v : ℕ) :
    (handle_legal_edge_split s h0 h1).pos v = s.pos v := by
  unfold Cdt.pos
  rw [hles_vdata]

theorem hles_numVertices (s : Cdt) (h0 h1 : ℕ) :
    (handle_legal_edge_split s h0 h1).numVertices = s.numVertices := by
  simp [handle_legal_edge_split, Cdt.setBit, apply_ite Cdt.numVertices]

theorem hles_numFaces (s : Cdt) (h0 h1 : ℕ) :
    (handle_legal_edge_split s h0 h1).numFaces = s.numFaces := by
  simp [handle_legal_edge_split, Cdt.setBit, apply_ite Cdt.numFaces]

theorem hles_face (s : Cdt) (h0 h1 : ℕ) (d : ℕ) :
    (handle_legal_edge_split s h0 h1).face d = s.face d := by
  simp [handle_legal_edge_split, Cdt.setBit, apply_ite Cdt.face]

theorem hles_nextEdge (s : Cdt) (h0 h1 : ℕ) :
    (handle_legal_edge_split s h0 h1).nextEdge = s.nextEdge := by
  simp [handle_legal_edge_split, Cdt.setBit, apply_ite Cdt.nextEdge]

/-- `handle_legal_edge_split` only touches constraint bits and the
counter, so it preserves the chain invariant. -/
theorem chainInv_hles {s : Cdt} {vs : List ℕ} (inv : ChainInv s vs)
    (h0 h1 : ℕ) : ChainInv (handle_legal_edge_split s h0 h1) vs :=
  inv.transport (hles_edges s h0 h1) (hles_origin s h0 h1)
    (hles_pos s h0 h1) (hles_numVertices s h0 h1) (hles_numFaces s h0 h1)
    (hles_face s h0 h1) (hles_nextEdge s h0 h1)

/-- Appending a vertex behind the chain (the new position is larger than
every stored one) preserves the chain invariant. -/
theorem extend_back_inv (s : Cdt) (vs : List ℕ) (w : Point × ℕ)
    (inv : ChainInv s vs) (vl : ℕ) (hlast : vs.getLast? = some vl)
    (hgt : ∀ x ∈ vs, pointLt (s.pos x) w.1 = true) :
    ChainInv (extend_line s vl w).1 (vs ++ [s.numVertices]) ∧
      ((vs ++ [s.numVertices]).map (extend_line s vl w).1.pos) =
        vs.map s.pos ++ [w.1] := by
  set n := s.numVertices with hn
  set u := s.nextEdge with hu
  set s2 := (extend_line s vl w).1 with hs2
  have hposN : s2.pos n = w.1 := by
    rw [hs2, extend_line_fst_pos]; exact if_pos rfl
  have hposOld : ∀ x ∈ vs, s2.pos x = s.pos x := by
    intro x hx
    rw [hs2, extend_line_fst_pos]
    exact if_neg (Nat.ne_of_lt (inv.memLt hx))
  have hnotin : n ∉ vs := fun h => lt_irrefl n (inv.memLt h)
  have horigOld : ∀ x ∈ s.edges, s2.origin (2 * x) = s.origin (2 * x) ∧
      s2.origin (2 * x + 1) = s.origin (2 * x + 1) := by
    intro x hx
    have hxu : x < u := inv.bound x hx
    rw [hs2, extend_line_fst_origin, extend_line_fst_origin]
    constructor
    · rw [if_neg (by omega), if_neg (by omega)]
    · rw [if_neg (by omega), if_neg (by omega)]
  have horigA : s2.origin (2 * u) = vl := by
    rw [hs2, extend_line_fst_origin]; exact if_pos rfl
  have horigB : s2.origin (2 * u + 1) = n := by
    rw [hs2, extend_line_fst_origin, if_neg (by omega), if_pos rfl]
  have hmatchOld : ∀ x ∈ s.edges, ∀ a b, pairMatch s x a b ↔
      pairMatch s2 x a b := by
    intro x hx a b
    constructor
    · exact pairMatch_congr (horigOld x hx).1 (horigOld x hx).2
    · exact pairMatch_congr (horigOld x hx).1.symm (horigOld x hx).2.symm
  have hlen1 : 1 ≤ vs.length := by
    cases vs with
    | nil => simp at hlast
    | cons a t => simp
  have hlastE : vs[vs.length - 1]? = some vl := by
    rw [← List.getLast?_eq_getElem?]
    exact hlast
  have hnewMatch : pairMatch s2 u vl n := Or.inl ⟨horigA, horigB⟩
  have hEd : s2.edges = s.edges ++ [u] := by
    rw [hs2, extend_line_fst_edges]
  have hgl : ∀ (i a : ℕ), vs[i]? = some a → (vs ++ [n])[i]? = some a := by
    intro i a ha
    have hi : i < vs.length := by
      by_contra hc
      rw [List.getElem?_eq_none (by omega)] at ha
      cases ha
    rw [List.getElem?_append_left hi]
    exact ha
  refine ⟨⟨?_, ?_, ?_, ?_, ?_, ?_, ?_, ?_, ?_, ?_⟩, ?_⟩
  · -- perm
    rw [hs2, extend_line_fst_numVertices, ← hn, List.range_succ]
    exact inv.perm.append_right [n]
  · -- sorted
    rw [List.pairwise_append]
    refine ⟨?_, List.pairwise_singleton _ _, ?_⟩
    · refine List.Pairwise.imp_of_mem ?_ inv.sorted
      intro a b ha hb hab
      rw [hposOld a ha, hposOld b hb]
      exact hab
    · intro a ha b hb
      rw [List.mem_singleton] at hb
      subst hb
      rw [hposN, hposOld a ha]
      exact hgt a ha
  · -- count
    rw [hEd, hs2, extend_line_fst_numVertices, List.length_append]
    simpa using inv.count
  · rw [hs2, extend_line_fst_numFaces]; exact inv.faces
  · intro d
    rw [hs2, extend_line_fst_face]
    by_cases hd : d = 2 * u ∨ d = 2 * u + 1
    · rw [if_pos hd]
    · rw [if_neg hd]; exact inv.face0 d
  · -- nodup
    rw [hEd]
    refine List.Nodup.append inv.nodupE (List.nodup_singleton u) ?_
    intro x hx hx2
    rw [List.mem_singleton] at hx2
    rw [hx2] at hx
    exact lt_irrefl u (inv.bound u hx)
  · -- bound
    intro x hx
    rw [hEd] at hx
    rw [hs2, extend_line_fst_nextEdge]
    rcases List.mem_append.mp hx with h | h
    · exact Nat.lt_succ_of_lt (inv.bound x h)
    · rw [List.mem_singleton] at h; omega
  · -- ends
    intro x hx
    rw [hEd] at hx
    rcases List.mem_append.mp hx with h | h
    · rcases inv.ends x h with ⟨i, a, b, ha, hb, hm⟩
      exact ⟨i, a, b, hgl i a ha, hgl (i + 1) b hb,
        ((hmatchOld x h a b).mp hm)⟩
    · rw [List.mem_singleton] at h
      subst h
      refine ⟨vs.length - 1, vl, n, hgl _ vl hlastE, ?_, hnewMatch⟩
      have hix : vs.length - 1 + 1 = vs.length := by omega
      rw [hix, List.getElem?_append_right (le_refl _)]
      simp
  · -- conn
    intro i a b ha hb
    have hlen2 : (vs ++ [n]).length = vs.length + 1 := by simp
    have hib : i + 1 < vs.length + 1 := by
      by_contra hc
      rw [List.getElem?_eq_none (by omega)] at hb
      cases hb
    rcases Nat.lt_or_ge (i + 1) vs.length with hi | hi
    · have ha2 : vs[i]? = some a := by
        rw [List.getElem?_append_left (by omega)] at ha
        exact ha
      have hb2 : vs[i + 1]? = some b := by
        rw [List.getElem?_append_left hi] at hb
        exact hb
      rcases inv.conn i a b ha2 hb2 with ⟨x, hx, hm⟩
      exact ⟨x, by rw [hEd]; exact List.mem_append_left _ hx,
        (hmatchOld x hx a b).mp hm⟩
    · have hieq : i + 1 = vs.length := by omega
      have ha2 : vs[i]? = some a := by
        rw [List.getElem?_append_left (by omega)] at ha
        exact ha
      have haa : a = vl := by
        rw [show i = vs.length - 1 by omega, hlastE] at ha2
        exact (Option.some_inj.mp ha2).symm
      have hbb : b = n := by
        rw [hieq, List.getElem?_append_right (le_refl _)] at hb
        simpa using hb.symm
      subst haa; subst hbb
      exact ⟨u, by rw [hEd]; simp, hnewMatch⟩
  · -- inj
    intro x hx y hy a b hmx hmy
    rw [hEd] at hx hy
    have hnotOld : ∀ z ∈ s.edges, ¬ pairMatch s2 z a b ∨ ¬ (a = n ∨ b = n) := by
      intro z hz
      by_cases hpm : pairMatch s2 z a b
      · right
        intro hab
        have hz2 := (hmatchOld z hz a b).mpr hpm
        have hzm := inv.endMem hz
        rcases hz2 with ⟨h1, h2⟩ | ⟨h1, h2⟩ <;> rcases hab with hab | hab
        · exact hnotin (hab ▸ h1 ▸ hzm.1)
        · exact hnotin (hab ▸ h2 ▸ hzm.2)
        · exact hnotin (hab ▸ h2 ▸ hzm.2)
        · exact hnotin (hab ▸ h1 ▸ hzm.1)
      · left; exact hpm
    rcases List.mem_append.mp hx with hxo | hxu
    · rcases List.mem_append.mp hy with hyo | hyu
      · exact inv.inj x hxo y hyo a b ((hmatchOld x hxo a b).mpr hmx)
          ((hmatchOld y hyo a b).mpr hmy)
      · rw [List.mem_singleton] at hyu
        subst hyu
        have hab : a = n ∨ b = n := by
          rcases hmy with ⟨h1, h2⟩ | ⟨h1, h2⟩
          · right; rw [← h2, horigB]
          · left; rw [← h2, horigB]
        rcases hnotOld x hxo with h | h
        · exact absurd hmx h
        · exact absurd hab h
    · rw [List.mem_singleton] at hxu
      subst hxu
      rcases List.mem_append.mp hy with hyo | hyu
      · have hab : a = n ∨ b = n := by
          rcases hmx with ⟨h1, h2⟩ | ⟨h1, h2⟩
          · right; rw [← h2, horigB]
          · left; rw [← h2, horigB]
        rcases hnotOld y hyo with h | h
        · exact absurd hmy h
        · exact absurd hab h
      · rw [List.mem_singleton] at hyu
        rw [hyu]
  · -- positions
    rw [List.map_append, List.map_cons, List.map_nil, hposN]
    congr 1
    exact List.map_congr_left hposOld

/-- One insertion step on a degenerate chain: a vertex whose position is
collinear with and distinct from every stored one is newly inserted, the
chain invariant is preserved, and the stored positions grow by exactly the
new one. -/
theorem insert_on_line_step (fuel : ℕ) (s : Cdt) (vs : List ℕ)
    (w : Point × ℕ) (hint : ℕ) (inv : ChainInv s vs)
    (hn : 1 ≤ s.numVertices)
    (hcol : ∀ a ∈ vs, ∀ b ∈ vs, side_query (s.pos a) (s.pos b) w.1 = 0)
    (hnew : ∀ v ∈ vs, s.pos v ≠ w.1) :
    ∃ s2 vs2, insert_with_hint fuel s w hint =
        some (s2, InsertionResult.newlyInserted s.numVertices) ∧
      ChainInv s2 vs2 ∧ s2.numVertices = s.numVertices + 1 ∧
      (vs2.map s2.pos).Perm (w.1 :: vs.map s.pos) := by
  rcases Nat.lt_or_ge s.numVertices 2 with hsmall | hbig
  · -- exactly one vertex: the second-vertex bootstrap
    have hnv : s.numVertices = 1 := by omega
    have hvs : vs = [0] := by
      have hp := inv.perm
      rw [hnv, show List.range 1 = [0] from rfl] at hp
      exact List.perm_singleton.mp hp
    have hne0 : s.pos 0 ≠ w.1 := hnew 0 (by rw [hvs]; simp)
    rcases second_vertex_inv s w (hvs ▸ inv) hnv hne0 with ⟨vs2, hinv2, hmap2⟩
    refine ⟨(dcel_insert_second_vertex s w).1, vs2, ?_, hinv2, ?_, ?_⟩
    · simp only [insert_with_hint, hnv, insert_second_vertex, if_neg hne0]
      rw [show (dcel_insert_second_vertex s w).2 = s.numVertices from rfl,
        hnv]
    · rw [dsv_fst_numVertices]
    · rw [hvs]
      exact hmap2
  · obtain ⟨k, hnv⟩ : ∃ k, s.numVertices = k + 2 :=
      ⟨s.numVertices - 2, by omega⟩
    have hall : all_vertices_on_line s = true := by
      simp [all_vertices_on_line, inv.faces]
    rcases locate_on_line_result s vs inv k hnv w.1 hcol hnew with
      ⟨h0, v0, hhead, hloc⟩ | ⟨hlen, vl, hlast, hloc⟩ |
      ⟨h0, hlen, d, v1, v2, hv1, hv2, hdm, hda, hdb, hloc⟩
    · -- extending the line at the front
      have hft : vs.filter (fun v => pointLt (s.pos v) w.1) = [] :=
        List.length_eq_zero.mp h0
      have hlt : ∀ x ∈ vs, pointLt w.1 (s.pos x) = true := by
        intro x hx
        rcases pointLt_total (hnew x hx) with h | h
        · exact absurd h (by
            have := List.filter_eq_nil_iff.mp hft x hx
            simpa using this)
        · exact h
      rcases extend_front_inv s vs w inv v0 hhead hlt with ⟨hinv2, hmap2⟩
      refine ⟨(extend_line s v0 w).1, s.numVertices :: vs, ?_,
        hinv2, ?_, ?_⟩
      · simp only [insert_with_hint, hnv, hall, if_true, hloc,
          insert_when_all_vertices_on_line]
        rw [show (extend_line s v0 w).2 = s.numVertices from rfl, hnv]
      · rw [extend_line_fst_numVertices]
      · rw [hmap2]
    · -- extending the line at the back
      have hall2 : ∀ x ∈ vs, pointLt (s.pos x) w.1 = true := by
        intro x hx
        exact List.filter_length_eq_length.mp hlen x hx
      rcases extend_back_inv s vs w inv vl hlast hall2 with ⟨hinv2, hmap2⟩
      refine ⟨(extend_line s vl w).1, vs ++ [s.numVertices], ?_,
        hinv2, ?_, ?_⟩
      · simp only [insert_with_hint, hnv, hall, if_true, hloc,
          insert_when_all_vertices_on_line]
        rw [show (extend_line s vl w).2 = s.numVertices from rfl, hnv]
      · rw [extend_line_fst_numVertices]
      · rw [hmap2]
        exact List.perm_append_singleton _ _
    · -- splitting the chain edge around the new position
      set idx := (vs.filter (fun v => pointLt (s.pos v) w.1)).length
        with hidx
      have hft : vs.filter (fun v => pointLt (s.pos v) w.1) = vs.take idx :=
        filter_eq_take_of_sorted _ _
          (fun a b hab hPb => pointLt_trans hab hPb) vs inv.sorted
      have htake : ∀ x ∈ vs.take idx, pointLt (s.pos x) w.1 = true := by
        intro x hx
        rw [← hft] at hx
        exact (List.mem_filter.mp hx).2
      have hdrop : ∀ y ∈ vs.drop idx, pointLt w.1 (s.pos y) = true := by
        intro y hy
        have hyv : y ∈ vs := List.drop_subset _ _ hy
        have hnP : ¬ pointLt (s.pos y) w.1 = true := by
          intro hP
          exact (List.disjoint_take_drop inv.nodupV (le_refl idx))
            (by rw [← hft]; exact List.mem_filter.mpr ⟨hyv, hP⟩) hy
        rcases pointLt_total (hnew y hyv) with h | h
        · exact absurd h hnP
        · exact h
      rcases split_middle_inv s vs w inv idx h0 hlen v1 v2 hv1 hv2 d hdm
        hda hdb htake hdrop with ⟨hinv2, hmap2⟩
      set r := split_edge_when_all_vertices_on_line s d w with hr
      by_cases hC : s.is_defined_legal (asUndirected d) = true
      · refine ⟨handle_legal_edge_split r.1 d (2 * s.nextEdge),
          vs.take idx ++ s.numVertices :: vs.drop idx, ?_, ?_, ?_, ?_⟩
        · simp only [insert_with_hint, hnv, hall, if_true, hloc,
            insert_when_all_vertices_on_line, hC]
          rw [show r.2.2 = s.numVertices from rfl,
            show r.2.1.1 = d from rfl,
            show r.2.1.2 = 2 * s.nextEdge from rfl, hnv]
        · exact chainInv_hles hinv2 d (2 * s.nextEdge)
        · rw [hles_numVertices, hr, split_line_fst_numVertices]
        · refine (List.Perm.of_eq ?_).trans hmap2
          exact List.map_congr_left
            (fun x _ => hles_pos r.1 d (2 * s.nextEdge) x)
      · refine ⟨r.1, vs.take idx ++ s.numVertices :: vs.drop idx, ?_,
          hinv2, ?_, ?_⟩
        · simp only [insert_with_hint, hnv, hall, if_true, hloc,
            insert_when_all_vertices_on_line, hC]
          rw [show r.2.2 = s.numVertices from rfl, hnv]
          rfl
        · rw [hr, split_line_fst_numVertices]
        · exact hmap2

/-- Folding collinear, pairwise distinct insertions over a chain state
keeps the chain invariant. -/
theorem insertAll_chain (fuel : ℕ) :
    ∀ (rest : List (Point × ℕ)) (s : Cdt) (vs : List ℕ),
    ChainInv s vs → 1 ≤ s.numVertices →
    ((vs.map s.pos) ++ rest.map Prod.fst).Nodup →
    (∀ p ∈ (vs.map s.pos) ++ rest.map Prod.fst,
      ∀ q ∈ (vs.map s.pos) ++ rest.map Prod.fst,
      ∀ r ∈ (vs.map s.pos) ++ rest.map Prod.fst, side_query p q r = 0) →
    ∃ s2 vs2, insertAll fuel s rest = some s2 ∧ ChainInv s2 vs2 ∧
      s2.numVertices = s.numVertices + rest.length := by
  intro rest
  induction rest with
  | nil =>
    intro s vs inv hn _ _
    exact ⟨s, vs, rfl, inv, by simp⟩
  | cons w rest2 ih =>
    intro s vs inv hn hnd hcol
    have hvsm : ∀ x ∈ vs, s.pos x ∈ vs.map s.pos ++ (w :: rest2).map Prod.fst :=
      fun x hx => List.mem_append_left _ (List.mem_map_of_mem _ hx)
    have hw1 : w.1 ∈ vs.map s.pos ++ (w :: rest2).map Prod.fst := by
      refine List.mem_append_right _ ?_
      rw [List.map_cons]
      exact List.mem_cons_self _ _
    have hcolstep : ∀ a ∈ vs, ∀ b ∈ vs,
        side_query (s.pos a) (s.pos b) w.1 = 0 :=
      fun a ha b hb => hcol _ (hvsm a ha) _ (hvsm b hb) _ hw1
    have hnew : ∀ v ∈ vs, s.pos v ≠ w.1 := by
      intro v hv he
      have hdisj := (List.nodup_append.mp hnd).2.2
      refine hdisj (List.mem_map_of_mem _ hv) ?_
      rw [he, List.map_cons]
      exact List.mem_cons_self _ _
    rcases insert_on_line_step fuel s vs w 0 inv hn hcolstep hnew with
      ⟨s2, vs2, heq, hinv2, hnv2, hmap2⟩
    have hpermC : (vs2.map s2.pos ++ rest2.map Prod.fst).Perm
        (vs.map s.pos ++ (w :: rest2).map Prod.fst) := by
      rw [List.map_cons]
      refine (hmap2.append_right _).trans ?_
      exact List.perm_middle.symm
    have hnd2 : (vs2.map s2.pos ++ rest2.map Prod.fst).Nodup :=
      (hpermC.nodup_iff).mpr hnd
    have hcol2 : ∀ p ∈ vs2.map s2.pos ++ rest2.map Prod.fst,
        ∀ q ∈ vs2.map s2.pos ++ rest2.map Prod.fst,
        ∀ r ∈ vs2.map s2.pos ++ rest2.map Prod.fst,
        side_query p q r = 0 := by
      intro p hp q hq r hr
      exact hcol p (hpermC.subset hp) q (hpermC.subset hq)
        r (hpermC.subset hr)
    rcases ih s2 vs2 hinv2 (by omega) hnd2 hcol2 with
      ⟨s3, vs3, heq3, hinv3, hnum3⟩
    refine ⟨s3, vs3, ?_, hinv3, ?_⟩
    · simp only [insertAll, heq]
      exact heq3
    · rw [hnum3, hnv2, List.length_cons]
      omega

/-- The one-vertex state reached by the very first insertion satisfies the
chain invariant with the single handle 0. -/
theorem chainInv_first (w : Point × ℕ) :
    ChainInv (insert_first_vertex emptyCdt w).1 [0] := by
  refine ⟨?_, ?_, ?_, ?_, ?_, ?_, ?_, ?_, ?_, ?_⟩
  · exact List.Perm.refl _
  · exact List.pairwise_singleton _ _
  · rfl
  · rfl
  · intro d; rfl
  · exact List.nodup_nil
  · intro u hu; cases hu
  · intro u hu; cases hu
  · intro i a b ha hb
    rw [List.getElem?_eq_none (by simp)] at hb
    cases hb
  · intro x hx; cases hx

/-- C7: inserting n ≥ 2 pairwise distinct, pairwise collinear points one
by one into the empty triangulation yields the degenerate state: one
single (outer) face, hence zero inner faces, exactly n − 1 undirected
edges, n vertices, and every directed edge adjacent to the outer face. -/
theorem collinear_insertion_stays_degenerate (fuel : ℕ)
    (ps : List (Point × ℕ)) (h2 : 2 ≤ ps.length)
    (hcol : ∀ p ∈ ps.map Prod.fst, ∀ q ∈ ps.map Prod.fst,
      ∀ r ∈ ps.map Prod.fst, side_query p q r = 0)
    (hnd : (ps.map Prod.fst).Nodup) :
    ∃ s, insertAll fuel emptyCdt ps = some s ∧
      s.numVertices = ps.length ∧ s.edges.length + 1 = ps.length ∧
      s.numFaces = 1 ∧ ∀ d, s.face d = 0 := by
  cases ps with
  | nil => simp at h2
  | cons w0 rest =>
    set s1 := (insert_first_vertex emptyCdt w0).1 with hs1
    have hfirst : insert_with_hint fuel emptyCdt w0 0 =
        some (s1, InsertionResult.newlyInserted 0) := rfl
    have hinv1 : ChainInv s1 [0] := chainInv_first w0
    have hpos1 : s1.pos 0 = w0.1 := rfl
    have hmap1 : ([0] : List ℕ).map s1.pos ++ rest.map Prod.fst =
        (w0 :: rest).map Prod.fst := by
      simp [hpos1]
    have hnd1 : (([0] : List ℕ).map s1.pos ++ rest.map Prod.fst).Nodup := by
      rw [hmap1]; exact hnd
    have hcol1 : ∀ p ∈ ([0] : List ℕ).map s1.pos ++ rest.map Prod.fst,
        ∀ q ∈ ([0] : List ℕ).map s1.pos ++ rest.map Prod.fst,
        ∀ r ∈ ([0] : List ℕ).map s1.pos ++ rest.map Prod.fst,
        side_query p q r = 0 := by
      rw [hmap1]; exact hcol
    rcases insertAll_chain fuel rest s1 [0] hinv1 (by rfl) hnd1 hcol1 with
      ⟨s2, vs2, heq2, hinv2, hnum2⟩
    refine ⟨s2, ?_, ?_, ?_, hinv2.faces, hinv2.face0⟩
    · simp only [insertAll, hfirst]
      exact heq2
    · rw [hnum2, List.length_cons]
      have hone : s1.numVertices = 1 := rfl
      omega
    · have hc := hinv2.count
      have hone : s1.numVertices = 1 := rfl
      rw [hnum2, hone] at hc
      rw [hc, List.length_cons]
      omega

/-- C7 — witness: three collinear points on the x-axis, inserted so that
the last one splits the chain edge between the first two, leave one face,
two edges and three vertices. -/
theorem collinear_insertion_witness :
    ∃ s, insertAll 1 emptyCdt
        [(((0 : ℚ), (0 : ℚ)), 0), (((4 : ℚ), (0 : ℚ)), 1),
          (((1 : ℚ), (0 : ℚ)), 2)] = some s ∧
      s.numVertices = 3 ∧ s.edges.length + 1 = 3 ∧ s.numFaces = 1 ∧
      ∀ d, s.face d = 0 := by
  have h := collinear_insertion_stays_degenerate 1
    [(((0 : ℚ), (0 : ℚ)), 0), (((4 : ℚ), (0 : ℚ)), 1),
      (((1 : ℚ), (0 : ℚ)), 2)]
    (by norm_num)
    (by
      intro p hp q hq r hr
      simp only [List.map_cons, List.map_nil] at hp hq hr
      fin_cases hp <;> fin_cases hq <;> fin_cases hr <;>
        norm_num [side_query])
    (by norm_num [Prod.ext_iff])
  simpa using h

/-! ## Insertion at an existing position (C9) -/

/-- C9: inserting at a position that point location classifies as an
existing vertex `h`.  On the general (non-degenerate) path the vertex data
at `h` is replaced by the new data and nothing else changes; on the
all-on-line path the triangulation is returned completely unchanged — the
new payload is dropped.  In both cases the handle `h` is returned and the
vertex, edge and face counts are untouched. -/
theorem insert_at_existing_vertex (fuel : ℕ) (s : Cdt) (w : Point × ℕ)
    (hint h : ℕ) :
    (2 ≤ s.numVertices → all_vertices_on_line s = false →
      locate_with_hint_fixed_core s w.1 hint =
        some (PositionInTriangulation.onVertex h) →
      insert_with_hint fuel s w hint =
        some (s.update_vertex h w, InsertionResult.updated h) ∧
      (s.update_vertex h w).numVertices = s.numVertices ∧
      (s.update_vertex h w).edges = s.edges ∧
      (s.update_vertex h w).numFaces = s.numFaces ∧
      (s.update_vertex h w).vdata h = w) ∧
    (2 ≤ s.numVertices → all_vertices_on_line s = true →
      locate_when_all_vertices_on_line s w.1 =
        some (PositionWhenAllVerticesOnLine.onVertex h) →
      insert_with_hint fuel s w hint =
        some (s, InsertionResult.updated h)) := by
  constructor
  · intro hn hline hloc
    obtain ⟨k, hnv⟩ : ∃ k, s.numVertices = k + 2 :=
      ⟨s.numVertices - 2, by omega⟩
    refine ⟨?_, rfl, rfl, rfl, by simp [Cdt.update_vertex]⟩
    simp only [insert_with_hint, hnv, hline, hloc]
    rfl
  · intro hn hline hloc
    obtain ⟨k, hnv⟩ : ∃ k, s.numVertices = k + 2 :=
      ⟨s.numVertices - 2, by omega⟩
    simp only [insert_with_hint, hnv, hline, hloc,
      insert_when_all_vertices_on_line, if_true]

/-- Vertex records of the degenerate two-vertex chain used to exhibit the
dropped payload. -/
def c9Vdata : ℕ → Point × ℕ
  | 0 => (((0 : ℚ), (0 : ℚ)), 10)
  | _ => (((1 : ℚ), (0 : ℚ)), 11)

/-- A degenerate two-vertex CDT: a single edge between (0,0) and (1,0),
all directed edges on the single outer face. -/
def c9Cdt : Cdt where
  nextEdge := 1
  edges := [0]
  bit := fun _ => false
  num_constraints := 0
  origin := fun d => if d = 0 then 0 else 1
  nxt := fun d => if d = 0 then 1 else 0
  prv := fun d => if d = 0 then 1 else 0
  face := fun _ => 0
  vdata := c9Vdata
  numVertices := 2
  numFaces := 1
  nextFace := 1

theorem c9_loc : locate_when_all_vertices_on_line c9Cdt ((1 : ℚ), (0 : ℚ)) =
    some (PositionWhenAllVerticesOnLine.onVertex 1) := by
  norm_num [locate_when_all_vertices_on_line, c9Cdt, c9Vdata, Cdt.edgeSide,
    Cdt.pos, Cdt.toVertex, rev, side_query, List.mergeSort, pointLe,
    List.find?, Prod.ext_iff, List.range_succ, List.range_zero]

theorem c9_loc_general :
    locate_with_hint_fixed_core bugCdt ((0 : ℚ), (-1 : ℚ)) 1 =
      some (PositionInTriangulation.onVertex 1) := rfl

/-- C9 — counterexample to the original claim: on the degenerate chain,
inserting the position of vertex 1 with a fresh payload 99 returns the
handle but keeps the old payload 11 — the data is not replaced. -/
theorem insert_payload_not_replaced :
    insert_with_hint 1 c9Cdt (((1 : ℚ), (0 : ℚ)), 99) 0 =
      some (c9Cdt, InsertionResult.updated 1) ∧
    c9Cdt.vdata 1 = (((1 : ℚ), (0 : ℚ)), 11) := by
  refine ⟨?_, rfl⟩
  have hnv : c9Cdt.numVertices = 2 := rfl
  have hall : all_vertices_on_line c9Cdt = true := rfl
  simp only [insert_with_hint, hnv, hall, if_true, c9_loc,
    insert_when_all_vertices_on_line]

/-- C9 — witness: both parts of the theorem at concrete states — the
non-degenerate quad replaces the payload at the located vertex, the
degenerate chain returns unchanged. -/
theorem insert_at_existing_vertex_witness :
    (insert_with_hint 1 bugCdt (((0 : ℚ), (-1 : ℚ)), 99) 1 =
        some (bugCdt.update_vertex 1 (((0 : ℚ), (-1 : ℚ)), 99),
          InsertionResult.updated 1) ∧
      (bugCdt.update_vertex 1 (((0 : ℚ), (-1 : ℚ)), 99)).numVertices =
        bugCdt.numVertices ∧
      (bugCdt.update_vertex 1 (((0 : ℚ), (-1 : ℚ)), 99)).vdata 1 =
        (((0 : ℚ), (-1 : ℚ)), 99)) ∧
    insert_with_hint 1 c9Cdt (((1 : ℚ), (0 : ℚ)), 99) 0 =
      some (c9Cdt, InsertionResult.updated 1) := by
  have h1 := (insert_at_existing_vertex 1 bugCdt (((0 : ℚ), (-1 : ℚ)), 99)
    1 1).1 (by norm_num [bugCdt]) rfl c9_loc_general
  have h2 := (insert_at_existing_vertex 1 c9Cdt (((1 : ℚ), (0 : ℚ)), 99)
    0 1).2 (by norm_num [c9Cdt]) rfl c9_loc
  exact ⟨⟨h1.1, h1.2.1, h1.2.2.2.2⟩, h2⟩

end SpadeProof
